import Mathlib

/-!
Woodpuzzle: a shallow embedding of `woodpuzzle.cpp`.

The program solves a sliding-block puzzle on a 4x5 grid.  This file embeds the
state-space engine of the program (pieces, moves, the position code
`calculate_hashvalue`, its decoder `puzzle(hashvalue, pieces, solution)`, the
transposition table `fails` and the depth-first `solve`) as Lean functions and
proves properties of them.

Conventions of the embedding:

* `int` fields of a piece are `Int`; no `int` computation of the program leaves
  the 32-bit range on the boards considered here.
* `uint32` is `unsigned long` in the source, whose width is 32 or 64 bits
  depending on the platform.  The width is the parameter `wb`; values that can
  wrap are reduced modulo `2 ^ wb` explicitly.
* The static members `hashtable`, `backtrace`, `sum` and the file-level `mode`
  are gathered in the record `globals`, passed explicitly.
* Printing and the statistics counters `moves`, `tries`, `recursions` do not
  influence control flow and are left out.
-/

namespace Woodpuzzle

/-! ## Constants -/

/-- Height of the puzzle (`#define H 5`). -/
def H : Nat := 5

/-- Width of the puzzle (`#define W 4`). -/
def W : Nat := 4

/-- Number of pieces (`#define N 10`). -/
def N : Nat := 10

/-- Upper bound of possible positions (`#define S (((N+1)*(N+1))<<(2*(N-1)))`). -/
def S : Nat := ((N + 1) * (N + 1)) <<< (2 * (N - 1))

/-- No search criterion on a coordinate (`#define X -1`). -/
def X : Int := -1

/-- Search criterion "at least" (`#define MIN -1`). -/
def MIN : Int := -1

/-- Search criterion "equal" (`#define EQ 0`). -/
def EQ : Int := 0

/-- Search criterion "at most" (`#define MAX 1`). -/
def MAX : Int := 1

def ILLEGAL : Nat := 0x00
def LEGAL : Nat := 0x01
def REACHED : Nat := 0x02
def EXPANDED : Nat := 0x04
def FOUND : Nat := 0x40
def FINAL : Nat := 0x80

/-- How to search: `static enum mode { depth_first, scan }`. -/
inductive mode where
  | depth_first
  | scan
deriving DecidableEq, Repr

/-! ## Pieces -/

/-- One piece of the puzzle: dimensions `x y w h` and success criteria
`tx ty match`. -/
structure piece where
  x : Int
  y : Int
  w : Int
  h : Int
  tx : Int
  ty : Int
  match_ : Int
deriving DecidableEq, Repr

/-- The constructor `piece(x=0, y=0, w=1, h=1, tx=X, ty=X, match=EQ)` with all
defaults. -/
def piece.default : piece := ⟨0, 0, 1, 1, X, X, EQ⟩

/-- Evaluate success criteria: `piece::nsolved` (true when NOT solved). -/
def piece.nsolved (t : piece) : Bool :=
  if t.match_ = MIN then
    (decide (t.tx ≠ X) && decide (t.x < t.tx)) || (decide (t.ty ≠ X) && decide (t.y < t.ty))
  else if t.match_ = MAX then
    (decide (t.tx ≠ X) && decide (t.x > t.tx)) || (decide (t.ty ≠ X) && decide (t.y > t.ty))
  else
    (decide (t.tx ≥ 0) && decide (t.x ≠ t.tx)) || (decide (t.ty ≥ 0) && decide (t.y ≠ t.ty))

/-- Check if pieces are at identical position and size: `piece::operator==`.
The left operand is a reference that is null when `add` failed, hence an
`Option`. -/
def piece.eq (t : Option piece) (p : piece) : Bool :=
  match t with
  | some t => decide (t.x = p.x) && decide (t.y = p.y) && decide (t.w = p.w) && decide (t.h = p.h)
  | none => false

/-- Check if the piece overlaps the given coordinates: `piece::overlaps`. -/
def piece.overlaps (t : piece) (nx ny : Int) : Bool :=
  decide (nx ≥ t.x) && decide (nx < t.x + t.w) && decide (ny ≥ t.y) && decide (ny < t.y + t.h)

/-! ## The puzzle -/

/-- The puzzle: the array `board[N]` with its fill count `pieces` is the list
`board` (so `pieces = board.length`), then the counters `illegal` and
`final`. -/
structure puzzle where
  board : List piece
  illegal : Nat
  final : Nat
deriving DecidableEq, Repr

/-- The static state of the program. -/
structure globals where
  mode : mode
  hashtable : Nat → Nat
  backtrace : Nat → Nat
  sum : Nat

/-- The member initialisers `pieces(0), illegal(0), final(0)`. -/
def puzzle.empty : puzzle := ⟨[], 0, 0⟩

/-- Add a piece to the puzzle: `puzzle::add`.  Returns the new puzzle and the
reference to the new piece (none for the null reference). -/
def puzzle.add (pz : puzzle) (x y : Int) (w h : Int) (tx ty : Int) (match_ : Int) :
    puzzle × Option piece :=
  if pz.board.length < N then
    ({ pz with board := pz.board ++ [⟨x, y, w, h, tx, ty, match_⟩] },
      some ⟨x, y, w, h, tx, ty, match_⟩)
  else
    ({ pz with illegal := pz.illegal + 1 }, none)

/-- Setup the start position of the puzzle: `puzzle::puzzle()`. -/
def puzzle.start : puzzle :=
  let p := puzzle.empty
  let p := (p.add 1 0 2 2 1 3 EQ).1
  let p := (p.add 1 2 2 1 X X EQ).1
  let p := (p.add 0 0 1 2 X X EQ).1
  let p := (p.add 3 0 1 2 X X EQ).1
  let p := (p.add 0 3 1 2 X X EQ).1
  let p := (p.add 3 3 1 2 X X EQ).1
  let p := (p.add 1 3 1 1 X X EQ).1
  let p := (p.add 2 3 1 1 X X EQ).1
  let p := (p.add 1 4 1 1 X X EQ).1
  let p := (p.add 2 4 1 1 X X EQ).1
  p

/-- The conversion `operator void*`: the puzzle is usable iff not illegal. -/
def puzzle.usable (pz : puzzle) : Bool := decide (pz.illegal = 0)

/-! ## Moving a piece -/

/-- The four corner cells of the rectangle `(x, y, w, h)` tested against the
piece `q`: the condition of the inner `if` of `piece::move`. -/
def piece.hits (q : piece) (x y w h : Int) : Bool :=
  q.overlaps x y || q.overlaps (x + w - 1) y ||
    q.overlaps x (y + h - 1) || q.overlaps (x + w - 1) (y + h - 1)

/-- The loop `for (int i=0; i<board(); i++)` of `piece::move`, called on the
piece `board[i]` with the moved rectangle `(x, y, w, h)`: true when the loop
returns 0 because some other piece is hit. -/
def piece.blocked (board : puzzle) (i : Nat) (x y w h : Int) : Bool :=
  (List.range board.board.length).any (fun j =>
    match board.board[j]? with
    | some q => decide (j ≠ i) && q.hits x y w h
    | none => false)

/-- Move piece if possible: `piece::move(board, dx, dy)`, called on the piece
`board[i]`.  Returns the result and the puzzle after the call. -/
def piece.move (board : puzzle) (i : Nat) (dx dy : Int) : Bool × puzzle :=
  match board.board[i]? with
  | none => (false, board)
  | some t =>
    if t.x + dx < 0 ∨ t.x + t.w + dx > W ∨ t.y + dy < 0 ∨ t.y + t.h + dy > H then
      (false, board)
    else if piece.blocked board i (t.x + dx) (t.y + dy) t.w t.h then
      (false, board)
    else
      (true, { board with board := board.board.set i { t with x := t.x + dx, y := t.y + dy } })

/-- Determine if this piece solves the puzzle: `piece::solved`, called on the
piece `t` of the puzzle `board`. -/
def piece.solved (t : piece) (board : puzzle) : Bool :=
  if t.tx = X ∧ t.ty = X then false
  else if board.board.any piece.nsolved then false
  else true

/-- The call `board[i]->solved(*this)` on the puzzle `pz`. -/
def puzzle.solvedAt (pz : puzzle) (i : Nat) : Bool :=
  match pz.board[i]? with
  | some t => t.solved pz
  | none => false

/-! ## The position code -/

/-- A store into `uint8 grid[H*W]` at an `int` index.  Indices outside the
array do not occur for pieces inside the grid; the model ignores such a
store. -/
def gridStore (grid : Nat → Nat) (idx : Int) (v : Nat) : Nat → Nat :=
  if idx < 0 ∨ idx ≥ H * W then grid else Function.update grid idx.toNat v

/-- The two inner loops of the first part of `calculate_hashvalue` for one
piece: `for (dy=h; dy--;) for (dx=w; dx--;) grid[(y+dy)*W+x+dx] = ...`. -/
def paintPiece (grid : Nat → Nat) (t : piece) : Nat → Nat :=
  (List.range t.h.toNat).reverse.foldl (fun (g : Nat → Nat) (dy : Nat) =>
    (List.range t.w.toNat).reverse.foldl (fun (g : Nat → Nat) (dx : Nat) =>
      gridStore g ((t.y + (dy : Int)) * W + t.x + (dx : Int))
        (if dy ≠ 0 ∨ dx ≠ 0 then 5 else ((2 * (t.h - 1) + t.w) % 256).toNat)) g) grid

/-- The grid built by the first loop of `calculate_hashvalue`. -/
def paintBoard (board : List piece) : Nat → Nat :=
  board.foldl paintPiece (fun _ => 0)

/-- The local variables `e`, `i`, `hashvalue` of `calculate_hashvalue` and the
static `sum` during the scan of the grid. -/
structure hashScan where
  e : Nat
  i : Nat
  hashvalue : Nat
  sum : Nat
deriving DecidableEq, Repr

/-- The body of the scan loops of `calculate_hashvalue` at the cell `(x, y)`. -/
def scanCell (wb pieces : Nat) (grid : Nat → Nat) (st : hashScan) (y x : Nat) : hashScan :=
  if grid (y * W + x) ≠ 0 then
    if grid (y * W + x) < 5 then
      { st with
        hashvalue := ((st.hashvalue <<< 2) % 2 ^ wb) ||| (grid (y * W + x) - 1)
        sum := (st.sum + (grid (y * W + x) - 1)) % 2 ^ wb
        i := (st.i + 1) % 2 ^ wb }
    else st
  else
    { st with e := (st.e * (pieces + 1) + st.i) % 2 ^ wb }

/-- The scan loops `for (y=0; y<H; y++) for (x=0; x<W; x++)` of
`calculate_hashvalue`. -/
def scanGrid (wb pieces : Nat) (grid : Nat → Nat) : hashScan :=
  (List.range H).foldl (fun st y =>
    (List.range W).foldl (fun st x => scanCell wb pieces grid st y x) st) ⟨0, 0, 0, 0⟩

/-- Enumerate all possible positions: `puzzle::calculate_hashvalue`.  Returns
the hashvalue and the new value of the static `sum`. -/
def puzzle.calculate_hashvalue (wb : Nat) (pz : puzzle) : Nat × Nat :=
  let st := scanGrid wb pz.board.length (paintBoard pz.board)
  (((st.hashvalue >>> 2) * (pz.board.length + 1) * (pz.board.length + 1) + st.e) % 2 ^ wb,
    st.sum)

/-- Move piece and calculate the hashvalue of the resulting position:
`piece::move(board, dx, dy, hashvalue)`.  Returns the result, the puzzle, the
statics and the hashvalue (0 stands for the unset variable on failure). -/
def piece.moveHash (wb : Nat) (board : puzzle) (g : globals) (i : Nat) (dx dy : Int) :
    Bool × puzzle × globals × Nat :=
  match piece.move board i dx dy with
  | (true, board1) =>
    (true, board1, { g with sum := (board1.calculate_hashvalue wb).2 },
      (board1.calculate_hashvalue wb).1)
  | (false, board1) => (false, board1, g, 0)

/-! ## Decoding a position code -/

/-- Subtraction of `uint32` values. -/
def wsub (wb a b : Nat) : Nat := (a % 2 ^ wb + 2 ^ wb - b % 2 ^ wb) % 2 ^ wb

/-- The local variables of the decoding constructor that change in its
`while` loop. -/
structure decodeState where
  e : Nat
  i : Nat
  n : Nat
  p : Nat
  r : Nat
  s : Nat
  grid : Nat → Nat
  illegal : Nat

/-- The inner loop `while (p<H*W && grid[p]) p++`. -/
def skipCovered (grid : Nat → Nat) : Nat → Nat → Nat
  | 0, p => p
  | fuel + 1, p => if p < H * W ∧ grid p ≠ 0 then skipCovered grid fuel (p + 1) else p

/-- The `switch (v)` of the decoder: the pair `(h, w)`. -/
def shapeOf (v : Nat) : Nat × Nat :=
  match v with
  | 0 => (0, 0)
  | 1 => (0, 1)
  | 2 => (1, 0)
  | _ => (1, 1)

/-- One iteration of the loop `while (p<H*W)` of the decoding constructor,
the inner loop included.  `hashvalue` is the value after the division by
`(pieces+1)*(pieces+1)`. -/
def decodeBody (wb pieces hashvalue sum : Nat) (st : decodeState) : decodeState :=
  let st1 : decodeState :=
    if st.i = st.e / (pieces + 1) % (pieces + 1) then
      { st with n := st.n + 1, p := st.p + 1, e := (st.e * (pieces + 1)) % 2 ^ wb }
    else
      let r1 := if st.r ≠ 0 then wsub wb st.r 1 else st.r
      let v := (if st.r ≠ 0 then hashvalue >>> ((2 * r1) % 2 ^ wb) else wsub wb sum st.s) &&& 0x03
      let h := (shapeOf v).1
      let w := (shapeOf v).2
      if st.p + h * W + w ≥ H * W ∨ st.p / W ≠ (st.p + w) / W then
        { st with r := r1, illegal := st.illegal + 1, s := (st.s + v) % 2 ^ wb, i := st.i + 1 }
      else
        { st with
          r := r1
          grid := Function.update (Function.update (Function.update (Function.update st.grid
            (st.p + w) 5) (st.p + h * W) 5) (st.p + h * W + w) 5) st.p (v + 1)
          s := (st.s + v) % 2 ^ wb
          i := st.i + 1 }
  { st1 with p := skipCovered st1.grid (H * W) st1.p }

/-- The loop `while (p<H*W)` of the decoding constructor, run for at most
`fuel` iterations; `none` when the loop has not ended by then. -/
def decodeLoop (wb pieces hashvalue sum : Nat) : Nat → decodeState → Option decodeState
  | 0, st => if st.p < H * W then none else some st
  | fuel + 1, st =>
    if st.p < H * W then decodeLoop wb pieces hashvalue sum fuel (decodeBody wb pieces hashvalue sum st)
    else some st

/-- The body of the final loops of the decoding constructor at the cell
`(x, y)`: a piece is added for every anchor cell and compared with
`solution`. -/
def buildCell (grid : Nat → Nat) (solution : piece) (pz : puzzle) (y x : Nat) : puzzle :=
  if grid (y * W + x) ≠ 0 then
    if grid (y * W + x) < 5 then
      let r := pz.add x y (1 + ((grid (y * W + x) : Int) - 1) % 2)
        (1 + ((grid (y * W + x) : Int) - 1) / 2) X X EQ
      if piece.eq r.2 solution then { r.1 with final := r.1.final + 1 } else r.1
    else pz
  else pz

/-- The final loops `for (y=H; y--;) for (x=W; x--;)` of the decoding
constructor. -/
def buildBoard (grid : Nat → Nat) (solution : piece) (pz : puzzle) : puzzle :=
  (List.range H).reverse.foldl (fun pz y =>
    (List.range W).reverse.foldl (fun pz x => buildCell grid solution pz y x) pz) pz

/-- Number of iterations granted to the loop of the decoder. -/
def decodeFuel : Nat := 64

/-- Setup a position from its hashvalue:
`puzzle::puzzle(uint32 hashvalue, int pieces, const piece& solution)`; `sum` is
the value of the static `sum` at the call.  The result is `none` when the
`while` loop has not ended after `decodeFuel` iterations. -/
def puzzle.decode (wb : Nat) (hashvalue pieces : Nat) (solution : piece) (sum : Nat) :
    Option puzzle :=
  let e := hashvalue % ((pieces + 1) * (pieces + 1))
  let hashvalue := hashvalue / ((pieces + 1) * (pieces + 1))
  match decodeLoop wb pieces hashvalue sum decodeFuel
      ⟨e, 0, 0, 0, wsub wb pieces 1, 0, fun _ => 0, 0⟩ with
  | none => none
  | some st =>
    let illegal := if st.n ≠ 2 ∨ st.i ≠ pieces ∨ st.s ≠ sum then st.illegal + 1 else st.illegal
    some (buildBoard st.grid solution ⟨[], illegal, 0⟩)

/-! ## The search -/

/-- Check if the given position has been searched before: `puzzle::fails`.
Returns the result and the hashtable after the call. -/
def puzzle.fails (depth hashvalue : Nat) (hashtable : Nat → Nat) : Bool × (Nat → Nat) :=
  if hashtable hashvalue < depth then
    (false, Function.update hashtable hashvalue depth)
  else
    (true, hashtable)

/-- The moves tried by the three nested loops of `puzzle::solve`, in order:
the piece index `i`, then `dy`, then `dx`, restricted by
`(dx && !dy) || (!dx && dy)`. -/
def candidates (pieces : Nat) : List (Nat × Int × Int) :=
  (List.range pieces).flatMap fun i =>
    ([-1, 0, 1] : List Int).flatMap fun dy =>
      (([-1, 0, 1] : List Int).filter fun dx =>
        decide ((dx ≠ 0 ∧ ¬ dy ≠ 0) ∨ (¬ dx ≠ 0 ∧ dy ≠ 0))).map fun dx => (i, dy, dx)

/-- The three nested loops of `puzzle::solve(depth, from)` over the remaining
candidates; `recur` is the recursive call `solve(depth-1)`. -/
def solveLoop (wb : Nat) (recur : puzzle → globals → Bool × puzzle × globals)
    (depth from_ : Nat) : List (Nat × Int × Int) → puzzle → globals → Bool × puzzle × globals
  | [], pz, g => (false, pz, g)
  | (i, dy, dx) :: rest, pz, g =>
    match piece.moveHash wb pz g i dx dy with
    | (false, pz1, g1, _) => solveLoop wb recur depth from_ rest pz1 g1
    | (true, pz1, g1, hashvalue) =>
      match g1.mode with
      | mode.depth_first =>
        -- recursively search depth first
        let won : Bool × puzzle × globals :=
          if pz1.solvedAt i then (true, pz1, g1)
          else
            match puzzle.fails depth hashvalue g1.hashtable with
            | (true, ht) => (false, pz1, { g1 with hashtable := ht })
            | (false, ht) => recur pz1 { g1 with hashtable := ht }
        match won with
        | (true, pz2, g2) => (true, (piece.move pz2 i (-dx) (-dy)).2, g2)
        | (false, pz2, g2) =>
          -- undo move
          solveLoop wb recur depth from_ rest (piece.move pz2 i (-dx) (-dy)).2 g2
      | mode.scan =>
        -- scan hashtable and keep track how a position has been reached
        let g2 : globals :=
          if g1.hashtable hashvalue &&& REACHED = 0 then
            { g1 with
              hashtable := Function.update g1.hashtable hashvalue (g1.hashtable hashvalue ||| REACHED)
              backtrace := Function.update g1.backtrace hashvalue from_ }
          else g1
        -- undo move
        solveLoop wb recur depth from_ rest (piece.move pz1 i (-dx) (-dy)).2 g2

/-- Solve the puzzle by searching to the given depth:
`puzzle::solve(uint8 depth, uint32 from)`. -/
def puzzle.solve (wb : Nat) : Nat → Nat → puzzle → globals → Bool × puzzle × globals
  | 0, _, pz, g => (false, pz, g)
  | depth + 1, from_, pz, g =>
    solveLoop wb (puzzle.solve wb depth 0) (depth + 1) from_ (candidates pz.board.length) pz g

/-- The loop of the iteratively deepening search `puzzle::solve()` over the
remaining depths: the first depth at which `solve(depth)` succeeds, if any. -/
def deepen (wb : Nat) : List Nat → puzzle → globals → Option Nat × puzzle × globals
  | [], pz, g => (none, pz, g)
  | depth :: rest, pz, g =>
    match puzzle.solve wb depth 0 pz g with
    | (true, pz1, g1) => (some depth, pz1, g1)
    | (false, pz1, g1) => deepen wb rest pz1 g1

/-- Iteratively deepening depth-first search: `puzzle::solve()`.  The loop
`for (uint8 depth=1; depth; depth++)` runs the depths 1 to 255. -/
def puzzle.solveDeepening (wb : Nat) (pz : puzzle) (g : globals) : Option Nat × puzzle × globals :=
  deepen wb (List.range' 1 255) pz g

/-- The statics at program start: all tables zero, `mode = depth_first`. -/
def globals.init : globals := ⟨mode.depth_first, fun _ => 0, fun _ => 0, 0⟩

/-! ## Specification vocabulary -/

/-- A unit step: exactly one of `dx`, `dy` is nonzero, and it is `1` or `-1`. -/
def unitStep (dx dy : Int) : Prop :=
  (dy = 0 ∧ (dx = 1 ∨ dx = -1)) ∨ (dx = 0 ∧ (dy = 1 ∨ dy = -1))

instance (dx dy : Int) : Decidable (unitStep dx dy) := by
  unfold unitStep; infer_instance

/-- The piece is at most 2x2: `w, h ∈ {1, 2}`. -/
def piece.small (t : piece) : Prop := (t.w = 1 ∨ t.w = 2) ∧ (t.h = 1 ∨ t.h = 2)

instance (t : piece) : Decidable t.small := by
  unfold piece.small; infer_instance

/-- The rectangle of the piece lies inside the `W`x`H` grid. -/
def piece.inside (t : piece) : Prop :=
  0 ≤ t.x ∧ t.x + t.w ≤ W ∧ 0 ≤ t.y ∧ t.y + t.h ≤ H

instance (t : piece) : Decidable t.inside := by
  unfold piece.inside; infer_instance

/-- Two pieces share no cell of the grid. -/
def piece.apart (a b : piece) : Prop :=
  ∀ cx ∈ List.range W, ∀ cy ∈ List.range H,
    ¬ (a.overlaps cx cy = true ∧ b.overlaps cx cy = true)

instance (a b : piece) : Decidable (a.apart b) := by
  unfold piece.apart; infer_instance

/-- A legal board: every piece is at most 2x2 and inside the grid, and the
pieces are pairwise disjoint. -/
def puzzle.legal (pz : puzzle) : Prop :=
  (∀ t ∈ pz.board, t.small ∧ t.inside) ∧ pz.board.Pairwise piece.apart

instance (pz : puzzle) : Decidable pz.legal := by
  unfold puzzle.legal; infer_instance

/-- The piece `t` moved by `(dx, dy)`. -/
def piece.shift (t : piece) (dx dy : Int) : piece := { t with x := t.x + dx, y := t.y + dy }

/-- A sequence of `piece::move` calls `(i, dy, dx)` that all succeed, applied
in order; `none` as soon as one call fails. -/
def applyMoves : List (Nat × Int × Int) → puzzle → Option puzzle
  | [], b => some b
  | (i, dy, dx) :: ms, b =>
    match piece.move b i dx dy with
    | (true, b1) => applyMoves ms b1
    | (false, _) => none

/-- All moves of the sequence are unit steps. -/
def unitMoves (ms : List (Nat × Int × Int)) : Prop := ∀ m ∈ ms, unitStep m.2.2 m.2.1

instance (ms : List (Nat × Int × Int)) : Decidable (unitMoves ms) := by
  unfold unitMoves; infer_instance

/-- The position, size part of a piece: the tuple `(x, y, w, h)`. -/
def piece.tuple (t : piece) : Int × Int × Int × Int := (t.x, t.y, t.w, t.h)

/-- The piece carries a real goal constraint: the negation of the guard
`tx==X && ty==X` of `piece::solved`. -/
def piece.hasGoal (t : piece) : Prop := ¬ (t.tx = X ∧ t.ty = X)

instance (t : piece) : Decidable t.hasGoal := by
  unfold piece.hasGoal; infer_instance

/-- The goal is satisfied on the board: at least one piece carries a real goal
constraint and no piece is unsolved. -/
def puzzle.goalSatisfied (pz : puzzle) : Prop :=
  (∃ t ∈ pz.board, t.hasGoal) ∧ ∀ t ∈ pz.board, t.nsolved = false

instance (pz : puzzle) : Decidable pz.goalSatisfied := by
  unfold puzzle.goalSatisfied; infer_instance

/-- The hashtable after a sequence of calls `fails(depth, hashvalue)`, given as
pairs `(depth, hashvalue)`, applied in order to the table `ht`. -/
def replayClaims (claims : List (Nat × Nat)) (ht : Nat → Nat) : Nat → Nat :=
  claims.foldl (fun ht c => (puzzle.fails c.1 c.2 ht).2) ht

/-- The solution piece passed by `scan_hashtable`: `piece(1, 3, 2, 2)`. -/
def solutionPiece : piece := ⟨1, 3, 2, 2, X, X, EQ⟩

/-! ## Boards used as concrete inputs -/

/-- A legal arrangement of the pieces of the start configuration with the 2x2
piece on its goal `(1, 3)`. -/
def goalBoard : puzzle :=
  ⟨[⟨1, 3, 2, 2, 1, 3, EQ⟩, ⟨1, 0, 2, 1, X, X, EQ⟩, ⟨0, 0, 1, 2, X, X, EQ⟩,
    ⟨3, 0, 1, 2, X, X, EQ⟩, ⟨0, 2, 1, 2, X, X, EQ⟩, ⟨3, 2, 1, 2, X, X, EQ⟩,
    ⟨1, 1, 1, 1, X, X, EQ⟩, ⟨2, 1, 1, 1, X, X, EQ⟩, ⟨0, 4, 1, 1, X, X, EQ⟩,
    ⟨3, 4, 1, 1, X, X, EQ⟩], 0, 0⟩

/-- The board `goalBoard` with the 2x2 piece one step before its goal: an
arrangement of the start pieces that is solved by one move. -/
def nearGoalBoard : puzzle :=
  ⟨[⟨1, 2, 2, 2, 1, 3, EQ⟩, ⟨1, 0, 2, 1, X, X, EQ⟩, ⟨0, 0, 1, 2, X, X, EQ⟩,
    ⟨3, 0, 1, 2, X, X, EQ⟩, ⟨0, 2, 1, 2, X, X, EQ⟩, ⟨3, 2, 1, 2, X, X, EQ⟩,
    ⟨1, 1, 1, 1, X, X, EQ⟩, ⟨2, 1, 1, 1, X, X, EQ⟩, ⟨0, 4, 1, 1, X, X, EQ⟩,
    ⟨3, 4, 1, 1, X, X, EQ⟩], 0, 0⟩

/-- A sequence of 23 unit moves `(i, dy, dx)` from the start configuration
that ends with the two empty cells at `(0, 0)` and `(1, 0)`. -/
def cornerPath : List (Nat × Int × Int) :=
  [(1, 0, -1), (7, -1, 0), (7, 0, 1), (1, 0, 1), (4, -1, 0), (8, 0, -1), (9, 0, -1),
    (5, 0, -1), (7, 1, 0), (3, 1, 0), (7, 1, 0), (3, 1, 0), (0, 0, 1), (2, 0, 1), (4, -1, 0),
    (4, -1, 0), (1, 0, -1), (5, -1, 0), (9, 0, 1), (6, 1, 0), (1, 1, 0), (2, 1, 0), (4, 1, 0)]

/-- The board reached from the start configuration by `cornerPath`. -/
def cornerBoard : puzzle :=
  ⟨[⟨2, 0, 2, 2, 1, 3, EQ⟩, ⟨0, 3, 2, 1, X, X, EQ⟩, ⟨1, 1, 1, 2, X, X, EQ⟩,
    ⟨3, 2, 1, 2, X, X, EQ⟩, ⟨0, 1, 1, 2, X, X, EQ⟩, ⟨2, 2, 1, 2, X, X, EQ⟩,
    ⟨1, 4, 1, 1, X, X, EQ⟩, ⟨3, 4, 1, 1, X, X, EQ⟩, ⟨0, 4, 1, 1, X, X, EQ⟩,
    ⟨2, 4, 1, 1, X, X, EQ⟩], 0, 0⟩

/-- The board decoded from the code 12927870: ten pieces inside the grid, of
which `(2, 0, 1, 2)` and `(1, 1, 2, 1)` both cover the cell `(2, 1)`. -/
def overlapBoard : puzzle :=
  ⟨[⟨1, 4, 2, 1, X, X, EQ⟩, ⟨1, 3, 2, 1, X, X, EQ⟩, ⟨0, 3, 1, 2, X, X, EQ⟩,
    ⟨2, 2, 2, 1, X, X, EQ⟩, ⟨0, 2, 2, 1, X, X, EQ⟩, ⟨1, 1, 2, 1, X, X, EQ⟩,
    ⟨0, 1, 1, 1, X, X, EQ⟩, ⟨3, 0, 1, 2, X, X, EQ⟩, ⟨2, 0, 1, 2, X, X, EQ⟩,
    ⟨0, 0, 2, 1, X, X, EQ⟩], 0, 0⟩

/-! ## Vocabulary for the grid -/

/-- The piece covers the cell with raster index `q` (the cell
`(q % W, q / W)`). -/
def piece.covers (t : piece) (q : Nat) : Bool :=
  t.overlaps ((q % W : Nat) : Int) ((q / W : Nat) : Int)

/-- The raster index `y*W+x` of the anchor cell of the piece. -/
def piece.anchor (t : piece) : Int := t.y * W + t.x

/-- The value `2*(h-1)+w` stored in `uint8 grid[]` at the anchor cell of the
piece by `calculate_hashvalue`. -/
def piece.code (t : piece) : Nat := ((2 * (t.h - 1) + t.w) % 256).toNat

/-- The value stored by `calculate_hashvalue` for the piece `t` at a cell `q`
that it covers. -/
def piece.paintVal (t : piece) (q : Nat) : Nat :=
  if (q : Int) = t.anchor then t.code else 5

/-- The body of the scan loops of `calculate_hashvalue` at a cell whose grid
value is `v`. -/
def scanStep (wb pieces v : Nat) (st : hashScan) : hashScan :=
  if v ≠ 0 then
    if v < 5 then
      { st with
        hashvalue := ((st.hashvalue <<< 2) % 2 ^ wb) ||| (v - 1)
        sum := (st.sum + (v - 1)) % 2 ^ wb
        i := (st.i + 1) % 2 ^ wb }
    else st
  else
    { st with e := (st.e * (pieces + 1) + st.i) % 2 ^ wb }

/-- The state of the scan of `calculate_hashvalue` after the cells with raster
index below `p`. -/
def scanTo (wb pieces : Nat) (G : Nat → Nat) (p : Nat) : hashScan :=
  (List.range p).foldl (fun st q => scanStep wb pieces (G q) st) ⟨0, 0, 0, 0⟩

/-- The shape codes of the anchor cells with raster index below `p`, in raster
order. -/
def codesTo (G : Nat → Nat) (p : Nat) : List Nat :=
  (List.range p).filterMap fun q => if 0 < G q ∧ G q < 5 then some (G q - 1) else none

/-- For every empty cell with raster index below `p`, in raster order, the
number of anchor cells before it. -/
def emptiesTo (G : Nat → Nat) (p : Nat) : List Nat :=
  (List.range p).filterMap fun q => if G q = 0 then some (codesTo G q).length else none

/-- The number with the digits `l` in base `B`, most significant first. -/
def ofBase (B : Nat) (l : List Nat) : Nat := l.foldl (fun a d => a * B + d) 0

/-- The sum of `f` over the cells with raster index below `p`. -/
def cellSum (f : Nat → Nat) (p : Nat) : Nat := ((List.range p).map f).sum

/-- The part of a piece that no move changes: size and success criteria. -/
def piece.kind (t : piece) : Int × Int × Int × Int × Int := (t.w, t.h, t.tx, t.ty, t.match_)

/-- An arrangement of the pieces of the start configuration: a legal board
whose pieces have, index by index, the sizes and success criteria of the start
configuration. -/
def puzzle.arrangement (pz : puzzle) : Prop :=
  pz.legal ∧ pz.board.map piece.kind = puzzle.start.board.map piece.kind

instance (pz : puzzle) : Decidable pz.arrangement := by
  unfold puzzle.arrangement; infer_instance

/-- The horizontal extent minus one of the piece whose anchor cell holds the
grid value `v` (between 1 and 4). -/
def footW (v : Nat) : Nat := (v - 1) % 2

/-- The vertical extent minus one of the piece whose anchor cell holds the
grid value `v` (between 1 and 4). -/
def footH (v : Nat) : Nat := (v - 1) / 2

/-- The cell `q` is one of the (at most four) cells `a`, `a+w`, `a+h*W`,
`a+h*W+w` of the piece anchored at `a` with grid value `v`. -/
def inFoot (a v q : Nat) : Prop :=
  q = a ∨ q = a + footW v ∨ q = a + 4 * footH v ∨ q = a + 4 * footH v + footW v

/-- A well-formed grid: all values are at most 5; the footprint of every
anchor stays in its row and in the grid and holds 5 outside the anchor cell;
every cell holding 5 lies in the footprint of an anchor before it. -/
def gridWF (G : Nat → Nat) : Prop :=
  (∀ q < 20, G q ≤ 5) ∧
  (∀ a < 20, 0 < G a → G a < 5 →
    a % 4 + footW (G a) < 4 ∧ a + 4 * footH (G a) + footW (G a) < 20 ∧
      ∀ q, inFoot a (G a) q → q ≠ a → G q = 5) ∧
  (∀ q < 20, G q = 5 → ∃ a < q, 0 < G a ∧ G a < 5 ∧ inFoot a (G a) q)

/-- The piece that the final loops of the decoder add for the anchor cell
with raster index `q`. -/
def pieceAt (G : Nat → Nat) (q : Nat) : piece :=
  ⟨((q % 4 : Nat) : Int), ((q / 4 : Nat) : Int), 1 + ((G q : Int) - 1) % 2,
    1 + ((G q : Int) - 1) / 2, X, X, EQ⟩

/-- The anchor cells among the cells `l`. -/
def anchorsOf (G : Nat → Nat) (l : List Nat) : List Nat :=
  l.filter fun q => decide (0 < G q ∧ G q < 5)

/-- The grid after the decoder has placed a piece with shape code `v` at the
cell `p`: the four stores `grid[p+w] = 5; grid[p+h*W] = 5; grid[p+h*W+w] = 5;
grid[p] = v+1`. -/
def placeAt (G : Nat → Nat) (p v : Nat) : Nat → Nat :=
  Function.update (Function.update (Function.update (Function.update G
    (p + (shapeOf v).2) 5) (p + (shapeOf v).1 * W) 5)
    (p + (shapeOf v).1 * W + (shapeOf v).2) 5) p (v + 1)

/-- The shape code that the loop body reads for the next piece. -/
def nextCode (wb hv sum : Nat) (st : decodeState) : Nat :=
  (if st.r ≠ 0 then hv >>> ((2 * (if st.r ≠ 0 then wsub wb st.r 1 else st.r)) % 2 ^ wb)
    else wsub wb sum st.s) &&& 0x03

/-- The invariant of the loop of the decoder for the code `hv0 * 121 + e0`, as
long as no illegality has been found, at most two cells have been taken as
empty and at most ten pieces have been placed: the grid is well-formed so far,
the cells from `p` on hold 0 or 5, and the scan of `calculate_hashvalue` over
the cells before `p` reproduces the digits of the code consumed so far. -/
structure decInv (hv0 e0 : Nat) (st : decodeState) : Prop where
  p_le : st.p ≤ 20
  head : st.p < 20 → st.grid st.p = 0
  tail : ∀ q, st.p ≤ q → st.grid q = 0 ∨ st.grid q = 5
  le5 : ∀ q, st.grid q ≤ 5
  anch : ∀ a, 0 < st.grid a → st.grid a < 5 →
    a < st.p ∧ a % 4 + footW (st.grid a) < 4 ∧
      a + 4 * footH (st.grid a) + footW (st.grid a) < 20 ∧
      ∀ q, inFoot a (st.grid a) q → q ≠ a → st.grid q = 5
  cov : ∀ q, st.grid q = 5 →
    ∃ a, a < q ∧ 0 < st.grid a ∧ st.grid a < 5 ∧ inFoot a (st.grid a) q
  ilen : (codesTo st.grid st.p).length = st.i
  i_le : st.i ≤ 10
  nlen : (emptiesTo st.grid st.p).length = st.n
  n_le : st.n ≤ 2
  eval : ofBase 11 (emptiesTo st.grid st.p) = e0 / 11 ^ (2 - st.n)
  e_eq : st.e = e0 * 11 ^ st.n
  r_eq : st.r = 9 - st.i
  hval : st.i ≤ 9 → ofBase 4 (codesTo st.grid st.p) = hv0 / 4 ^ (9 - st.i)
  hval10 : st.i = 10 → ofBase 4 (codesTo st.grid st.p) / 4 = hv0
  s_eq : (codesTo st.grid st.p).sum = st.s
  legal : st.illegal = 0

/-- A state of the decoder from which the result is illegal whatever
follows. -/
def doomed (st : decodeState) : Prop := st.illegal ≠ 0 ∨ 2 < st.n ∨ 10 < st.i

/-- A quantity that decreases with every iteration of the loop of the
decoder: the cells left, plus the shape codes still to be read from the
hashvalue, plus one as long as the checksum can still yield a nonzero shape
code. -/
def decMeasure (wb sum : Nat) (st : decodeState) : Nat :=
  (20 - st.p) + st.r + (if st.r = 0 ∧ wsub wb sum st.s % 4 = 0 then 0 else 1)

/-! ## Vocabulary for the search -/

/-- Two boards hold the same pieces, possibly at different indices. -/
def puzzle.sameSet (b1 b2 : puzzle) : Prop := ∀ t, t ∈ b1.board ↔ t ∈ b2.board

/-- The position code of a board: the value returned by
`calculate_hashvalue`. -/
def hashOf (wb : Nat) (b : puzzle) : Nat := (b.calculate_hashvalue wb).1

/-- The entry of the code `c` in the hashtable `T` is justified: if it is at
least 2, every unit move from every arrangement with the code `c` leads to a
position that the solved check rejects and whose entry is at least `T c - 1`. -/
def closedAt (wb : Nat) (T : Nat → Nat) (c : Nat) : Prop :=
  2 ≤ T c → ∀ v : puzzle, v.arrangement → hashOf wb v = c →
    ∀ (i : Nat) (dy dx : Int) (w : puzzle), unitStep dx dy →
      piece.move v i dx dy = (true, w) →
      w.solvedAt i = false ∧ T c ≤ T (hashOf wb w) + 1

/-- A board on which the goal is satisfied can be reached from `b` by at
least one and at most `d` successful unit moves. -/
def solvableWithin (b : puzzle) (d : Nat) : Prop :=
  ∃ ms : List (Nat × Int × Int), 1 ≤ ms.length ∧ ms.length ≤ d ∧ unitMoves ms ∧
    ∃ w, applyMoves ms b = some w ∧ w.goalSatisfied

/-- A board on which the goal is satisfied can be reached from `b` by exactly
`k` successful unit moves. -/
def solvableIn (b : puzzle) (k : Nat) : Prop :=
  ∃ ms : List (Nat × Int × Int), ms.length = k ∧ unitMoves ms ∧
    ∃ w, applyMoves ms b = some w ∧ w.goalSatisfied

/-- The number `k` is the minimum number of unit moves from `b` to a board on
which the goal is satisfied. -/
def minimalSolution (b : puzzle) (k : Nat) : Prop :=
  solvableIn b k ∧ ∀ j < k, ¬ solvableIn b j

/-- What a failed call `solve(d)` on the board `b` guarantees: the board is
restored, the mode is unchanged, no hashtable entry has decreased, every unit
move from `b` leads to a position that is not solved and whose entry is at
least `d`, and every changed entry is justified. -/
def failSpec (wb d : Nat) (b : puzzle) (g : globals) (b1 : puzzle) (g1 : globals) : Prop :=
  b1 = b ∧ g1.mode = mode.depth_first ∧ (∀ c, g.hashtable c ≤ g1.hashtable c) ∧
    (1 ≤ d → ∀ (i : Nat) (dy dx : Int) (w : puzzle), unitStep dx dy →
      piece.move b i dx dy = (true, w) →
      w.solvedAt i = false ∧ d ≤ g1.hashtable (hashOf wb w)) ∧
    (∀ c, g1.hashtable c ≠ g.hashtable c → closedAt wb g1.hashtable c)

/-- The outcome of a call `solve(d)` on the board `b`: a failure satisfies
`failSpec`, a success means that a solution of at most `d` moves exists. -/
def solveSpec (wb d : Nat) (b : puzzle) (g : globals) (r : Bool × puzzle × globals) : Prop :=
  (r.1 = false → failSpec wb d b g r.2.1 r.2.2) ∧ (r.1 = true → solvableWithin b d)

/-- The outcome of the loop of `solve(d)` over the candidates `cands` on the
board `b`: as `solveSpec`, with the guarantee about moves restricted to the
candidates. -/
def loopSpec (wb d : Nat) (cands : List (Nat × Int × Int)) (b : puzzle) (g : globals)
    (r : Bool × puzzle × globals) : Prop :=
  (r.1 = false →
    r.2.1 = b ∧ r.2.2.mode = mode.depth_first ∧
      (∀ c, g.hashtable c ≤ r.2.2.hashtable c) ∧
      (∀ (i : Nat) (dy dx : Int), (i, dy, dx) ∈ cands → ∀ w : puzzle,
        piece.move b i dx dy = (true, w) →
        w.solvedAt i = false ∧ d ≤ r.2.2.hashtable (hashOf wb w)) ∧
      (∀ c, r.2.2.hashtable c ≠ g.hashtable c → closedAt wb r.2.2.hashtable c)) ∧
  (r.1 = true → solvableWithin b d)

/-! ## Vocabulary for the scenarios -/

/-- The shape code of a piece as the specification defines it:
`2*(h-1) + (w-1)`. -/
def piece.shapeCode (t : piece) : Int := 2 * (t.h - 1) + (t.w - 1)

/-- The tuples `(x, y, w, h)` of the ten pieces of the start configuration. -/
def startTuples : List (Int × Int × Int × Int) :=
  [(1, 0, 2, 2), (1, 2, 2, 1), (0, 0, 1, 2), (3, 0, 1, 2), (0, 3, 1, 2), (3, 3, 1, 2),
    (1, 3, 1, 1), (2, 3, 1, 1), (1, 4, 1, 1), (2, 4, 1, 1)]

/-- The board that the decoder builds from the code of the start
configuration: the pieces in reverse raster order of their anchor cells, none
with a goal. -/
def startDecoded : puzzle :=
  ⟨[⟨2, 4, 1, 1, X, X, EQ⟩, ⟨1, 4, 1, 1, X, X, EQ⟩, ⟨3, 3, 1, 2, X, X, EQ⟩,
    ⟨2, 3, 1, 1, X, X, EQ⟩, ⟨1, 3, 1, 1, X, X, EQ⟩, ⟨0, 3, 1, 2, X, X, EQ⟩,
    ⟨1, 2, 2, 1, X, X, EQ⟩, ⟨3, 0, 1, 2, X, X, EQ⟩, ⟨1, 0, 2, 2, X, X, EQ⟩,
    ⟨0, 0, 1, 2, X, X, EQ⟩], 0, 0⟩

/-- The pieces of a puzzle that carry a real goal constraint. -/
def puzzle.goalPieces (pz : puzzle) : List piece := pz.board.filter fun t => decide t.hasGoal

/-- A legal board of ten pieces that cover all twenty cells: eight upright
1x2 pieces on the rows 0 to 3 and two lying 2x1 pieces on the row 4.  No piece
can move. -/
def fullBoard : puzzle :=
  ⟨[⟨0, 0, 1, 2, X, X, EQ⟩, ⟨1, 0, 1, 2, X, X, EQ⟩, ⟨2, 0, 1, 2, X, X, EQ⟩,
    ⟨3, 0, 1, 2, X, X, EQ⟩, ⟨0, 2, 1, 2, X, X, EQ⟩, ⟨1, 2, 1, 2, X, X, EQ⟩,
    ⟨2, 2, 1, 2, X, X, EQ⟩, ⟨3, 2, 1, 2, X, X, EQ⟩, ⟨0, 4, 2, 1, X, X, EQ⟩,
    ⟨2, 4, 2, 1, X, X, EQ⟩], 0, 0⟩

/-- The depths at which the loop of `puzzle::solve()` over the remaining
depths calls `solve(depth)`, in order: the loop goes on to the next depth
after a failure and ends at the first success. -/
def depthsRun (wb : Nat) : List Nat → puzzle → globals → List Nat
  | [], _, _ => []
  | depth :: rest, pz, g =>
    match puzzle.solve wb depth 0 pz g with
    | (true, _, _) => [depth]
    | (false, pz1, g1) => depth :: depthsRun wb rest pz1 g1

/-- The depths at which `puzzle::solve()` calls `solve(depth)`; the loop
`for (uint8 depth=1; depth; depth++)` offers the depths 1 to 255. -/
def puzzle.depthsSearched (wb : Nat) (pz : puzzle) (g : globals) : List Nat :=
  depthsRun wb (List.range' 1 255) pz g

/-! ## The hashtable scan -/

/-- The codes visited by the loops `for (int i=0; i<S; i++)`, in order. -/
@[irreducible] def allCodes : List Nat := List.range S

/-- The body of the first loop of `scan_hashtable` at the code `i`:
`puzzle p(i, pieces, piece(1, 3, 2, 2));
hashtable[i] = p ? (p.final ? LEGAL|FINAL : LEGAL) : ILLEGAL`.  The counters
`legal` and `final` are only printed. -/
def classifyCode (wb pieces sum : Nat) (ht : Nat → Nat) (i : Nat) : Option (Nat → Nat) :=
  (puzzle.decode wb i pieces solutionPiece sum).map fun p =>
    Function.update ht i
      (if p.usable then (if p.final ≠ 0 then LEGAL ||| FINAL else LEGAL) else ILLEGAL)

/-- The first loop of `scan_hashtable` over the remaining codes. -/
def classify (wb pieces sum : Nat) : List Nat → (Nat → Nat) → Option (Nat → Nat)
  | [], ht => some ht
  | i :: rest, ht =>
    match classifyCode wb pieces sum ht i with
    | none => none
    | some ht1 => classify wb pieces sum rest ht1

/-- The part of `scan_hashtable` before its `while (1)` loop, called on the
puzzle `pz`: `start = calculate_hashvalue()`, the first loop over all codes,
`mode = scan` and `hashtable[start] |= REACHED`. -/
def scanInit (wb : Nat) (pz : puzzle) (g : globals) : Option globals :=
  (classify wb pz.board.length (pz.calculate_hashvalue wb).2 allCodes g.hashtable).map
    fun ht =>
      ⟨mode.scan,
        Function.update ht (pz.calculate_hashvalue wb).1
          (ht (pz.calculate_hashvalue wb).1 ||| REACHED),
        g.backtrace, (pz.calculate_hashvalue wb).2⟩

/-- The loop `while (i) { ...; i = backtrace[i]; }` that prints a solution,
started at the code `i`: the codes printed, in order; `none` when the loop has
not ended after `fuel` iterations.  The puzzle decoded in the loop is only
printed. -/
def printPath (backtrace : Nat → Nat) : Nat → Nat → Option (List Nat)
  | _, 0 => some []
  | 0, _ + 1 => none
  | fuel + 1, i + 1 =>
    (printPath backtrace fuel (backtrace (i + 1))).map fun l => (i + 1) :: l

/-- The statics together with the locals `solved` and `expand` of
`scan_hashtable`. -/
structure scanState where
  g : globals
  solved : Nat
  expand : Nat

/-- The first `if` of the body of the scan loop at the code `i`: a code that
is marked REACHED and FINAL but not FOUND is marked FOUND and counted in
`solved`. -/
def markFound (st : scanState) (i : Nat) : scanState :=
  if st.g.hashtable i &&& (REACHED ||| FINAL ||| FOUND) = (REACHED ||| FINAL) then
    { st with
      g := { st.g with
        hashtable := Function.update st.g.hashtable i (st.g.hashtable i ||| FOUND) }
      solved := st.solved + 1 }
  else st

/-- The expansion of the code `i` in the body of the scan loop, `p` being the
puzzle decoded from `i`: `p.solve(1, i); hashtable[i] |= EXPANDED;
expand++`. -/
def expandCode (wb : Nat) (st : scanState) (i : Nat) (p : puzzle) : scanState :=
  { g := { (puzzle.solve wb 1 i p st.g).2.2 with
      hashtable := Function.update (puzzle.solve wb 1 i p st.g).2.2.hashtable i
        ((puzzle.solve wb 1 i p st.g).2.2.hashtable i ||| EXPANDED) }
    solved := st.solved
    expand := st.expand + 1 }

/-- The body of the loop `for (int i=0; i<S; i++)` inside the `while (1)` loop
of `scan_hashtable(all)` at the code `i`.  The result holds whether the body
leaves the loop by `break`; it is `none` when the printing loop or the decoder
has not ended within its fuel. -/
def scanBody (wb : Nat) (all : Int) (pieces walkFuel : Nat) (st : scanState) (i : Nat) :
    Option (Bool × scanState) :=
  if st.g.hashtable i &&& LEGAL ≠ 0 then
    if st.g.hashtable i &&& (REACHED ||| FINAL ||| FOUND) = (REACHED ||| FINAL) ∧ all = 0 then
      -- print the solution and leave the loop
      (printPath (markFound st i).g.backtrace walkFuel i).map fun _ => (true, markFound st i)
    else if (markFound st i).g.hashtable i &&& (REACHED ||| FINAL ||| EXPANDED) = REACHED then
      match puzzle.decode wb i pieces piece.default (markFound st i).g.sum with
      | none => none
      | some p => some (false, expandCode wb (markFound st i) i p)
    else some (false, markFound st i)
  else some (false, st)

/-- The loop `for (int i=0; i<S; i++)` inside the `while (1)` loop of
`scan_hashtable` over the remaining codes. -/
def scanRound (wb : Nat) (all : Int) (pieces walkFuel : Nat) :
    List Nat → scanState → Option (Bool × scanState)
  | [], st => some (false, st)
  | i :: rest, st =>
    match scanBody wb all pieces walkFuel st i with
    | none => none
    | some (true, st1) => some (true, st1)
    | some (false, st1) => scanRound wb all pieces walkFuel rest st1

/-- The loop `while (1)` of `scan_hashtable(all)`, run for at most `fuel`
rounds, `codes` being the codes that the inner loop visits: the statics,
`solved` and `total` at the end; `none` when the loop has not ended by
then. -/
def scanLoop (wb : Nat) (all : Int) (pieces walkFuel : Nat) (codes : List Nat) :
    Nat → globals → Nat → Nat → Option (globals × Nat × Nat)
  | 0, _, _, _ => none
  | fuel + 1, g, solved, total =>
    match scanRound wb all pieces walkFuel codes ⟨g, solved, 0⟩ with
    | none => none
    | some (_, st) =>
      if st.solved ≠ 0 ∧ all = 0 then some (st.g, st.solved, total)
      else if st.expand = 0 then some (st.g, st.solved, total)
      else scanLoop wb all pieces walkFuel codes fuel st.g st.solved (total + st.expand)

/-- Try to solve the puzzle by scanning the hashtable for all legal
positions: `puzzle::scan_hashtable(all)`. -/
def puzzle.scan_hashtable (wb : Nat) (all : Int) (walkFuel fuel : Nat) (pz : puzzle)
    (g : globals) : Option (globals × Nat × Nat) :=
  (scanInit wb pz g).bind fun g1 =>
    scanLoop wb all pz.board.length walkFuel allCodes fuel g1 0 0

/-! ## Vocabulary for the scan -/

/-- The statics after one candidate of `solve(1, from)` in scan mode whose
move has led to the board `w`: `sum` is the checksum of `w`, and if the code of
`w` is not marked REACHED it is marked and gets the predecessor `from`. -/
def markReached (wb : Nat) (g : globals) (w : puzzle) (from_ : Nat) : globals :=
  if g.hashtable (hashOf wb w) &&& REACHED = 0 then
    ⟨g.mode, Function.update g.hashtable (hashOf wb w) (g.hashtable (hashOf wb w) ||| REACHED),
      Function.update g.backtrace (hashOf wb w) from_, (w.calculate_hashvalue wb).2⟩
  else ⟨g.mode, g.hashtable, g.backtrace, (w.calculate_hashvalue wb).2⟩

/-- The code `c` is a successor code of the board `pz`: the code of a board
obtained from `pz` by one accepted unit move. -/
def successorCode (wb : Nat) (pz : puzzle) (c : Nat) : Prop :=
  ∃ (i : Nat) (dy dx : Int) (w : puzzle), unitStep dx dy ∧
    piece.move pz i dx dy = (true, w) ∧ hashOf wb w = c

/-- The code `c` is the code of a board obtained by one accepted unit move
from the board decoded from the code `frm` (piece count 10, checksum 12). -/
def linked (wb : Nat) (frm c : Nat) : Prop :=
  ∃ b, puzzle.decode wb frm 10 piece.default 12 = some b ∧ successorCode wb b c

/-- Following `n` predecessor links from the code `c` leads to the code
`start`, whose own predecessor is 0; every code on the way is linked to its
predecessor. -/
def chainTo (wb : Nat) (start : Nat) (backtrace : Nat → Nat) : Nat → Nat → Prop
  | 0, c => c = start ∧ backtrace c = 0
  | n + 1, c => c ≠ start ∧ linked wb (backtrace c) c ∧ chainTo wb start backtrace n (backtrace c)

/-- Every code of the table that is marked REACHED has a predecessor chain
to the code `start`. -/
def chainInv (wb : Nat) (start : Nat) (g : globals) : Prop :=
  ∀ c < S, g.hashtable c &&& REACHED ≠ 0 → ∃ n, chainTo wb start g.backtrace n c

/-- The points of a run of `scan_hashtable(all)` on the puzzle `pz` with the
statics `g0`: the state when the `while (1)` loop is entered, the state after
the loop body at any code below `S`, and the state when a new round starts
with `expand = 0`. -/
inductive scanPoint (wb : Nat) (all : Int) (walkFuel : Nat) (pz : puzzle) (g0 : globals) :
    scanState → Prop
  | init (g1 : globals) : scanInit wb pz g0 = some g1 → scanPoint wb all walkFuel pz g0 ⟨g1, 0, 0⟩
  | body (st : scanState) (i : Nat) (brk : Bool) (st1 : scanState) :
    scanPoint wb all walkFuel pz g0 st → i < S →
    scanBody wb all pz.board.length walkFuel st i = some (brk, st1) →
    scanPoint wb all walkFuel pz g0 st1
  | round (st : scanState) :
    scanPoint wb all walkFuel pz g0 st → scanPoint wb all walkFuel pz g0 ⟨st.g, st.solved, 0⟩

/-- A board like an arrangement of the start pieces, whatever the order and
the goals of its pieces: a legal board of ten pieces that cover 18 cells and
whose shape codes sum to 12. -/
def puzzle.layout (pz : puzzle) : Prop :=
  pz.legal ∧ pz.board.length = 10 ∧ (pz.board.map fun t => (t.w * t.h).toNat).sum = 18 ∧
    (pz.board.map fun t => t.code - 1).sum = 12

instance (pz : puzzle) : Decidable pz.layout := by
  unfold puzzle.layout; infer_instance

/-- The number of codes among `codes` that are not marked EXPANDED. -/
def unexpandedIn (codes : List Nat) (ht : Nat → Nat) : Nat :=
  (codes.filter fun i => decide (ht i &&& EXPANDED = 0)).length

/-- The code `c` is marked REACHED in the statics `g`. -/
def reached (g : globals) (c : Nat) : Prop := g.hashtable c &&& REACHED ≠ 0

instance (g : globals) (c : Nat) : Decidable (reached g c) := by
  unfold reached; infer_instance

/-- A predecessor chain of `n` links from the code `c` to the code `start`
all of whose codes are marked REACHED and lie below `S`. -/
def chainR (wb : Nat) (start : Nat) (g : globals) : Nat → Nat → Prop
  | 0, c => c = start
  | n + 1, c => c ≠ start ∧ g.backtrace c < S ∧ reached g (g.backtrace c) ∧
      linked wb (g.backtrace c) c ∧ chainR wb start g n (g.backtrace c)

/-- The invariant of the scan of the start configuration: the mode is `scan`
and the checksum is 12; every code marked LEGAL decodes to a usable puzzle; the
code of the start configuration is marked REACHED and has the predecessor 0;
every code marked REACHED is the code of a layout and has a predecessor chain
to the start code. -/
structure scanInv (wb : Nat) (g : globals) : Prop where
  mode_eq : g.mode = mode.scan
  sum_eq : g.sum = 12
  flags : ∀ i < S, g.hashtable i &&& LEGAL ≠ 0 →
    ∃ p, puzzle.decode wb i 10 solutionPiece 12 = some p ∧ p.illegal = 0
  start_ok : reached g (hashOf wb puzzle.start) ∧ g.backtrace (hashOf wb puzzle.start) = 0
  good : ∀ c < S, reached g c → ∃ b : puzzle, b.layout ∧ hashOf wb b = c
  chain : ∀ c < S, reached g c → ∃ n, chainR wb (hashOf wb puzzle.start) g n c

/-- A table in scan mode in which the code 22985208, the code of the start
configuration after its 2x1 piece has moved to the left, is marked LEGAL and
REACHED and has the predecessor 7; all other entries are 0. -/
def seenTable : globals :=
  ⟨mode.scan, fun i => if i = 22985208 then LEGAL ||| REACHED else 0,
    fun i => if i = 22985208 then 7 else 0, 12⟩

/-- The number of codes among `codes` that are marked LEGAL and not marked
EXPANDED: the codes that the scan can still expand. -/
def frontierIn (codes : List Nat) (ht : Nat → Nat) : Nat :=
  (codes.filter fun i => decide (ht i &&& LEGAL ≠ 0 ∧ ht i &&& EXPANDED = 0)).length

/-! ## Theorems about moves -/

theorem overlaps_iff (t : piece) (nx ny : Int) :
    t.overlaps nx ny = true ↔ t.x ≤ nx ∧ nx < t.x + t.w ∧ t.y ≤ ny ∧ ny < t.y + t.h := by
  simp [piece.overlaps, and_assoc]

theorem hits_iff (q : piece) (x y w h : Int) (hw : w = 1 ∨ w = 2) (hh : h = 1 ∨ h = 2) :
    q.hits x y w h = true ↔
      ∃ cx cy, x ≤ cx ∧ cx < x + w ∧ y ≤ cy ∧ cy < y + h ∧ q.overlaps cx cy = true := by
  simp only [piece.hits, Bool.or_eq_true, overlaps_iff]
  constructor
  · rintro (((h1 | h1) | h1) | h1)
    · exact ⟨x, y, by omega, by omega, by omega, by omega, h1⟩
    · exact ⟨x + w - 1, y, by omega, by omega, by omega, by omega, h1⟩
    · exact ⟨x, y + h - 1, by omega, by omega, by omega, by omega, h1⟩
    · exact ⟨x + w - 1, y + h - 1, by omega, by omega, by omega, by omega, h1⟩
  · rintro ⟨cx, cy, h1, h2, h3, h4, h5⟩
    have hx : cx = x ∨ cx = x + w - 1 := by omega
    have hy : cy = y ∨ cy = y + h - 1 := by omega
    rcases hx with rfl | rfl <;> rcases hy with rfl | rfl <;> simp [h5]

/-- The loop over the other pieces in `piece::move` finds a hit iff some other
piece is hit. -/
theorem blocked_iff (board : puzzle) (i : Nat) (x y w h : Int) :
    piece.blocked board i x y w h = true ↔
      ∃ j q, board.board[j]? = some q ∧ j ≠ i ∧ q.hits x y w h = true := by
  simp only [piece.blocked, List.any_eq_true, List.mem_range]
  constructor
  · rintro ⟨j, hj, h1⟩
    have hq : board.board[j]? = some board.board[j] := List.getElem?_eq_getElem hj
    rw [hq] at h1
    simp only [Bool.and_eq_true, decide_eq_true_eq] at h1
    exact ⟨j, _, hq, h1.1, h1.2⟩
  · rintro ⟨j, q, hq, hne, hh⟩
    have hj : j < board.board.length := (List.getElem?_eq_some_iff.mp hq).1
    refine ⟨j, hj, ?_⟩
    rw [hq]
    simp [hne, hh]

/-- A successful `piece::move`. -/
theorem move_ok (pz : puzzle) (i : Nat) (t : piece) (hi : pz.board[i]? = some t) (dx dy : Int)
    (hin : (t.shift dx dy).inside)
    (hfree : ∀ j q, pz.board[j]? = some q → j ≠ i →
      q.hits (t.x + dx) (t.y + dy) t.w t.h = false) :
    piece.move pz i dx dy = (true, { pz with board := pz.board.set i (t.shift dx dy) }) := by
  have hin' : ¬ (t.x + dx < 0 ∨ t.x + t.w + dx > W ∨ t.y + dy < 0 ∨ t.y + t.h + dy > H) := by
    simp only [piece.inside, piece.shift] at hin
    omega
  have hb : ¬ piece.blocked pz i (t.x + dx) (t.y + dy) t.w t.h = true := by
    rw [blocked_iff]
    rintro ⟨j, q, hq, hne, hh⟩
    rw [hfree j q hq hne] at hh
    exact Bool.false_ne_true hh
  unfold piece.move
  simp only [hi]
  rw [if_neg hin', if_neg hb]
  rfl

/-- A rejected `piece::move`: the board is unchanged. -/
theorem move_rejected (pz : puzzle) (i : Nat) (t : piece) (hi : pz.board[i]? = some t)
    (dx dy : Int)
    (hno : ¬ ((t.shift dx dy).inside ∧ ∀ j q, pz.board[j]? = some q → j ≠ i →
      q.hits (t.x + dx) (t.y + dy) t.w t.h = false)) :
    piece.move pz i dx dy = (false, pz) := by
  unfold piece.move
  simp only [hi]
  by_cases hin' : (t.x + dx < 0 ∨ t.x + t.w + dx > W ∨ t.y + dy < 0 ∨ t.y + t.h + dy > H)
  · rw [if_pos hin']
  · rw [if_neg hin']
    have hin : (t.shift dx dy).inside := by
      simp only [piece.inside, piece.shift]
      omega
    have hb : piece.blocked pz i (t.x + dx) (t.y + dy) t.w t.h = true := by
      rw [blocked_iff]
      by_contra hcon
      apply hno
      refine ⟨hin, fun j q hq hne => ?_⟩
      by_contra hh
      exact hcon ⟨j, q, hq, hne, by simpa using hh⟩
    rw [if_pos hb]

/-- Without a piece at index `i`, `piece::move` does nothing. -/
theorem move_none (pz : puzzle) (i : Nat) (hi : pz.board[i]? = none) (dx dy : Int) :
    piece.move pz i dx dy = (false, pz) := by
  unfold piece.move
  simp only [hi]

/-- The result of `piece::move` in any case. -/
theorem move_cases (pz : puzzle) (i : Nat) (dx dy : Int) :
    piece.move pz i dx dy = (false, pz) ∨
      ∃ t, pz.board[i]? = some t ∧ (t.shift dx dy).inside ∧
        (∀ j q, pz.board[j]? = some q → j ≠ i →
          q.hits (t.x + dx) (t.y + dy) t.w t.h = false) ∧
        piece.move pz i dx dy = (true, { pz with board := pz.board.set i (t.shift dx dy) }) := by
  cases hi : pz.board[i]? with
  | none => exact Or.inl (move_none pz i hi dx dy)
  | some t =>
    by_cases hc : (t.shift dx dy).inside ∧ ∀ j q, pz.board[j]? = some q → j ≠ i →
        q.hits (t.x + dx) (t.y + dy) t.w t.h = false
    · exact Or.inr ⟨t, rfl, hc.1, hc.2, move_ok pz i t hi dx dy hc.1 hc.2⟩
    · exact Or.inl (move_rejected pz i t hi dx dy hc)

theorem apart_symm {a b : piece} (h : a.apart b) : b.apart a :=
  fun cx hx cy hy hc => h cx hx cy hy ⟨hc.2, hc.1⟩

/-- For a piece inside the grid, sharing no cell of the grid is sharing no
cell at all. -/
theorem apart_iff (a b : piece) (ha : a.inside) :
    a.apart b ↔ ∀ cx cy : Int, ¬ (a.overlaps cx cy = true ∧ b.overlaps cx cy = true) := by
  constructor
  · intro h cx cy hc
    have h1 := (overlaps_iff a cx cy).mp hc.1
    simp only [piece.inside, W, H] at ha
    have hx : cx.toNat ∈ List.range W := by simp [W]; omega
    have hy : cy.toNat ∈ List.range H := by simp [H]; omega
    have hcx : ((cx.toNat : Nat) : Int) = cx := by omega
    have hcy : ((cy.toNat : Nat) : Int) = cy := by omega
    have := h cx.toNat hx cy.toNat hy
    rw [hcx, hcy] at this
    exact this hc
  · intro h cx _ cy _
    exact h cx cy

theorem legal_iff_idx (pz : puzzle) :
    pz.legal ↔
      (∀ (i : Nat) (t : piece), pz.board[i]? = some t → t.small ∧ t.inside) ∧
      (∀ (i j : Nat) (a b : piece), pz.board[i]? = some a → pz.board[j]? = some b → i ≠ j →
        a.apart b) := by
  unfold puzzle.legal
  constructor
  · rintro ⟨h1, h2⟩
    refine ⟨fun i t hi => h1 t (List.mem_iff_getElem?.mpr ⟨i, hi⟩), ?_⟩
    intro i j a b hi hj hne
    rw [List.pairwise_iff_getElem] at h2
    obtain ⟨hi', rfl⟩ := List.getElem?_eq_some_iff.mp hi
    obtain ⟨hj', rfl⟩ := List.getElem?_eq_some_iff.mp hj
    rcases Nat.lt_or_gt_of_ne hne with hlt | hgt
    · exact h2 i j hi' hj' hlt
    · exact apart_symm (h2 j i hj' hi' hgt)
  · rintro ⟨h1, h2⟩
    refine ⟨fun t ht => ?_, ?_⟩
    · obtain ⟨i, hi⟩ := List.mem_iff_getElem?.mp ht
      exact h1 i t hi
    · rw [List.pairwise_iff_getElem]
      intro i j hi hj hlt
      exact h2 i j _ _ (List.getElem?_eq_getElem hi) (List.getElem?_eq_getElem hj) (by omega)

/-- The four-corner test against `q` is exact for a moved rectangle of size at
most 2x2. -/
theorem hits_false_iff (q t : piece) (hs : t.small) (dx dy : Int) :
    q.hits (t.x + dx) (t.y + dy) t.w t.h = false ↔
      ∀ cx cy : Int, ¬ ((t.shift dx dy).overlaps cx cy = true ∧ q.overlaps cx cy = true) := by
  rw [← Bool.not_eq_true, hits_iff q _ _ _ _ hs.1 hs.2]
  simp only [not_exists, overlaps_iff, piece.shift]
  constructor
  · intro h cx cy hc
    exact h cx cy ⟨hc.1.1, hc.1.2.1, hc.1.2.2.1, hc.1.2.2.2, hc.2⟩
  · intro h cx cy hc
    exact h cx cy ⟨⟨hc.1, hc.2.1, hc.2.2.1, hc.2.2.2.1⟩, hc.2.2.2.2⟩

theorem getElem?_set_cases {l : List piece} {i j : Nat} {a q : piece}
    (h : (l.set i a)[j]? = some q) : (i = j ∧ q = a) ∨ (i ≠ j ∧ l[j]? = some q) := by
  rw [List.getElem?_set] at h
  by_cases hij : i = j
  · rw [if_pos hij] at h
    split at h
    · exact Or.inl ⟨hij, (Option.some.inj h).symm⟩
    · cases h
  · rw [if_neg hij] at h
    exact Or.inr ⟨hij, h⟩

/-- A successful move keeps the board legal. -/
theorem move_legal (pz pz1 : puzzle) (hl : pz.legal) (i : Nat) (dx dy : Int)
    (hm : piece.move pz i dx dy = (true, pz1)) : pz1.legal := by
  rcases move_cases pz i dx dy with h | ⟨t, hi, hin, hfree, h⟩
  · rw [h] at hm; cases hm
  · rw [h] at hm
    cases hm
    rw [legal_iff_idx] at hl ⊢
    obtain ⟨h1, h2⟩ := hl
    have hts := (h1 i t hi).1
    have hilt : i < pz.board.length := (List.getElem?_eq_some_iff.mp hi).1
    have hshift : ∀ j q, pz.board[j]? = some q → j ≠ i → (t.shift dx dy).apart q := by
      intro j q hq hne
      rw [apart_iff _ _ hin]
      exact (hits_false_iff q t hts dx dy).mp (hfree j q hq hne)
    constructor
    · intro j q hq
      rcases getElem?_set_cases hq with ⟨_, rfl⟩ | ⟨_, hq⟩
      · exact ⟨hts, hin⟩
      · exact h1 j q hq
    · intro j k a b hj hk hne
      rcases getElem?_set_cases hj with ⟨hji, rfl⟩ | ⟨hji, hj⟩
      · rcases getElem?_set_cases hk with ⟨hki, rfl⟩ | ⟨hki, hk⟩
        · omega
        · exact hshift k b hk (by omega)
      · rcases getElem?_set_cases hk with ⟨hki, rfl⟩ | ⟨hki, hk⟩
        · exact apart_symm (hshift j a hj (by omega))
        · exact h2 j k a b hj hk hne

/-- Every sequence of successful moves keeps the board legal. -/
theorem applyMoves_legal (ms : List (Nat × Int × Int)) (b b1 : puzzle) (hl : b.legal)
    (h : applyMoves ms b = some b1) : b1.legal := by
  induction ms generalizing b with
  | nil =>
    simp only [applyMoves, Option.some.injEq] at h
    exact h ▸ hl
  | cons m ms ih =>
    obtain ⟨i, dy, dx⟩ := m
    unfold applyMoves at h
    split at h
    · next b2 heq => exact ih b2 (move_legal b b2 hl i dx dy heq) h
    · cases h

/-- C3: on a legal board, for a unit step, `piece::move` on piece `i` returns
true iff the translated rectangle lies inside the grid and shares no cell with
any other piece; a rejected move leaves the board unchanged, a successful move
changes only piece `i`, to `(x+dx, y+dy)`. -/
theorem move_legality (pz : puzzle) (hl : pz.legal) (i : Nat) (t : piece)
    (hi : pz.board[i]? = some t) (dx dy : Int) (_hstep : unitStep dx dy) :
    ((piece.move pz i dx dy).1 = true ↔
      ((t.shift dx dy).inside ∧
        ∀ j q, pz.board[j]? = some q → j ≠ i →
          ∀ cx cy : Int, ¬ ((t.shift dx dy).overlaps cx cy = true ∧ q.overlaps cx cy = true))) ∧
    ((piece.move pz i dx dy).1 = false → (piece.move pz i dx dy).2 = pz) ∧
    ((piece.move pz i dx dy).1 = true →
      (piece.move pz i dx dy).2 = { pz with board := pz.board.set i (t.shift dx dy) }) := by
  have hts : t.small := (((legal_iff_idx pz).mp hl).1 i t hi).1
  by_cases hc : (t.shift dx dy).inside ∧ ∀ j q, pz.board[j]? = some q → j ≠ i →
      q.hits (t.x + dx) (t.y + dy) t.w t.h = false
  · rw [move_ok pz i t hi dx dy hc.1 hc.2]
    refine ⟨⟨fun _ => ⟨hc.1, fun j q hq hne => (hits_false_iff q t hts dx dy).mp (hc.2 j q hq hne)⟩,
      fun _ => rfl⟩, ?_, fun _ => rfl⟩
    intro h
    exact absurd h (by simp)
  · rw [move_rejected pz i t hi dx dy hc]
    refine ⟨⟨fun h => absurd h (by simp), fun h => ?_⟩, fun _ => rfl, fun h => absurd h (by simp)⟩
    exact absurd ⟨h.1, fun j q hq hne => (hits_false_iff q t hts dx dy).mpr (h.2 j q hq hne)⟩ hc

theorem move_legality_witness :
    puzzle.start.legal ∧ puzzle.start.board[1]? = some ⟨1, 2, 2, 1, X, X, EQ⟩ ∧ unitStep (-1) 0 ∧
    (((piece.move puzzle.start 1 (-1) 0).1 = true ↔
      (((⟨1, 2, 2, 1, X, X, EQ⟩ : piece).shift (-1) 0).inside ∧
        ∀ j q, puzzle.start.board[j]? = some q → j ≠ 1 →
          ∀ cx cy : Int, ¬ (((⟨1, 2, 2, 1, X, X, EQ⟩ : piece).shift (-1) 0).overlaps cx cy = true ∧
            q.overlaps cx cy = true))) ∧
    ((piece.move puzzle.start 1 (-1) 0).1 = false →
      (piece.move puzzle.start 1 (-1) 0).2 = puzzle.start) ∧
    ((piece.move puzzle.start 1 (-1) 0).1 = true →
      (piece.move puzzle.start 1 (-1) 0).2 =
        { puzzle.start with
          board := puzzle.start.board.set 1 ((⟨1, 2, 2, 1, X, X, EQ⟩ : piece).shift (-1) 0) })) :=
  ⟨by decide, by decide, by decide,
    move_legality puzzle.start (by decide) 1 ⟨1, 2, 2, 1, X, X, EQ⟩ (by decide) (-1) 0 (by decide)⟩

/-- C4: the start configuration is legal, and so is every board obtained from
it by a sequence of successful `piece::move` calls: all pieces lie within the
grid and no two share a cell. -/
theorem no_overlap_invariant (ms : List (Nat × Int × Int)) (b : puzzle)
    (h : applyMoves ms puzzle.start = some b) :
    puzzle.start.legal ∧ b.legal :=
  ⟨by decide, applyMoves_legal ms puzzle.start b (by decide) h⟩

theorem no_overlap_invariant_witness :
    applyMoves [(1, 0, -1), (7, -1, 0)] puzzle.start =
        some ⟨[⟨1, 0, 2, 2, 1, 3, EQ⟩, ⟨0, 2, 2, 1, X, X, EQ⟩, ⟨0, 0, 1, 2, X, X, EQ⟩,
          ⟨3, 0, 1, 2, X, X, EQ⟩, ⟨0, 3, 1, 2, X, X, EQ⟩, ⟨3, 3, 1, 2, X, X, EQ⟩,
          ⟨1, 3, 1, 1, X, X, EQ⟩, ⟨2, 2, 1, 1, X, X, EQ⟩, ⟨1, 4, 1, 1, X, X, EQ⟩,
          ⟨2, 4, 1, 1, X, X, EQ⟩], 0, 0⟩ ∧
      puzzle.start.legal ∧
      (⟨[⟨1, 0, 2, 2, 1, 3, EQ⟩, ⟨0, 2, 2, 1, X, X, EQ⟩, ⟨0, 0, 1, 2, X, X, EQ⟩,
          ⟨3, 0, 1, 2, X, X, EQ⟩, ⟨0, 3, 1, 2, X, X, EQ⟩, ⟨3, 3, 1, 2, X, X, EQ⟩,
          ⟨1, 3, 1, 1, X, X, EQ⟩, ⟨2, 2, 1, 1, X, X, EQ⟩, ⟨1, 4, 1, 1, X, X, EQ⟩,
          ⟨2, 4, 1, 1, X, X, EQ⟩], 0, 0⟩ : puzzle).legal :=
  ⟨by decide, no_overlap_invariant [(1, 0, -1), (7, -1, 0)] _ (by decide)⟩

/-- After a successful move on a legal board the opposite move succeeds and
restores the board. -/
theorem move_undo (pz pz1 : puzzle) (hl : pz.legal) (i : Nat) (dx dy : Int)
    (hm : piece.move pz i dx dy = (true, pz1)) :
    piece.move pz1 i (-dx) (-dy) = (true, pz) := by
  rcases move_cases pz i dx dy with h | ⟨t, hi, hin, hfree, h⟩
  · rw [h] at hm; cases hm
  · rw [h] at hm
    cases hm
    obtain ⟨h1, h2⟩ := (legal_iff_idx pz).mp hl
    have hts := (h1 i t hi).1
    have htin := (h1 i t hi).2
    have hilt : i < pz.board.length := (List.getElem?_eq_some_iff.mp hi).1
    have hback : (t.shift dx dy).shift (-dx) (-dy) = t := by
      cases t
      simp [piece.shift]
    have hi' : (pz.board.set i (t.shift dx dy))[i]? = some (t.shift dx dy) := by
      simp [List.getElem?_set, hilt]
    rw [move_ok _ i (t.shift dx dy) hi' (-dx) (-dy) (by rw [hback]; exact htin)]
    · simp only [hback, List.set_set]
      congr 2
      cases pz with
      | mk board illegal final =>
        simp only
        apply List.ext_getElem?
        intro k
        simp only [List.getElem?_set]
        split
        · next hik => subst hik; simp at hi; simp [hilt, hi]
        · rfl
    · intro j q hq hne
      rcases getElem?_set_cases hq with ⟨hji, _⟩ | ⟨_, hq⟩
      · exact absurd hji.symm hne
      have hap := h2 i j t q hi hq (Ne.symm hne)
      rw [apart_iff _ _ htin] at hap
      have := (hits_false_iff q (t.shift dx dy) hts (-dx) (-dy)).mpr (by rw [hback]; exact hap)
      simpa [piece.shift] using this

/-- C5: on a legal board, after a successful unit move of a piece by
`(dx, dy)`, the move of the same piece by `(-dx, -dy)` succeeds and restores
the original board. -/
theorem move_reversible (pz pz1 : puzzle) (hl : pz.legal) (i : Nat) (dx dy : Int)
    (_hstep : unitStep dx dy) (hm : piece.move pz i dx dy = (true, pz1)) :
    piece.move pz1 i (-dx) (-dy) = (true, pz) :=
  move_undo pz pz1 hl i dx dy hm

theorem move_reversible_witness :
    puzzle.start.legal ∧ unitStep (-1) 0 ∧
      piece.move puzzle.start 1 (-1) 0 =
        (true, { puzzle.start with
          board := puzzle.start.board.set 1 ⟨0, 2, 2, 1, X, X, EQ⟩ }) ∧
      piece.move { puzzle.start with
          board := puzzle.start.board.set 1 ⟨0, 2, 2, 1, X, X, EQ⟩ } 1 (- -1) (-0) =
        (true, puzzle.start) :=
  ⟨by decide, by decide, by decide,
    move_reversible puzzle.start _ (by decide) 1 (-1) 0 (by decide) (by decide)⟩


/-! ## The transposition table -/

theorem fails_fst (depth hashvalue : Nat) (ht : Nat → Nat) :
    (puzzle.fails depth hashvalue ht).1 = false ↔ ht hashvalue < depth := by
  unfold puzzle.fails
  split <;> simp [*]

theorem fails_snd (depth hashvalue : Nat) (ht : Nat → Nat) :
    (puzzle.fails depth hashvalue ht).2 =
      if ht hashvalue < depth then Function.update ht hashvalue depth else ht := by
  unfold puzzle.fails
  split <;> simp [*]

/-- The entry of a code after a sequence of claims is below `depth` iff it
was below `depth` before and every claim for this code was below `depth`. -/
theorem replayClaims_lt (claims : List (Nat × Nat)) (ht : Nat → Nat) (code depth : Nat) :
    replayClaims claims ht code < depth ↔
      ht code < depth ∧ ∀ d, (d, code) ∈ claims → d < depth := by
  induction claims generalizing ht with
  | nil => simp [replayClaims]
  | cons c rest ih =>
    obtain ⟨d0, c0⟩ := c
    have hstep : replayClaims ((d0, c0) :: rest) ht =
        replayClaims rest (puzzle.fails d0 c0 ht).2 := rfl
    rw [hstep, ih, fails_snd]
    have hhead : (if ht c0 < d0 then Function.update ht c0 d0 else ht) code < depth ↔
        ht code < depth ∧ (c0 = code → d0 < depth) := by
      by_cases hc : c0 = code
      · subst hc
        by_cases hlt : ht c0 < d0
        · rw [if_pos hlt, Function.update_same]
          constructor
          · intro h; exact ⟨by omega, fun _ => h⟩
          · intro h; exact h.2 rfl
        · rw [if_neg hlt]
          constructor
          · intro h; exact ⟨h, fun _ => by omega⟩
          · intro h; exact h.1
      · by_cases hlt : ht c0 < d0
        · rw [if_pos hlt, Function.update_noteq (Ne.symm hc)]
          simp [hc]
        · rw [if_neg hlt]
          simp [hc]
    rw [hhead]
    simp only [List.mem_cons, Prod.mk.injEq]
    constructor
    · rintro ⟨⟨h1, h2⟩, h3⟩
      refine ⟨h1, fun d hd => ?_⟩
      rcases hd with ⟨rfl, hcc⟩ | hd
      · exact h2 hcc.symm
      · exact h3 d hd
    · rintro ⟨h1, h2⟩
      exact ⟨⟨h1, fun hcc => h2 d0 (Or.inl ⟨rfl, hcc.symm⟩)⟩, fun d hd => h2 d (Or.inr hd)⟩

/-- A candidate whose position is not solved and whose table entry is at
least `depth` is skipped by the loop of `solve`: no recursive call is made and
the hashtable is unchanged. -/
theorem solveLoop_pruned (wb : Nat) (recur : puzzle → globals → Bool × puzzle × globals)
    (depth from_ : Nat) (i : Nat) (dy dx : Int) (rest : List (Nat × Int × Int))
    (pz : puzzle) (g : globals) (hmode : g.mode = mode.depth_first)
    (hmove : (piece.move pz i dx dy).1 = true)
    (hsolved : (piece.move pz i dx dy).2.solvedAt i = false)
    (hentry : depth ≤ g.hashtable ((piece.move pz i dx dy).2.calculate_hashvalue wb).1) :
    solveLoop wb recur depth from_ ((i, dy, dx) :: rest) pz g =
      solveLoop wb recur depth from_ rest
        (piece.move (piece.move pz i dx dy).2 i (-dx) (-dy)).2
        { g with sum := ((piece.move pz i dx dy).2.calculate_hashvalue wb).2 } := by
  have hmh : piece.moveHash wb pz g i dx dy =
      (true, (piece.move pz i dx dy).2,
        { g with sum := ((piece.move pz i dx dy).2.calculate_hashvalue wb).2 },
        ((piece.move pz i dx dy).2.calculate_hashvalue wb).1) := by
    unfold piece.moveHash
    rcases hpm : piece.move pz i dx dy with ⟨r, b1⟩
    rw [hpm] at hmove
    simp only at hmove
    subst hmove
    rfl
  have hf : puzzle.fails depth ((piece.move pz i dx dy).2.calculate_hashvalue wb).1 g.hashtable =
      (true, g.hashtable) := by
    unfold puzzle.fails
    rw [if_neg (by omega)]
  rw [solveLoop, hmh]
  simp only [hmode, hsolved, hf]
  rfl

/-- C6 (amended): after any sequence of claims on the zeroed table, the claim
`fails(depth, code)` with `depth > 0` succeeds (returns 0) and records `depth`
iff every prior claim for this code was at a depth below `depth`; otherwise it
is rejected (returns 1) and leaves the table unchanged, and then the loop of
`solve` skips the position without a recursive call. -/
theorem tryClaim_amended (claims : List (Nat × Nat)) (depth code : Nat) (hd : 0 < depth) :
    ((puzzle.fails depth code (replayClaims claims (fun _ => 0))).1 = false ↔
      ∀ d, (d, code) ∈ claims → d < depth) ∧
    ((puzzle.fails depth code (replayClaims claims (fun _ => 0))).1 = false →
      (puzzle.fails depth code (replayClaims claims (fun _ => 0))).2 =
        Function.update (replayClaims claims (fun _ => 0)) code depth) ∧
    ((puzzle.fails depth code (replayClaims claims (fun _ => 0))).1 = true →
      (puzzle.fails depth code (replayClaims claims (fun _ => 0))).2 =
        replayClaims claims (fun _ => 0)) ∧
    (∀ (wb : Nat) (recur : puzzle → globals → Bool × puzzle × globals) (from_ i : Nat)
      (dy dx : Int) (rest : List (Nat × Int × Int)) (pz : puzzle) (g : globals),
      g.mode = mode.depth_first →
      g.hashtable = replayClaims claims (fun _ => 0) →
      (piece.move pz i dx dy).1 = true →
      (piece.move pz i dx dy).2.solvedAt i = false →
      ((piece.move pz i dx dy).2.calculate_hashvalue wb).1 = code →
      (puzzle.fails depth code (replayClaims claims (fun _ => 0))).1 = true →
      solveLoop wb recur depth from_ ((i, dy, dx) :: rest) pz g =
        solveLoop wb recur depth from_ rest
          (piece.move (piece.move pz i dx dy).2 i (-dx) (-dy)).2
          { g with sum := ((piece.move pz i dx dy).2.calculate_hashvalue wb).2 }) := by
  have hiff : (puzzle.fails depth code (replayClaims claims (fun _ => 0))).1 = false ↔
      ∀ d, (d, code) ∈ claims → d < depth := by
    rw [fails_fst, replayClaims_lt]
    exact ⟨fun h => h.2, fun h => ⟨hd, h⟩⟩
  refine ⟨hiff, ?_, ?_, ?_⟩
  · intro h
    rw [fails_snd, if_pos ((fails_fst _ _ _).mp h)]
  · intro h
    rw [fails_snd, if_neg]
    intro hlt
    rw [(fails_fst _ _ _).mpr hlt] at h
    cases h
  · intro wb recur from_ i dy dx rest pz g hmode hht hmove hsolved hcode hrej
    apply solveLoop_pruned wb recur depth from_ i dy dx rest pz g hmode hmove hsolved
    rw [hcode, hht]
    by_contra hlt
    rw [(fails_fst _ _ _).mpr (by omega)] at hrej
    cases hrej

theorem tryClaim_amended_witness :
    0 < 2 ∧
    ((puzzle.fails 2 7 (replayClaims [(1, 7), (3, 8)] (fun _ => 0))).1 = false ↔
      ∀ d, (d, 7) ∈ [(1, 7), (3, 8)] → d < 2) :=
  ⟨by decide, (tryClaim_amended [(1, 7), (3, 8)] 2 7 (by decide)).1⟩

/-- C6 (as stated, refuted): after a claim for code 7 at depth 1, the claim at
depth 2 succeeds although a prior claim at a depth `≤ 2` exists. -/
theorem tryClaim_counterexample :
    (puzzle.fails 2 7 (replayClaims [(1, 7)] (fun _ => 0))).1 = false ∧
      ∃ d, (d, 7) ∈ [((1 : Nat), (7 : Nat))] ∧ d ≤ 2 :=
  ⟨by decide, 1, by decide, by decide⟩

/-! ## The solved check -/

/-- What `piece::solved` returns. -/
theorem solved_iff (t : piece) (pz : puzzle) :
    t.solved pz = true ↔ t.hasGoal ∧ ∀ q ∈ pz.board, q.nsolved = false := by
  unfold piece.solved piece.hasGoal
  by_cases hg : t.tx = X ∧ t.ty = X
  · simp [hg]
  · rw [if_neg hg]
    by_cases hn : pz.board.any piece.nsolved = true
    · rw [if_pos hn]
      simp only [Bool.false_eq_true, false_iff, not_and]
      intro _ hall
      obtain ⟨q, hq, hq2⟩ := List.any_eq_true.mp hn
      rw [hall q hq] at hq2
      cases hq2
    · rw [if_neg hn]
      simp only [true_iff]
      refine ⟨hg, fun q hq => ?_⟩
      by_contra hq2
      exact hn (List.any_eq_true.mpr ⟨q, hq, by simpa using hq2⟩)

/-- C7 (amended): `piece::solved` called on the piece `t` returns true iff `t`
itself carries a real goal constraint and no piece of the board is unsolved. -/
theorem solved_amended (t : piece) (pz : puzzle) :
    t.solved pz = true ↔ t.hasGoal ∧ ∀ q ∈ pz.board, q.nsolved = false :=
  solved_iff t pz

/-- C7 (as stated, refuted): after the successful move of piece 6 on
`goalBoard`, the solved check on the moved piece returns false although a
piece carries a real goal and every piece's constraint is satisfied. -/
theorem solved_counterexample :
    goalBoard.legal ∧ (piece.move goalBoard 6 0 1).1 = true ∧
      (piece.move goalBoard 6 0 1).2.solvedAt 6 = false ∧
      (piece.move goalBoard 6 0 1).2.goalSatisfied := by
  decide


/-! ## Concrete runs of the decoder -/

set_option maxRecDepth 100000 in
/-- C8 (failing input): the code 12927870 is below `S` and decodes with piece
count 10 and checksum 12 to a board that reports zero illegality, has ten
pieces inside the grid, and on which the pieces `(2, 0, 1, 2)` and
`(1, 1, 2, 1)` share the cell `(2, 1)`. -/
theorem decode_overlap :
    12927870 < S ∧
    puzzle.decode 32 12927870 10 solutionPiece 12 = some overlapBoard ∧
    puzzle.decode 64 12927870 10 solutionPiece 12 = some overlapBoard ∧
    overlapBoard.illegal = 0 ∧ overlapBoard.board.length = 10 ∧
    (∀ t ∈ overlapBoard.board, t.small ∧ t.inside) ∧
    overlapBoard.board[8]? = some ⟨2, 0, 1, 2, X, X, EQ⟩ ∧
    overlapBoard.board[5]? = some ⟨1, 1, 2, 1, X, X, EQ⟩ ∧
    (⟨2, 0, 1, 2, X, X, EQ⟩ : piece).overlaps 2 1 = true ∧
    (⟨1, 1, 2, 1, X, X, EQ⟩ : piece).overlaps 2 1 = true ∧
    ¬ overlapBoard.legal := by
  decide

set_option maxRecDepth 100000 in
/-- C1 (failing input): the board `cornerBoard` is reached from the start
configuration by 23 successful unit moves; its code is 29063232 with checksum
12, and decoding this code with piece count 10 reports an illegality and
yields no piece at all. -/
theorem roundtrip_fails :
    unitMoves cornerPath ∧ applyMoves cornerPath puzzle.start = some cornerBoard ∧
    cornerBoard.calculate_hashvalue 32 = (29063232, 12) ∧
    cornerBoard.calculate_hashvalue 64 = (29063232, 12) ∧
    puzzle.decode 32 29063232 10 piece.default 12 = some ⟨[], 1, 0⟩ ∧
    puzzle.decode 64 29063232 10 piece.default 12 = some ⟨[], 1, 0⟩ := by
  decide


/-! ## The grid painted by `calculate_hashvalue` -/

theorem covers_iff (t : piece) (q : Nat) :
    t.covers q = true ↔
      t.x ≤ ((q % 4 : Nat) : Int) ∧ ((q % 4 : Nat) : Int) < t.x + t.w ∧
      t.y ≤ ((q / 4 : Nat) : Int) ∧ ((q / 4 : Nat) : Int) < t.y + t.h := by
  simp only [piece.covers, overlaps_iff, W]

theorem gridStore_apply (g : Nat → Nat) (idx : Int) (v q : Nat) :
    gridStore g idx v q = if 0 ≤ idx ∧ idx < 20 ∧ (q : Int) = idx then v else g q := by
  unfold gridStore
  simp only [H, W]
  split_ifs with h1 h2 h2
  · omega
  · rfl
  · rw [Function.update_apply, if_pos (by omega)]
  · rw [Function.update_apply, if_neg (by omega)]

/-- One piece painted on a grid: the cells it covers get its values, the other
cells keep theirs. -/
theorem paintPiece_apply (g : Nat → Nat) (t : piece) (hs : t.small) (hin : t.inside) (q : Nat)
    (hq : q < 20) :
    paintPiece g t q = if t.covers q = true then t.paintVal q else g q := by
  rcases t with ⟨x, y, w, h, tx, ty, m⟩
  simp only [piece.small, piece.inside, W, H] at hs hin
  obtain ⟨hx0, hxw, hy0, hyh⟩ := hin
  simp only [Nat.cast_ofNat] at hxw hyh
  simp only [covers_iff, piece.paintVal, piece.anchor, piece.code, W]
  rcases hs with ⟨rfl | rfl, rfl | rfl⟩ <;>
    simp only [paintPiece, List.range, List.range.loop, List.reverse_cons, List.reverse_nil,
      List.nil_append, List.cons_append, List.foldl_cons, List.foldl_nil, gridStore_apply, W] <;>
    simp <;>
    split_ifs <;> omega


/-- A cell covered by no piece of the list keeps its value. -/
theorem paint_foldl_free (l : List piece) (hl : ∀ t ∈ l, t.small ∧ t.inside) (g : Nat → Nat)
    (q : Nat) (hq : q < 20) (hn : ∀ t ∈ l, t.covers q = false) :
    l.foldl paintPiece g q = g q := by
  induction l generalizing g with
  | nil => rfl
  | cons t rest ih =>
    rw [List.foldl_cons, ih (fun t ht => hl t (List.mem_cons_of_mem _ ht)) _
      (fun t ht => hn t (List.mem_cons_of_mem _ ht)),
      paintPiece_apply g t (hl t (List.mem_cons_self _ _)).1 (hl t (List.mem_cons_self _ _)).2 q hq,
      hn t (List.mem_cons_self _ _)]
    simp

/-- A cell covered by some piece of the list, all covering pieces agreeing on
the value `v`, gets the value `v`. -/
theorem paint_foldl_covered (l : List piece) (hl : ∀ t ∈ l, t.small ∧ t.inside) (g : Nat → Nat)
    (q : Nat) (hq : q < 20) (v : Nat) (hex : ∃ t ∈ l, t.covers q = true)
    (hv : ∀ t ∈ l, t.covers q = true → t.paintVal q = v) :
    l.foldl paintPiece g q = v := by
  induction l generalizing g with
  | nil =>
    obtain ⟨t, ht, _⟩ := hex
    cases ht
  | cons t rest ih =>
    rw [List.foldl_cons]
    have hl' : ∀ t ∈ rest, t.small ∧ t.inside := fun t ht => hl t (List.mem_cons_of_mem _ ht)
    by_cases hr : ∃ t' ∈ rest, t'.covers q = true
    · exact ih hl' _ hr (fun t' ht' => hv t' (List.mem_cons_of_mem _ ht'))
    · have hn : ∀ t' ∈ rest, t'.covers q = false := by
        intro t' ht'
        by_contra hc
        exact hr ⟨t', ht', by simpa using hc⟩
      rw [paint_foldl_free rest hl' _ q hq hn,
        paintPiece_apply g t (hl t (List.mem_cons_self _ _)).1 (hl t (List.mem_cons_self _ _)).2 q hq]
      have htc : t.covers q = true := by
        obtain ⟨t', ht', hc⟩ := hex
        rcases List.mem_cons.mp ht' with rfl | ht'
        · exact hc
        · exact absurd hc (by rw [hn t' ht']; simp)
      rw [if_pos htc]
      exact hv t (List.mem_cons_self _ _) htc

/-- On a legal board a cell is covered by at most one piece. -/
theorem legal_cover_unique (pz : puzzle) (hl : pz.legal) (q : Nat) (hq : q < 20) (t t' : piece)
    (ht : t ∈ pz.board) (ht' : t' ∈ pz.board) (hc : t.covers q = true)
    (hc' : t'.covers q = true) : t = t' := by
  obtain ⟨i, hi⟩ := List.mem_iff_getElem?.mp ht
  obtain ⟨j, hj⟩ := List.mem_iff_getElem?.mp ht'
  by_cases hij : i = j
  · subst hij
    rw [hi] at hj
    exact Option.some.inj hj
  · exfalso
    have hap := ((legal_iff_idx pz).mp hl).2 i j t t' hi hj hij
    refine hap (q % W) ?_ (q / W) ?_ ⟨hc, hc'⟩
    · simp only [List.mem_range, W]; omega
    · simp only [List.mem_range, W, H]; omega

/-- The grid of a legal board at a covered cell. -/
theorem paintBoard_covered (pz : puzzle) (hl : pz.legal) (q : Nat) (hq : q < 20) (t : piece)
    (ht : t ∈ pz.board) (hc : t.covers q = true) :
    paintBoard pz.board q = t.paintVal q := by
  unfold paintBoard
  apply paint_foldl_covered pz.board hl.1 _ q hq _ ⟨t, ht, hc⟩
  intro t' ht' hc'
  rw [legal_cover_unique pz hl q hq t t' ht ht' hc hc']

/-- The grid of a legal board at a cell that no piece covers. -/
theorem paintBoard_free (pz : puzzle) (hl : pz.legal) (q : Nat) (hq : q < 20)
    (hn : ∀ t ∈ pz.board, t.covers q = false) :
    paintBoard pz.board q = 0 := by
  unfold paintBoard
  rw [paint_foldl_free pz.board hl.1 _ q hq hn]

/-- The value at the anchor of a small piece is between 1 and 4, and the value
determines the size. -/
theorem code_small (t : piece) (hs : t.small) :
    0 < t.code ∧ t.code < 5 ∧ ((t.code - 1) % 2 : Nat) + 1 = t.w ∧
      ((t.code - 1) / 2 : Nat) + 1 = t.h := by
  rcases t with ⟨x, y, w, h, tx, ty, m⟩
  simp only [piece.small] at hs
  rcases hs with ⟨rfl | rfl, rfl | rfl⟩ <;> simp [piece.code]

/-- A piece inside the grid covers its anchor cell, whose raster index is a
natural number below 20. -/
theorem anchor_covered (t : piece) (hs : t.small) (hin : t.inside) :
    ∃ a : Nat, a < 20 ∧ (a : Int) = t.anchor ∧ t.covers a = true ∧ t.paintVal a = t.code := by
  simp only [piece.small, piece.inside, W, H] at hs hin
  refine ⟨t.anchor.toNat, ?_, ?_, ?_, ?_⟩
  · simp only [piece.anchor, W]; omega
  · simp only [piece.anchor, W]; omega
  · rw [covers_iff]
    simp only [piece.anchor, W]
    omega
  · simp only [piece.paintVal, piece.anchor, W]
    rw [if_pos (by omega)]


/-! ## The scan of `calculate_hashvalue` -/

theorem scanCell_eq (wb pieces : Nat) (G : Nat → Nat) (st : hashScan) (y x : Nat) :
    scanCell wb pieces G st y x = scanStep wb pieces (G (y * W + x)) st := rfl

/-- The two scan loops visit the raster indices 0 to 19 in order. -/
theorem scanGrid_eq (wb pieces : Nat) (G : Nat → Nat) :
    scanGrid wb pieces G = scanTo wb pieces G 20 := by
  simp only [scanGrid, scanTo, scanCell_eq, H, W, List.range, List.range.loop, List.foldl_cons,
    List.foldl_nil]

theorem scanTo_succ (wb pieces : Nat) (G : Nat → Nat) (p : Nat) :
    scanTo wb pieces G (p + 1) = scanStep wb pieces (G p) (scanTo wb pieces G p) := by
  simp only [scanTo, List.range_succ, List.foldl_append, List.foldl_cons, List.foldl_nil]

theorem codesTo_succ (G : Nat → Nat) (p : Nat) :
    codesTo G (p + 1) =
      codesTo G p ++ (if 0 < G p ∧ G p < 5 then [G p - 1] else []) := by
  simp only [codesTo, List.range_succ, List.filterMap_append, List.filterMap_cons,
    List.filterMap_nil]
  split_ifs <;> rfl

theorem emptiesTo_succ (G : Nat → Nat) (p : Nat) :
    emptiesTo G (p + 1) =
      emptiesTo G p ++ (if G p = 0 then [(codesTo G p).length] else []) := by
  simp only [emptiesTo, List.range_succ, List.filterMap_append, List.filterMap_cons,
    List.filterMap_nil]
  split_ifs <;> rfl

theorem ofBase_snoc (B : Nat) (l : List Nat) (d : Nat) :
    ofBase B (l ++ [d]) = ofBase B l * B + d := by
  simp only [ofBase, List.foldl_append, List.foldl_cons, List.foldl_nil]

theorem ofBase_lt (B : Nat) (l : List Nat) (hd : ∀ d ∈ l, d < B) :
    ofBase B l < B ^ l.length := by
  induction l using List.reverseRecOn with
  | nil => simp [ofBase]
  | append_singleton l d ih =>
    rw [ofBase_snoc, List.length_append, List.length_singleton, pow_succ]
    have h1 := ih (fun x hx => hd x (List.mem_append_left _ hx))
    have h2 := hd d (List.mem_append_right _ (List.mem_singleton_self d))
    nlinarith

theorem codesTo_digit (G : Nat → Nat) (p : Nat) : ∀ d ∈ codesTo G p, d < 4 := by
  intro d hd
  simp only [codesTo, List.mem_filterMap, List.mem_range] at hd
  obtain ⟨q, _, hq⟩ := hd
  split_ifs at hq with h
  cases hq
  omega

theorem codesTo_length_mono (G : Nat → Nat) {p p' : Nat} (h : p ≤ p') :
    (codesTo G p).length ≤ (codesTo G p').length := by
  induction h with
  | refl => exact Nat.le_refl _
  | step _ ih =>
    rw [codesTo_succ, List.length_append]
    omega

theorem emptiesTo_length_mono (G : Nat → Nat) {p p' : Nat} (h : p ≤ p') :
    (emptiesTo G p).length ≤ (emptiesTo G p').length := by
  induction h with
  | refl => exact Nat.le_refl _
  | step _ ih =>
    rw [emptiesTo_succ, List.length_append]
    omega

theorem emptiesTo_digit (G : Nat → Nat) (p : Nat) :
    ∀ d ∈ emptiesTo G p, d ≤ (codesTo G p).length := by
  intro d hd
  simp only [emptiesTo, List.mem_filterMap, List.mem_range] at hd
  obtain ⟨q, hq1, hq⟩ := hd
  split_ifs at hq with h
  cases hq
  exact codesTo_length_mono G (Nat.le_of_lt hq1)

theorem codesTo_sum_le (G : Nat → Nat) (p : Nat) :
    (codesTo G p).sum ≤ 3 * (codesTo G p).length := by
  induction p with
  | zero => simp [codesTo]
  | succ p ih =>
    rw [codesTo_succ]
    split_ifs with h
    · simp only [List.sum_append, List.sum_cons, List.sum_nil, List.length_append,
        List.length_singleton]
      omega
    · simpa using ih

theorem two_pow_wb {wb : Nat} (h : 32 ≤ wb) : 2 ^ 32 ≤ 2 ^ wb :=
  Nat.pow_le_pow_right (by decide) h

/-- The scan step at an anchor cell when nothing wraps. -/
theorem scanStep_anchor (wb pieces v : Nat) (st : hashScan) (hwb : 32 ≤ wb) (h0 : 0 < v)
    (h5 : v < 5) (hh : st.hashvalue < 4 ^ 10) (hs : st.sum ≤ 30) (hi : st.i ≤ 10) :
    scanStep wb pieces v st =
      { st with hashvalue := st.hashvalue * 4 + (v - 1), sum := st.sum + (v - 1), i := st.i + 1 } := by
  have hp := two_pow_wb hwb
  unfold scanStep
  rw [if_pos (by omega), if_pos h5]
  have e1 : (st.hashvalue <<< 2) % 2 ^ wb ||| (v - 1) = st.hashvalue * 4 + (v - 1) := by
    rw [Nat.shiftLeft_eq, Nat.mod_eq_of_lt (by norm_num at hh ⊢; omega),
      Nat.mul_comm, ← Nat.mul_add_lt_is_or (by norm_num; omega)]
  have e2 : (st.sum + (v - 1)) % 2 ^ wb = st.sum + (v - 1) := Nat.mod_eq_of_lt (by omega)
  have e3 : (st.i + 1) % 2 ^ wb = st.i + 1 := Nat.mod_eq_of_lt (by omega)
  rw [e1, e2, e3]

/-- The scan step at an empty cell when nothing wraps. -/
theorem scanStep_empty (wb : Nat) (st : hashScan) (hwb : 32 ≤ wb) (he : st.e < 11 ^ 2)
    (hi : st.i ≤ 10) :
    scanStep wb 10 0 st = { st with e := st.e * 11 + st.i } := by
  have hp := two_pow_wb hwb
  unfold scanStep
  rw [if_neg (by simp)]
  have e1 : (st.e * (10 + 1) + st.i) % 2 ^ wb = st.e * 11 + st.i :=
    Nat.mod_eq_of_lt (by norm_num at he ⊢; omega)
  rw [e1]

theorem scanStep_covered (wb pieces v : Nat) (st : hashScan) (h5 : 5 ≤ v) :
    scanStep wb pieces v st = st := by
  unfold scanStep
  rw [if_pos (by omega), if_neg (by omega)]

/-- The state of the scan in terms of the lists of shape codes and of
empty-cell ranks, as long as there are at most 10 anchors and 2 empty cells. -/
theorem scanTo_spec (wb : Nat) (hwb : 32 ≤ wb) (G : Nat → Nat) (p : Nat)
    (hA : (codesTo G p).length ≤ 10) (hE : (emptiesTo G p).length ≤ 2) :
    scanTo wb 10 G p =
      ⟨ofBase 11 (emptiesTo G p), (codesTo G p).length, ofBase 4 (codesTo G p),
        (codesTo G p).sum⟩ := by
  induction p with
  | zero => rfl
  | succ p ih =>
    have hA' : (codesTo G p).length ≤ 10 :=
      Nat.le_trans (codesTo_length_mono G (Nat.le_succ p)) hA
    have hE' : (emptiesTo G p).length ≤ 2 :=
      Nat.le_trans (emptiesTo_length_mono G (Nat.le_succ p)) hE
    rw [scanTo_succ, ih hA' hE']
    have hsum := codesTo_sum_le G p
    have hhv : ofBase 4 (codesTo G p) < 4 ^ (codesTo G p).length :=
      ofBase_lt 4 _ (codesTo_digit G p)
    have hpow : 4 ^ (codesTo G p).length ≤ 4 ^ 10 := Nat.pow_le_pow_right (by decide) hA'
    rw [codesTo_succ, emptiesTo_succ] at *
    by_cases h0 : G p = 0
    · have hE1 : (emptiesTo G p).length ≤ 1 := by
        rw [if_pos h0, List.length_append, List.length_singleton] at hE
        omega
      have he : ofBase 11 (emptiesTo G p) < 11 ^ (emptiesTo G p).length :=
        ofBase_lt 11 _ (fun d hd => by have := emptiesTo_digit G p d hd; omega)
      have hpow2 : 11 ^ (emptiesTo G p).length ≤ 11 ^ 1 := Nat.pow_le_pow_right (by decide) hE1
      rw [h0, scanStep_empty wb _ hwb (by simp only; omega) hA']
      simp [ofBase_snoc]
    · by_cases h5 : G p < 5
      · rw [scanStep_anchor wb 10 (G p) _ hwb (by omega) h5 (by simp only; omega)
          (by simp only; omega) hA']
        simp [h0, h5, Nat.pos_of_ne_zero h0, ofBase_snoc]
      · rw [scanStep_covered wb 10 (G p) _ (by omega)]
        simp [h0, h5]


/-! ## Counting cells -/

theorem cellSum_succ (f : Nat → Nat) (p : Nat) : cellSum f (p + 1) = cellSum f p + f p := by
  simp [cellSum, List.range_succ]

theorem cellSum_add (f g : Nat → Nat) (p : Nat) :
    cellSum (fun q => f q + g q) p = cellSum f p + cellSum g p := by
  induction p with
  | zero => rfl
  | succ p ih => rw [cellSum_succ, cellSum_succ, cellSum_succ, ih]; omega

theorem cellSum_congr (f g : Nat → Nat) (p : Nat) (h : ∀ q < p, f q = g q) :
    cellSum f p = cellSum g p := by
  induction p with
  | zero => rfl
  | succ p ih =>
    rw [cellSum_succ, cellSum_succ, ih (fun q hq => h q (Nat.lt_succ_of_lt hq)),
      h p (Nat.lt_succ_self p)]

theorem cellSum_one (p : Nat) : cellSum (fun _ => 1) p = p := by
  induction p with
  | zero => rfl
  | succ p ih => rw [cellSum_succ, ih]

theorem codesTo_length_eq (G : Nat → Nat) (p : Nat) :
    (codesTo G p).length = cellSum (fun q => if 0 < G q ∧ G q < 5 then 1 else 0) p := by
  induction p with
  | zero => rfl
  | succ p ih =>
    rw [codesTo_succ, cellSum_succ, List.length_append, ih]
    split_ifs <;> rfl

theorem codesTo_sum_eq (G : Nat → Nat) (p : Nat) :
    (codesTo G p).sum = cellSum (fun q => if 0 < G q ∧ G q < 5 then G q - 1 else 0) p := by
  induction p with
  | zero => rfl
  | succ p ih =>
    rw [codesTo_succ, cellSum_succ, List.sum_append, ih]
    split_ifs <;> simp

theorem emptiesTo_length_eq (G : Nat → Nat) (p : Nat) :
    (emptiesTo G p).length = cellSum (fun q => if G q = 0 then 1 else 0) p := by
  induction p with
  | zero => rfl
  | succ p ih =>
    rw [emptiesTo_succ, cellSum_succ, List.length_append, ih]
    split_ifs <;> rfl

/-- Two pieces that are apart cover no common cell. -/
theorem apart_covers {a b : piece} (h : a.apart b) (q : Nat) (hq : q < 20)
    (ha : a.covers q = true) : b.covers q = false := by
  by_contra hb
  refine h (q % W) ?_ (q / W) ?_ ⟨ha, by simpa using hb⟩
  · simp only [List.mem_range, W]; omega
  · simp only [List.mem_range, W, H]; omega

/-- Painting pairwise disjoint pieces on cells that hold 0 adds, for every
measure `φ` of cell values with `φ 0 = 0`, the measures of the painted
values. -/
theorem paint_cellSum (φ : Nat → Nat) (hφ : φ 0 = 0) (p : Nat) (hp20 : p ≤ 20) (l : List piece)
    (hl : ∀ t ∈ l, t.small ∧ t.inside) (hp : l.Pairwise piece.apart) (g : Nat → Nat)
    (hg : ∀ t ∈ l, ∀ q < 20, t.covers q = true → g q = 0) :
    cellSum (fun q => φ (l.foldl paintPiece g q)) p =
      cellSum (fun q => φ (g q)) p +
        (l.map fun t => cellSum (fun q => if t.covers q = true then φ (t.paintVal q) else 0) p).sum := by
  induction l generalizing g with
  | nil => simp
  | cons t rest ih =>
    obtain ⟨hts, htin⟩ := hl t (List.mem_cons_self _ _)
    rw [List.pairwise_cons] at hp
    rw [List.foldl_cons, ih (fun t ht => hl t (List.mem_cons_of_mem _ ht)) hp.2]
    · rw [List.map_cons, List.sum_cons, ← Nat.add_assoc, ← cellSum_add]
      congr 1
      apply cellSum_congr
      intro q hq
      rw [paintPiece_apply g t hts htin q (by omega)]
      split_ifs with hc
      · rw [hg t (List.mem_cons_self _ _) q (by omega) hc, hφ]
        omega
      · rfl
    · intro t' ht' q hq hc'
      rw [paintPiece_apply g t hts htin q hq]
      have hnc : t.covers q = false := by
        by_contra hc
        have := apart_covers (hp.1 t' ht') q hq (by simpa using hc)
        rw [hc'] at this
        cases this
      rw [hnc]
      simpa using hg t' (List.mem_cons_of_mem _ ht') q hq hc'

/-- The cells, the anchor and the shape code that one piece contributes, for
every position and size inside the grid. -/
theorem piece_cellSum_all :
    ∀ x ∈ ([0, 1, 2, 3] : List Int), ∀ y ∈ ([0, 1, 2, 3, 4] : List Int),
    ∀ w ∈ ([1, 2] : List Int), ∀ h ∈ ([1, 2] : List Int), x + w ≤ 4 → y + h ≤ 5 →
    cellSum (fun q => if (⟨x, y, w, h, 0, 0, 0⟩ : piece).covers q = true then
        (if (⟨x, y, w, h, 0, 0, 0⟩ : piece).paintVal q = 0 then 0 else 1) else 0) 20 =
        (w * h).toNat ∧
    cellSum (fun q => if (⟨x, y, w, h, 0, 0, 0⟩ : piece).covers q = true then
        (if 0 < (⟨x, y, w, h, 0, 0, 0⟩ : piece).paintVal q ∧
          (⟨x, y, w, h, 0, 0, 0⟩ : piece).paintVal q < 5 then 1 else 0) else 0) 20 = 1 ∧
    cellSum (fun q => if (⟨x, y, w, h, 0, 0, 0⟩ : piece).covers q = true then
        (if 0 < (⟨x, y, w, h, 0, 0, 0⟩ : piece).paintVal q ∧
          (⟨x, y, w, h, 0, 0, 0⟩ : piece).paintVal q < 5 then
          (⟨x, y, w, h, 0, 0, 0⟩ : piece).paintVal q - 1 else 0) else 0) 20 =
        (⟨x, y, w, h, 0, 0, 0⟩ : piece).code - 1 := by
  decide!


/-- The cells, the anchor and the shape code that one piece inside the grid
contributes. -/
theorem piece_cellSum (t : piece) (hs : t.small) (hin : t.inside) :
    cellSum (fun q => if t.covers q = true then
        (if t.paintVal q = 0 then 0 else 1) else 0) 20 = (t.w * t.h).toNat ∧
    cellSum (fun q => if t.covers q = true then
        (if 0 < t.paintVal q ∧ t.paintVal q < 5 then 1 else 0) else 0) 20 = 1 ∧
    cellSum (fun q => if t.covers q = true then
        (if 0 < t.paintVal q ∧ t.paintVal q < 5 then t.paintVal q - 1 else 0) else 0) 20 =
        t.code - 1 := by
  rcases t with ⟨x, y, w, h, tx, ty, m⟩
  simp only [piece.small, piece.inside, W, H] at hs hin
  obtain ⟨hx0, hxw, hy0, hyh⟩ := hin
  simp only [Nat.cast_ofNat] at hxw hyh
  have hx : x ∈ ([0, 1, 2, 3] : List Int) := by
    simp only [List.mem_cons, List.mem_singleton, List.mem_nil_iff, or_false]; omega
  have hy : y ∈ ([0, 1, 2, 3, 4] : List Int) := by
    simp only [List.mem_cons, List.mem_singleton, List.mem_nil_iff, or_false]; omega
  have hw : w ∈ ([1, 2] : List Int) := by
    simp only [List.mem_cons, List.mem_singleton, List.mem_nil_iff, or_false]; exact hs.1
  have hh : h ∈ ([1, 2] : List Int) := by
    simp only [List.mem_cons, List.mem_singleton, List.mem_nil_iff, or_false]; exact hs.2
  exact piece_cellSum_all x hx y hy w hw h hh hxw hyh

theorem cellSum_zero (p : Nat) : cellSum (fun _ => 0) p = 0 := by
  induction p with
  | zero => rfl
  | succ p ih => rw [cellSum_succ, ih]

theorem sum_map_congr {l : List piece} {f g : piece → Nat} (h : ∀ t ∈ l, f t = g t) :
    (l.map f).sum = (l.map g).sum := by
  rw [List.map_congr_left h]

/-- The numbers of anchors, of occupied cells and the sum of the shape codes
on the grid of a legal board. -/
theorem legal_counts (pz : puzzle) (hl : pz.legal) :
    (codesTo (paintBoard pz.board) 20).length = pz.board.length ∧
    (emptiesTo (paintBoard pz.board) 20).length +
      (pz.board.map fun t => (t.w * t.h).toNat).sum = 20 ∧
    (codesTo (paintBoard pz.board) 20).sum = (pz.board.map fun t => t.code - 1).sum := by
  have hzero : ∀ t ∈ pz.board, ∀ q < 20, t.covers q = true → (fun _ : Nat => 0) q = 0 :=
    fun _ _ _ _ _ => rfl
  have key := fun φ hφ =>
    paint_cellSum φ hφ 20 (Nat.le_refl _) pz.board hl.1 hl.2 (fun _ => 0) hzero
  refine ⟨?_, ?_, ?_⟩
  · rw [codesTo_length_eq]
    have h1 := key (fun v => if 0 < v ∧ v < 5 then 1 else 0) (by simp)
    simp only [Nat.lt_irrefl, false_and, if_false, cellSum_zero, Nat.zero_add] at h1
    unfold paintBoard
    rw [h1, sum_map_congr (fun t ht => (piece_cellSum t (hl.1 t ht).1 (hl.1 t ht).2).2.1)]
    simp
  · have h1 := key (fun v => if v = 0 then 0 else 1) (by simp)
    simp only [if_true, cellSum_zero, Nat.zero_add] at h1
    rw [sum_map_congr (fun t ht => (piece_cellSum t (hl.1 t ht).1 (hl.1 t ht).2).1)] at h1
    rw [← h1, emptiesTo_length_eq, ← cellSum_add]
    unfold paintBoard
    rw [cellSum_congr _ (fun _ => 1) 20 (fun q _ => by split_ifs <;> rfl), cellSum_one]
  · rw [codesTo_sum_eq]
    have h1 := key (fun v => if 0 < v ∧ v < 5 then v - 1 else 0) (by simp)
    simp only [Nat.lt_irrefl, false_and, if_false, cellSum_zero, Nat.zero_add] at h1
    unfold paintBoard
    rw [h1, sum_map_congr (fun t ht => (piece_cellSum t (hl.1 t ht).1 (hl.1 t ht).2).2.2)]

/-- On an arrangement of the start pieces the grid has 10 anchors and 2 empty
cells, and the shape codes sum to 12. -/
theorem arrangement_counts (pz : puzzle) (ha : pz.arrangement) :
    pz.board.length = 10 ∧
    (codesTo (paintBoard pz.board) 20).length = 10 ∧
    (emptiesTo (paintBoard pz.board) 20).length = 2 ∧
    (codesTo (paintBoard pz.board) 20).sum = 12 := by
  obtain ⟨hl, hk⟩ := ha
  obtain ⟨h1, h2, h3⟩ := legal_counts pz hl
  have hlen : pz.board.length = 10 := by
    have := congrArg List.length hk
    simpa using this
  have harea : (pz.board.map fun t => (t.w * t.h).toNat).sum = 18 := by
    have : (pz.board.map fun t => (t.w * t.h).toNat) =
        (pz.board.map piece.kind).map fun k => (k.1 * k.2.1).toNat := by
      rw [List.map_map]; rfl
    rw [this, hk]
    decide
  have hcode : (pz.board.map fun t => t.code - 1).sum = 12 := by
    have : (pz.board.map fun t => t.code - 1) =
        (pz.board.map piece.kind).map fun k => ((2 * (k.2.1 - 1) + k.1) % 256).toNat - 1 := by
      rw [List.map_map]; rfl
    rw [this, hk]
    decide
  exact ⟨hlen, by omega, by omega, by omega⟩

/-- A successful move keeps the sizes and success criteria of all pieces. -/
theorem move_kind (pz pz1 : puzzle) (i : Nat) (dx dy : Int)
    (hm : piece.move pz i dx dy = (true, pz1)) :
    pz1.board.map piece.kind = pz.board.map piece.kind := by
  rcases move_cases pz i dx dy with h | ⟨t, hi, _, _, h⟩
  · rw [h] at hm; cases hm
  · rw [h] at hm
    cases hm
    apply List.ext_getElem?
    intro k
    simp only [List.getElem?_map, List.getElem?_set]
    split
    · next hik =>
      subst hik
      have hilt : i < pz.board.length := (List.getElem?_eq_some_iff.mp hi).1
      simp [hilt, hi, piece.kind, piece.shift]
    · rfl

/-- A successful move of an arrangement gives an arrangement. -/
theorem move_arrangement (pz pz1 : puzzle) (ha : pz.arrangement) (i : Nat) (dx dy : Int)
    (hm : piece.move pz i dx dy = (true, pz1)) : pz1.arrangement :=
  ⟨move_legal pz pz1 ha.1 i dx dy hm, (move_kind pz pz1 i dx dy hm).trans ha.2⟩

theorem applyMoves_arrangement (ms : List (Nat × Int × Int)) (b b1 : puzzle)
    (ha : b.arrangement) (h : applyMoves ms b = some b1) : b1.arrangement := by
  induction ms generalizing b with
  | nil =>
    simp only [applyMoves, Option.some.injEq] at h
    exact h ▸ ha
  | cons m ms ih =>
    obtain ⟨i, dy, dx⟩ := m
    unfold applyMoves at h
    split at h
    · next b2 heq => exact ih b2 (move_arrangement b b2 ha i dx dy heq) h
    · cases h

theorem start_arrangement : puzzle.start.arrangement := by decide

/-- The position code of an arrangement of the start pieces, without any
wrap-around: the first nine shape codes in base 4, times 121, plus the two
empty-cell ranks in base 11; the checksum is 12. -/
theorem hash_arrangement (wb : Nat) (hwb : 32 ≤ wb) (pz : puzzle) (ha : pz.arrangement) :
    pz.calculate_hashvalue wb =
      (ofBase 4 (codesTo (paintBoard pz.board) 20) / 4 * 121 +
        ofBase 11 (emptiesTo (paintBoard pz.board) 20), 12) ∧
    ofBase 4 (codesTo (paintBoard pz.board) 20) / 4 < 4 ^ 9 ∧
    ofBase 11 (emptiesTo (paintBoard pz.board) 20) < 121 := by
  obtain ⟨hlen, hA, hE, hS⟩ := arrangement_counts pz ha
  have hp := two_pow_wb hwb
  have hhv : ofBase 4 (codesTo (paintBoard pz.board) 20) < 4 ^ 10 := by
    have := ofBase_lt 4 _ (codesTo_digit (paintBoard pz.board) 20)
    rwa [hA] at this
  have he : ofBase 11 (emptiesTo (paintBoard pz.board) 20) < 11 ^ 2 := by
    have := ofBase_lt 11 _ (fun d hd => by
      have := emptiesTo_digit (paintBoard pz.board) 20 d hd; omega)
    rwa [hE] at this
  have h1 : ofBase 4 (codesTo (paintBoard pz.board) 20) / 4 < 4 ^ 9 := by
    norm_num at hhv ⊢; omega
  refine ⟨?_, h1, by norm_num at he ⊢; exact he⟩
  unfold puzzle.calculate_hashvalue
  rw [hlen, scanGrid_eq, scanTo_spec wb hwb _ 20 (by omega) (by omega)]
  simp only [Nat.shiftRight_eq_div_pow]
  rw [hS, Nat.mod_eq_of_lt]
  · norm_num [Nat.mul_assoc]
  · norm_num at h1 he hp ⊢; omega

/-- C2: for every board obtained from the start configuration by a sequence
of successful moves, `calculate_hashvalue` returns a value below
`S = 31719424`, for either width of `unsigned long`. -/
theorem code_range (wb : Nat) (hwb : 32 ≤ wb) (ms : List (Nat × Int × Int)) (b : puzzle)
    (h : applyMoves ms puzzle.start = some b) :
    (b.calculate_hashvalue wb).1 < S ∧ S = 31719424 := by
  have ha := applyMoves_arrangement ms puzzle.start b start_arrangement h
  obtain ⟨h1, h2, h3⟩ := hash_arrangement wb hwb b ha
  rw [h1]
  refine ⟨?_, by decide⟩
  have hS : S = 4 ^ 9 * 121 := by decide
  rw [hS]
  norm_num at h2 h3 ⊢
  omega

set_option maxRecDepth 100000 in
theorem code_range_witness :
    32 ≤ 64 ∧ applyMoves cornerPath puzzle.start = some cornerBoard ∧
      ((cornerBoard.calculate_hashvalue 64).1 < S ∧ S = 31719424) :=
  ⟨by decide, by decide, code_range 64 (by decide) cornerPath cornerBoard (by decide)⟩


/-! ## The board built by the final loops of the decoder -/

/-- The final loops visit the raster indices 19 down to 0. -/
theorem buildBoard_eq (G : Nat → Nat) (sol : piece) (pz : puzzle) :
    buildBoard G sol pz =
      (List.range 20).reverse.foldl (fun pz q => buildCell G sol pz (q / 4) (q % 4)) pz := by
  simp only [buildBoard, H, W, List.range, List.range.loop, List.reverse_cons, List.reverse_nil,
    List.nil_append, List.cons_append, List.foldl_cons, List.foldl_nil]

theorem buildCell_anchor (G : Nat → Nat) (sol : piece) (pz : puzzle) (q : Nat)
    (h0 : 0 < G q) (h5 : G q < 5) (hN : pz.board.length < 10) :
    (buildCell G sol pz (q / 4) (q % 4)).board = pz.board ++ [pieceAt G q] ∧
      (buildCell G sol pz (q / 4) (q % 4)).illegal = pz.illegal := by
  have hq : q / 4 * W + q % 4 = q := by simp only [W]; omega
  unfold buildCell
  rw [hq, if_pos (by omega), if_pos h5]
  simp only [puzzle.add, N, if_pos hN]
  split_ifs <;> exact ⟨rfl, rfl⟩

theorem buildCell_other (G : Nat → Nat) (sol : piece) (pz : puzzle) (q : Nat)
    (h : ¬ (0 < G q ∧ G q < 5)) :
    buildCell G sol pz (q / 4) (q % 4) = pz := by
  have hq : q / 4 * W + q % 4 = q := by simp only [W]; omega
  unfold buildCell
  rw [hq]
  split_ifs with h1 h2
  · exact absurd ⟨by omega, h2⟩ h
  · rfl
  · rfl

/-- The final loops over the cells `l` add one piece per anchor cell, as long
as the board has room. -/
theorem build_foldl (G : Nat → Nat) (sol : piece) (l : List Nat) (pz : puzzle)
    (hN : pz.board.length + (anchorsOf G l).length ≤ 10) :
    (l.foldl (fun pz q => buildCell G sol pz (q / 4) (q % 4)) pz).board =
        pz.board ++ (anchorsOf G l).map (pieceAt G) ∧
      (l.foldl (fun pz q => buildCell G sol pz (q / 4) (q % 4)) pz).illegal = pz.illegal := by
  induction l generalizing pz with
  | nil => simp [anchorsOf]
  | cons q rest ih =>
    rw [List.foldl_cons]
    by_cases h : 0 < G q ∧ G q < 5
    · have hcons : anchorsOf G (q :: rest) = q :: anchorsOf G rest := by
        simp [anchorsOf, h]
      rw [hcons, List.length_cons] at hN
      obtain ⟨h1, h2⟩ := buildCell_anchor G sol pz q h.1 h.2 (by omega)
      obtain ⟨h3, h4⟩ := ih (buildCell G sol pz (q / 4) (q % 4))
        (by rw [h1, List.length_append, List.length_singleton]; omega)
      rw [h3, h4, h1, h2, hcons]
      simp
    · have hcons : anchorsOf G (q :: rest) = anchorsOf G rest := by
        simp [anchorsOf, h]
      rw [hcons] at hN ⊢
      rw [buildCell_other G sol pz q h]
      exact ih pz hN

theorem anchorsOf_length (G : Nat → Nat) (p : Nat) :
    (anchorsOf G (List.range p).reverse).length = (codesTo G p).length := by
  induction p with
  | zero => rfl
  | succ p ih =>
    rw [codesTo_succ, List.range_succ, List.reverse_append, List.length_append, ← ih]
    by_cases h : 0 < G p ∧ G p < 5
    · simp [anchorsOf, h]
    · simp [anchorsOf, h]

theorem mem_anchorsOf (G : Nat → Nat) (p a : Nat) :
    a ∈ anchorsOf G (List.range p).reverse ↔ a < p ∧ 0 < G a ∧ G a < 5 := by
  simp [anchorsOf]

/-- The piece built for an anchor of a well-formed grid is small and inside,
it covers exactly its footprint, and it paints the grid value at its anchor and
5 elsewhere. -/
theorem pieceAt_spec (G : Nat → Nat) (a : Nat) (ha : a < 20) (h0 : 0 < G a) (h5 : G a < 5)
    (hrow : a % 4 + footW (G a) < 4) (hend : a + 4 * footH (G a) + footW (G a) < 20) :
    (pieceAt G a).small ∧ (pieceAt G a).inside ∧
      (∀ q, q < 20 → ((pieceAt G a).covers q = true ↔ inFoot a (G a) q)) ∧
      (∀ q, (pieceAt G a).paintVal q = if q = a then G a else 5) := by
  simp only [footW, footH] at hrow hend
  refine ⟨?_, ?_, ?_, ?_⟩
  · simp only [piece.small, pieceAt]; omega
  · simp only [piece.inside, pieceAt, W, H]; omega
  · intro q hq
    rw [covers_iff]
    simp only [pieceAt, inFoot, footW, footH]
    omega
  · intro q
    simp only [piece.paintVal, piece.anchor, piece.code, pieceAt, W]
    split_ifs <;> omega

/-- Painting the pieces built from a well-formed grid gives the grid back. -/
theorem paint_build (G : Nat → Nat) (hwf : gridWF G) (q : Nat) (hq : q < 20) :
    paintBoard ((anchorsOf G (List.range 20).reverse).map (pieceAt G)) q = G q := by
  obtain ⟨w1, w2, w3⟩ := hwf
  have hmem : ∀ t ∈ (anchorsOf G (List.range 20).reverse).map (pieceAt G),
      ∃ a, a < 20 ∧ 0 < G a ∧ G a < 5 ∧ t = pieceAt G a := by
    intro t ht
    obtain ⟨a, ha, rfl⟩ := List.mem_map.mp ht
    obtain ⟨h1, h2, h3⟩ := (mem_anchorsOf G 20 a).mp ha
    exact ⟨a, h1, h2, h3, rfl⟩
  have hspec : ∀ a, a < 20 → 0 < G a → G a < 5 → _ := fun a ha h0 h5 =>
    pieceAt_spec G a ha h0 h5 (w2 a ha h0 h5).1 (w2 a ha h0 h5).2.1
  have hl : ∀ t ∈ (anchorsOf G (List.range 20).reverse).map (pieceAt G), t.small ∧ t.inside := by
    intro t ht
    obtain ⟨a, ha, h0, h5, rfl⟩ := hmem t ht
    exact ⟨(hspec a ha h0 h5).1, (hspec a ha h0 h5).2.1⟩
  have hcov : ∀ t ∈ (anchorsOf G (List.range 20).reverse).map (pieceAt G),
      t.covers q = true → t.paintVal q = G q := by
    intro t ht hc
    obtain ⟨a, ha, h0, h5, rfl⟩ := hmem t ht
    have hf := ((hspec a ha h0 h5).2.2.1 q hq).mp hc
    rw [(hspec a ha h0 h5).2.2.2 q]
    split_ifs with hqa
    · rw [hqa]
    · exact ((w2 a ha h0 h5).2.2 q hf hqa).symm
  unfold paintBoard
  by_cases hex : ∃ t ∈ (anchorsOf G (List.range 20).reverse).map (pieceAt G), t.covers q = true
  · exact paint_foldl_covered _ hl _ q hq _ hex hcov
  · have hn : ∀ t ∈ (anchorsOf G (List.range 20).reverse).map (pieceAt G),
        t.covers q = false := by
      intro t ht
      by_contra hc
      exact hex ⟨t, ht, by simpa using hc⟩
    rw [paint_foldl_free _ hl _ q hq hn]
    have hle := w1 q hq
    by_cases h0 : G q = 0
    · exact h0.symm
    · exfalso
      by_cases h5 : G q = 5
      · obtain ⟨a, haq, ha0, ha5, hf⟩ := w3 q hq h5
        have hmem' : pieceAt G a ∈ (anchorsOf G (List.range 20).reverse).map (pieceAt G) :=
          List.mem_map.mpr ⟨a, (mem_anchorsOf G 20 a).mpr ⟨by omega, ha0, ha5⟩, rfl⟩
        have := hn _ hmem'
        rw [((hspec a (by omega) ha0 ha5).2.2.1 q hq).mpr hf] at this
        cases this
      · have hmem' : pieceAt G q ∈ (anchorsOf G (List.range 20).reverse).map (pieceAt G) :=
          List.mem_map.mpr ⟨q, (mem_anchorsOf G 20 q).mpr ⟨hq, by omega, by omega⟩, rfl⟩
        have := hn _ hmem'
        rw [((hspec q hq (by omega) (by omega)).2.2.1 q hq).mpr (Or.inl rfl)] at this
        cases this


/-! ## The loop of the decoder -/

theorem skipCovered_spec (G : Nat → Nat) (fuel p : Nat) (hf : 20 ≤ fuel + p) :
    p ≤ skipCovered G fuel p ∧ (p ≤ 20 → skipCovered G fuel p ≤ 20) ∧
      (skipCovered G fuel p < 20 → G (skipCovered G fuel p) = 0) ∧
      ∀ q, p ≤ q → q < skipCovered G fuel p → G q ≠ 0 := by
  induction fuel generalizing p with
  | zero =>
    simp only [skipCovered]
    exact ⟨Nat.le_refl _, fun h => h, fun h => by omega, fun q h1 h2 => by omega⟩
  | succ fuel ih =>
    simp only [skipCovered, H, W]
    split_ifs with h
    · obtain ⟨h1, h2, h3, h4⟩ := ih (p + 1) (by omega)
      refine ⟨by omega, fun _ => h2 (by omega), h3, fun q hq1 hq2 => ?_⟩
      by_cases hqp : q = p
      · rw [hqp]; exact h.2
      · exact h4 q (by omega) hq2
    · refine ⟨Nat.le_refl _, fun h => h, fun hp => ?_, fun q h1 h2 => by omega⟩
      by_contra h0
      exact h ⟨by omega, h0⟩

theorem shapeOf_eq (v : Nat) (hv : v < 4) : shapeOf v = (v / 2, v % 2) := by
  interval_cases v <;> rfl

theorem wsub_of_le (wb a b : Nat) (hba : b ≤ a) (ha : a < 2 ^ wb) : wsub wb a b = a - b := by
  unfold wsub
  rw [Nat.mod_eq_of_lt ha, Nat.mod_eq_of_lt (Nat.lt_of_le_of_lt hba ha)]
  have : a + 2 ^ wb - b = (a - b) + 2 ^ wb := by omega
  rw [this, Nat.add_mod_right, Nat.mod_eq_of_lt (by omega)]

theorem and_three (x : Nat) : x &&& 3 = x % 4 := by
  have := Nat.and_pow_two_sub_one_eq_mod x 2
  simpa using this

theorem codesTo_congr (G G' : Nat → Nat) (p : Nat) (h : ∀ q < p, G q = G' q) :
    codesTo G p = codesTo G' p := by
  induction p with
  | zero => rfl
  | succ p ih =>
    rw [codesTo_succ, codesTo_succ, ih (fun q hq => h q (Nat.lt_succ_of_lt hq)),
      h p (Nat.lt_succ_self p)]

theorem emptiesTo_congr (G G' : Nat → Nat) (p : Nat) (h : ∀ q < p, G q = G' q) :
    emptiesTo G p = emptiesTo G' p := by
  induction p with
  | zero => rfl
  | succ p ih =>
    rw [emptiesTo_succ, emptiesTo_succ, ih (fun q hq => h q (Nat.lt_succ_of_lt hq)),
      h p (Nat.lt_succ_self p), codesTo_congr G G' p (fun q hq => h q (Nat.lt_succ_of_lt hq))]

/-- Cells holding 5 contribute neither a shape code nor an empty-cell rank. -/
theorem lists_skip (G : Nat → Nat) (p p' : Nat) (hpp : p ≤ p')
    (h5 : ∀ q, p ≤ q → q < p' → G q = 5) :
    codesTo G p' = codesTo G p ∧ emptiesTo G p' = emptiesTo G p := by
  induction p', hpp using Nat.le_induction with
  | base => exact ⟨rfl, rfl⟩
  | succ k hk ih =>
    obtain ⟨h1, h2⟩ := ih (fun q hq1 hq2 => h5 q hq1 (Nat.lt_succ_of_lt hq2))
    have hk5 := h5 k hk (Nat.lt_succ_self k)
    rw [codesTo_succ, emptiesTo_succ, h1, h2, hk5]
    simp

/-- The grid after placing a piece, cell by cell. -/
theorem placeAt_apply (G : Nat → Nat) (p v : Nat) (hv : v < 4) (q : Nat) :
    placeAt G p v q =
      if q = p then v + 1
      else if q = p + v % 2 ∨ q = p + 4 * (v / 2) ∨ q = p + 4 * (v / 2) + v % 2 then 5
      else G q := by
  unfold placeAt
  rw [shapeOf_eq v hv]
  simp only [Function.update_apply, W]
  split_ifs <;> first | rfl | omega

/-- The loop body when the cell is taken as empty. -/
theorem decodeBody_empty (wb hv sum : Nat) (st : decodeState)
    (h : st.i = st.e / 11 % 11) :
    decodeBody wb 10 hv sum st =
      { st with n := st.n + 1, p := skipCovered st.grid 20 (st.p + 1),
                e := (st.e * 11) % 2 ^ wb } := by
  unfold decodeBody
  simp only [if_pos h]
  rfl

/-- The loop body when a piece is placed. -/
theorem decodeBody_place (wb hv sum : Nat) (st : decodeState)
    (h : ¬ st.i = st.e / 11 % 11)
    (hok : ¬ (st.p + (shapeOf (nextCode wb hv sum st)).1 * W + (shapeOf (nextCode wb hv sum st)).2
        ≥ H * W ∨ st.p / W ≠ (st.p + (shapeOf (nextCode wb hv sum st)).2) / W)) :
    decodeBody wb 10 hv sum st =
      { st with
        r := if st.r ≠ 0 then wsub wb st.r 1 else st.r
        grid := placeAt st.grid st.p (nextCode wb hv sum st)
        s := (st.s + nextCode wb hv sum st) % 2 ^ wb
        i := st.i + 1
        p := skipCovered (placeAt st.grid st.p (nextCode wb hv sum st)) 20 st.p } := by
  unfold nextCode at hok
  unfold decodeBody nextCode placeAt
  simp only [if_neg h, if_neg hok]
  rfl

/-- The loop body when the placement of a piece is rejected. -/
theorem decodeBody_reject (wb hv sum : Nat) (st : decodeState)
    (h : ¬ st.i = st.e / 11 % 11)
    (hbad : st.p + (shapeOf (nextCode wb hv sum st)).1 * W + (shapeOf (nextCode wb hv sum st)).2
        ≥ H * W ∨ st.p / W ≠ (st.p + (shapeOf (nextCode wb hv sum st)).2) / W) :
    decodeBody wb 10 hv sum st =
      { st with
        r := if st.r ≠ 0 then wsub wb st.r 1 else st.r
        illegal := st.illegal + 1
        s := (st.s + nextCode wb hv sum st) % 2 ^ wb
        i := st.i + 1
        p := skipCovered st.grid 20 st.p } := by
  unfold nextCode at hbad
  unfold decodeBody nextCode
  simp only [if_neg h, if_pos hbad]
  rfl


/-- The invariant is kept when the loop body takes a cell as empty, for the
first or the second time. -/
theorem decInv_empty (wb : Nat) (hwb : 32 ≤ wb) (hv0 e0 sum : Nat) (he0 : e0 < 121)
    (st : decodeState) (hinv : decInv hv0 e0 st) (hp : st.p < 20)
    (h : st.i = st.e / 11 % 11) (hn : st.n ≤ 1) :
    decInv hv0 e0 (decodeBody wb 10 hv0 sum st) := by
  rw [decodeBody_empty wb hv0 sum st h]
  obtain ⟨k1, k2, k3, k4⟩ := skipCovered_spec st.grid 20 (st.p + 1) (by omega)
  have hG0 := hinv.head hp
  have h5 : ∀ q, st.p + 1 ≤ q → q < skipCovered st.grid 20 (st.p + 1) → st.grid q = 5 := by
    intro q hq1 hq2
    rcases hinv.tail q (by omega) with h0 | h5
    · exact absurd h0 (k4 q hq1 hq2)
    · exact h5
  obtain ⟨l1, l2⟩ := lists_skip st.grid (st.p + 1) _ k1 h5
  have hc : codesTo st.grid (skipCovered st.grid 20 (st.p + 1)) = codesTo st.grid st.p := by
    rw [l1, codesTo_succ, hG0]; simp
  have he : emptiesTo st.grid (skipCovered st.grid 20 (st.p + 1)) =
      emptiesTo st.grid st.p ++ [st.i] := by
    rw [l2, emptiesTo_succ, hG0, hinv.ilen]; simp
  have hp32 := two_pow_wb hwb
  have hev := hinv.eval
  have hee := hinv.e_eq
  refine ⟨?_, ?_, ?_, ?_, ?_, ?_, ?_, ?_, ?_, ?_, ?_, ?_, ?_, ?_, ?_, ?_, ?_⟩
  · exact k2 (by omega)
  · exact k3
  · intro q hq
    exact hinv.tail q (by simp only at hq; omega)
  · exact hinv.le5
  · intro a h0 h5
    obtain ⟨a1, a2⟩ := hinv.anch a h0 h5
    exact ⟨by simp only; omega, a2⟩
  · exact hinv.cov
  · simp only [hc]; exact hinv.ilen
  · exact hinv.i_le
  · simp only [he, List.length_append, List.length_singleton, hinv.nlen]
  · simp only; omega
  · simp only [he, ofBase_snoc, hev]
    have hn01 : st.n = 0 ∨ st.n = 1 := by omega
    rcases hn01 with h0 | h1
    · rw [h0] at hee ⊢
      simp only [pow_zero, Nat.mul_one] at hee
      rw [h, hee]
      norm_num
      omega
    · rw [h1] at hee ⊢
      simp only [pow_one] at hee
      rw [h, hee]
      norm_num
      omega
  · simp only
    have hn01 : st.n = 0 ∨ st.n = 1 := by omega
    rcases hn01 with h0 | h1
    · rw [h0] at hee ⊢
      rw [hee, Nat.mod_eq_of_lt (by norm_num; omega)]
      norm_num
    · rw [h1] at hee ⊢
      rw [hee, Nat.mod_eq_of_lt (by norm_num; omega)]
      norm_num
      omega
  · exact hinv.r_eq
  · simp only [hc]; exact hinv.hval
  · simp only [hc]; exact hinv.hval10
  · simp only [hc]; exact hinv.s_eq
  · exact hinv.legal

theorem nextCode_lt (wb hv sum : Nat) (st : decodeState) : nextCode wb hv sum st < 4 := by
  unfold nextCode
  rw [and_three]
  exact Nat.mod_lt _ (by decide)

/-- While fewer than nine pieces have been placed, the next shape code is the
next base-4 digit of the hashvalue. -/
theorem nextCode_high (wb : Nat) (hwb : 32 ≤ wb) (hv sum : Nat) (st : decodeState)
    (hr : st.r = 9 - st.i) (hi : st.i ≤ 8) :
    nextCode wb hv sum st = hv / 4 ^ (8 - st.i) % 4 := by
  have hp32 := two_pow_wb hwb
  have hr0 : st.r ≠ 0 := by omega
  have e1 : wsub wb st.r 1 = 8 - st.i := by
    rw [wsub_of_le wb st.r 1 (by omega) (by omega)]; omega
  have e2 : (2 * (8 - st.i)) % 2 ^ wb = 2 * (8 - st.i) := Nat.mod_eq_of_lt (by omega)
  unfold nextCode
  rw [if_pos hr0, if_pos hr0, and_three, e1, e2, Nat.shiftRight_eq_div_pow, pow_mul]
  norm_num

/-- The invariant is kept when the loop body places one of the first ten
pieces. -/
theorem decInv_place (wb : Nat) (hwb : 32 ≤ wb) (hv0 e0 sum : Nat)
    (st : decodeState) (hinv : decInv hv0 e0 st) (hp : st.p < 20)
    (h : ¬ st.i = st.e / 11 % 11) (hi : st.i ≤ 9)
    (hok : ¬ (st.p + (shapeOf (nextCode wb hv0 sum st)).1 * W +
        (shapeOf (nextCode wb hv0 sum st)).2 ≥ H * W ∨
      st.p / W ≠ (st.p + (shapeOf (nextCode wb hv0 sum st)).2) / W)) :
    decInv hv0 e0 (decodeBody wb 10 hv0 sum st) := by
  rw [decodeBody_place wb hv0 sum st h hok]
  have hv4 := nextCode_lt wb hv0 sum st
  have hhigh := nextCode_high wb hwb hv0 sum st hinv.r_eq
  generalize nextCode wb hv0 sum st = v at hok hv4 hhigh ⊢
  rw [shapeOf_eq v hv4] at hok
  simp only [H, W] at hok
  have hfit : st.p + 4 * (v / 2) + v % 2 < 20 ∧ st.p / 4 = (st.p + v % 2) / 4 := by omega
  have hG0 := hinv.head hp
  have hP := placeAt_apply st.grid st.p v hv4
  obtain ⟨k1, k2, k3, k4⟩ := skipCovered_spec (placeAt st.grid st.p v) 20 st.p (by omega)
  have hPp : placeAt st.grid st.p v st.p = v + 1 := by rw [hP, if_pos rfl]
  have hlt : st.p < skipCovered (placeAt st.grid st.p v) 20 st.p := by
    rcases Nat.lt_or_ge st.p (skipCovered (placeAt st.grid st.p v) 20 st.p) with h1 | h1
    · exact h1
    · have heq : skipCovered (placeAt st.grid st.p v) 20 st.p = st.p := by omega
      have := k3 (by omega)
      rw [heq, hPp] at this
      omega
  have hbelow : ∀ q, q < st.p → placeAt st.grid st.p v q = st.grid q := by
    intro q hq
    rw [hP, if_neg (by omega), if_neg (by omega)]
  have habove : ∀ q, st.p < q → placeAt st.grid st.p v q = 0 ∨ placeAt st.grid st.p v q = 5 := by
    intro q hq
    rw [hP, if_neg (by omega)]
    split_ifs
    · exact Or.inr rfl
    · exact hinv.tail q (by omega)
  have h5 : ∀ q, st.p + 1 ≤ q → q < skipCovered (placeAt st.grid st.p v) 20 st.p →
      placeAt st.grid st.p v q = 5 := by
    intro q hq1 hq2
    rcases habove q (by omega) with h0 | h5
    · exact absurd h0 (k4 q (by omega) hq2)
    · exact h5
  obtain ⟨l1, l2⟩ := lists_skip (placeAt st.grid st.p v) (st.p + 1) _ hlt h5
  have hc : codesTo (placeAt st.grid st.p v) (skipCovered (placeAt st.grid st.p v) 20 st.p) =
      codesTo st.grid st.p ++ [v] := by
    rw [l1, codesTo_succ, hPp, codesTo_congr _ st.grid st.p hbelow]
    simp
    omega
  have he : emptiesTo (placeAt st.grid st.p v) (skipCovered (placeAt st.grid st.p v) 20 st.p) =
      emptiesTo st.grid st.p := by
    rw [l2, emptiesTo_succ, hPp, emptiesTo_congr _ st.grid st.p hbelow]
    simp
  have hp32 := two_pow_wb hwb
  have hsum := codesTo_sum_le st.grid st.p
  rw [hinv.ilen, hinv.s_eq] at hsum
  have hold : ∀ a, 0 < st.grid a → st.grid a < 5 → placeAt st.grid st.p v a = st.grid a :=
    fun a h0 h5 => hbelow a (hinv.anch a h0 h5).1
  refine ⟨?_, ?_, ?_, ?_, ?_, ?_, ?_, ?_, ?_, ?_, ?_, ?_, ?_, ?_, ?_, ?_, ?_⟩
  · exact k2 (by omega)
  · exact k3
  · intro q hq
    exact habove q (by simp only at hq; omega)
  · intro q
    show placeAt st.grid st.p v q ≤ 5
    rw [hP]
    have := hinv.le5 q
    split_ifs <;> omega
  · intro a h0 h5
    simp only at h0 h5 ⊢
    by_cases hap : a = st.p
    · subst hap
      rw [hPp]
      simp only [footW, footH, inFoot, Nat.add_sub_cancel]
      refine ⟨hlt, by omega, by omega, ?_⟩
      intro q hq hne
      rw [hP, if_neg hne, if_pos (by omega)]
    · have hGa : placeAt st.grid st.p v a = st.grid a := by
        rw [hP, if_neg hap] at h0 h5 ⊢
        split_ifs at h0 h5 ⊢ <;> first | rfl | omega
      rw [hGa] at h0 h5 ⊢
      obtain ⟨a1, a2, a3, a4⟩ := hinv.anch a h0 h5
      refine ⟨by omega, a2, a3, ?_⟩
      intro q hq hne
      have hq5 := a4 q hq hne
      rw [hP]
      split_ifs with c1 c2
      · rw [c1] at hq5; omega
      · rfl
      · exact hq5
  · intro q hq
    simp only at hq ⊢
    rw [hP] at hq
    split_ifs at hq with c1 c2
    · omega
    · refine ⟨st.p, by omega, by rw [hPp]; omega, by rw [hPp]; omega, ?_⟩
      rw [hPp]
      simp only [footW, footH, inFoot, Nat.add_sub_cancel]
      omega
    · obtain ⟨a, a1, a2, a3, a4⟩ := hinv.cov q hq
      refine ⟨a, a1, ?_, ?_, ?_⟩
      · rw [hold a a2 a3]; exact a2
      · rw [hold a a2 a3]; exact a3
      · rw [hold a a2 a3]; exact a4
  · simp only [hc, List.length_append, List.length_singleton, hinv.ilen]
  · simp only; omega
  · simp only [he]; exact hinv.nlen
  · exact hinv.n_le
  · simp only [he]; exact hinv.eval
  · exact hinv.e_eq
  · simp only
    have := hinv.r_eq
    split_ifs with hr
    · rw [wsub_of_le wb st.r 1 (by omega) (by omega)]; omega
    · omega
  · intro hi9
    simp only at hi9 ⊢
    have hi8 : st.i ≤ 8 := by omega
    rw [hc, ofBase_snoc, hinv.hval hi, hhigh hi8]
    have e1 : 9 - st.i = (8 - st.i) + 1 := by omega
    have e2 : 9 - (st.i + 1) = 8 - st.i := by omega
    rw [e1, e2, pow_succ, ← Nat.div_div_eq_div_mul]
    omega
  · intro hi10
    simp only at hi10 ⊢
    have hi9 : st.i = 9 := by omega
    rw [hc, ofBase_snoc, hinv.hval hi, hi9]
    norm_num
    omega
  · simp only [hc, List.sum_append, List.sum_cons, List.sum_nil, hinv.s_eq]
    rw [Nat.mod_eq_of_lt (by omega)]
    omega
  · exact hinv.legal


theorem decodeBody_cases (wb hv sum : Nat) (st : decodeState) :
    (st.i = st.e / 11 % 11 ∧
      decodeBody wb 10 hv sum st =
        { st with n := st.n + 1, p := skipCovered st.grid 20 (st.p + 1),
                  e := (st.e * 11) % 2 ^ wb }) ∨
    (¬ st.i = st.e / 11 % 11 ∧
      ¬ (st.p + (shapeOf (nextCode wb hv sum st)).1 * W + (shapeOf (nextCode wb hv sum st)).2
        ≥ H * W ∨ st.p / W ≠ (st.p + (shapeOf (nextCode wb hv sum st)).2) / W) ∧
      decodeBody wb 10 hv sum st =
        { st with
          r := if st.r ≠ 0 then wsub wb st.r 1 else st.r
          grid := placeAt st.grid st.p (nextCode wb hv sum st)
          s := (st.s + nextCode wb hv sum st) % 2 ^ wb
          i := st.i + 1
          p := skipCovered (placeAt st.grid st.p (nextCode wb hv sum st)) 20 st.p }) ∨
    (¬ st.i = st.e / 11 % 11 ∧
      (st.p + (shapeOf (nextCode wb hv sum st)).1 * W + (shapeOf (nextCode wb hv sum st)).2
        ≥ H * W ∨ st.p / W ≠ (st.p + (shapeOf (nextCode wb hv sum st)).2) / W) ∧
      decodeBody wb 10 hv sum st =
        { st with
          r := if st.r ≠ 0 then wsub wb st.r 1 else st.r
          illegal := st.illegal + 1
          s := (st.s + nextCode wb hv sum st) % 2 ^ wb
          i := st.i + 1
          p := skipCovered st.grid 20 st.p }) := by
  by_cases h : st.i = st.e / 11 % 11
  · exact Or.inl ⟨h, decodeBody_empty wb hv sum st h⟩
  · by_cases hbad : st.p + (shapeOf (nextCode wb hv sum st)).1 * W +
        (shapeOf (nextCode wb hv sum st)).2 ≥ H * W ∨
        st.p / W ≠ (st.p + (shapeOf (nextCode wb hv sum st)).2) / W
    · exact Or.inr (Or.inr ⟨h, hbad, decodeBody_reject wb hv sum st h hbad⟩)
    · exact Or.inr (Or.inl ⟨h, hbad, decodeBody_place wb hv sum st h hbad⟩)

/-- A doomed state stays doomed. -/
theorem doomed_body (wb hv sum : Nat) (st : decodeState) (hd : doomed st) :
    doomed (decodeBody wb 10 hv sum st) := by
  unfold doomed at hd ⊢
  rcases decodeBody_cases wb hv sum st with ⟨_, h⟩ | ⟨_, _, h⟩ | ⟨_, _, h⟩ <;>
    rw [h] <;> simp only <;> omega

/-- One iteration of the loop keeps the invariant or dooms the run. -/
theorem decInv_step (wb : Nat) (hwb : 32 ≤ wb) (hv0 e0 sum : Nat) (he0 : e0 < 121)
    (st : decodeState) (hinv : decInv hv0 e0 st) (hp : st.p < 20) :
    decInv hv0 e0 (decodeBody wb 10 hv0 sum st) ∨ doomed (decodeBody wb 10 hv0 sum st) := by
  rcases decodeBody_cases wb hv0 sum st with ⟨h, heq⟩ | ⟨h, hok, heq⟩ | ⟨h, hbad, heq⟩
  · by_cases hn : st.n ≤ 1
    · exact Or.inl (decInv_empty wb hwb hv0 e0 sum he0 st hinv hp h hn)
    · right
      rw [heq]
      unfold doomed
      simp only
      omega
  · by_cases hi : st.i ≤ 9
    · exact Or.inl (decInv_place wb hwb hv0 e0 sum st hinv hp h hi hok)
    · right
      rw [heq]
      unfold doomed
      simp only
      omega
  · right
    rw [heq]
    unfold doomed
    simp only
    omega

theorem decodeLoop_doomed (wb hv sum : Nat) (fuel : Nat) (st fin : decodeState)
    (hd : doomed st) (h : decodeLoop wb 10 hv sum fuel st = some fin) : doomed fin := by
  induction fuel generalizing st with
  | zero =>
    simp only [decodeLoop] at h
    split_ifs at h
    cases h
    exact hd
  | succ fuel ih =>
    simp only [decodeLoop] at h
    split_ifs at h
    · exact ih _ (doomed_body wb hv sum st hd) h
    · cases h
      exact hd

/-- A run of the loop that does not end doomed keeps the invariant and ends
with all cells visited. -/
theorem decodeLoop_inv (wb : Nat) (hwb : 32 ≤ wb) (hv0 e0 sum : Nat) (he0 : e0 < 121)
    (fuel : Nat) (st fin : decodeState) (hinv : decInv hv0 e0 st)
    (h : decodeLoop wb 10 hv0 sum fuel st = some fin) (hnd : ¬ doomed fin) :
    decInv hv0 e0 fin ∧ fin.p = 20 := by
  induction fuel generalizing st with
  | zero =>
    simp only [decodeLoop, H, W] at h
    split_ifs at h with hp
    cases h
    exact ⟨hinv, by have := hinv.p_le; omega⟩
  | succ fuel ih =>
    simp only [decodeLoop, H, W] at h
    split_ifs at h with hp
    · rcases decInv_step wb hwb hv0 e0 sum he0 st hinv (by omega) with h1 | h1
      · exact ih _ h1 h
      · exact absurd (decodeLoop_doomed wb hv0 sum fuel _ fin h1 h) hnd
    · cases h
      exact ⟨hinv, by have := hinv.p_le; omega⟩

/-! ## Termination of the loop of the decoder -/

theorem wsub_mod (wb a b : Nat) : wsub wb a (b % 2 ^ wb) = wsub wb a b := by
  unfold wsub
  rw [Nat.mod_mod]

/-- After a shape code has been taken from the checksum, the checksum yields
the shape code 0. -/
theorem wsub_mod4 (wb : Nat) (hwb : 2 ≤ wb) (sum s : Nat) :
    wsub wb sum ((s + wsub wb sum s % 4) % 2 ^ wb) % 4 = 0 := by
  obtain ⟨m, hm⟩ : ∃ m, 2 ^ wb = 4 * m := by
    obtain ⟨k, rfl⟩ : ∃ k, wb = k + 2 := ⟨wb - 2, by omega⟩
    exact ⟨2 ^ k, by rw [pow_add]; norm_num; ring⟩
  have hMpos : 0 < 2 ^ wb := Nat.two_pow_pos wb
  have h4 : ∀ y, y % 2 ^ wb % 4 = y % 4 := fun y =>
    Nat.mod_mod_of_dvd y ⟨m, hm⟩
  unfold wsub
  rw [Nat.mod_mod, h4]
  have hA : sum % 2 ^ wb < 2 ^ wb := Nat.mod_lt _ hMpos
  have hB : s % 2 ^ wb < 2 ^ wb := Nat.mod_lt _ hMpos
  have hx : (sum % 2 ^ wb + 2 ^ wb - s % 2 ^ wb) % 2 ^ wb % 4 =
      (sum % 2 ^ wb + 2 ^ wb - s % 2 ^ wb) % 4 := h4 _
  rw [hx]
  have hB' : (s + (sum % 2 ^ wb + 2 ^ wb - s % 2 ^ wb) % 4) % 2 ^ wb % 4 =
      (s % 2 ^ wb + (sum % 2 ^ wb + 2 ^ wb - s % 2 ^ wb) % 4) % 4 := by
    rw [h4, Nat.add_mod, ← h4 s, ← Nat.add_mod]
  have hlt : (s + (sum % 2 ^ wb + 2 ^ wb - s % 2 ^ wb) % 4) % 2 ^ wb < 2 ^ wb :=
    Nat.mod_lt _ hMpos
  generalize (s + (sum % 2 ^ wb + 2 ^ wb - s % 2 ^ wb) % 4) % 2 ^ wb = B' at hB' hlt ⊢
  generalize sum % 2 ^ wb = A at *
  generalize s % 2 ^ wb = B at *
  generalize 2 ^ wb = M at *
  omega

/-- Every iteration of the loop decreases the measure and does not increase
`r`. -/
theorem decMeasure_step (wb : Nat) (hwb : 32 ≤ wb) (hv sum : Nat) (st : decodeState)
    (hr : st.r ≤ 9) (hp : st.p < 20) :
    decMeasure wb sum (decodeBody wb 10 hv sum st) < decMeasure wb sum st ∧
      (decodeBody wb 10 hv sum st).r ≤ 9 := by
  have hp32 := two_pow_wb hwb
  have hr' : (if st.r ≠ 0 then wsub wb st.r 1 else st.r) = st.r - 1 := by
    split_ifs with h
    · exact wsub_of_le wb st.r 1 (by omega) (by omega)
    · omega
  have hv4 := nextCode_lt wb hv sum st
  rcases decodeBody_cases wb hv sum st with ⟨h, heq⟩ | ⟨h, hok, heq⟩ | ⟨h, hbad, heq⟩
  · rw [heq]
    obtain ⟨k1, _, _, _⟩ := skipCovered_spec st.grid 20 (st.p + 1) (by omega)
    unfold decMeasure
    simp only
    refine ⟨?_, hr⟩
    split_ifs <;> omega
  · rw [heq]
    obtain ⟨k1, k2, k3, k4⟩ :=
      skipCovered_spec (placeAt st.grid st.p (nextCode wb hv sum st)) 20 st.p (by omega)
    have hPp : placeAt st.grid st.p (nextCode wb hv sum st) st.p = nextCode wb hv sum st + 1 := by
      rw [placeAt_apply _ _ _ hv4, if_pos rfl]
    have hlt : st.p < skipCovered (placeAt st.grid st.p (nextCode wb hv sum st)) 20 st.p := by
      rcases Nat.lt_or_ge st.p
        (skipCovered (placeAt st.grid st.p (nextCode wb hv sum st)) 20 st.p) with h1 | h1
      · exact h1
      · have heq2 : skipCovered (placeAt st.grid st.p (nextCode wb hv sum st)) 20 st.p = st.p := by
          omega
        have := k3 (by omega)
        rw [heq2, hPp] at this
        omega
    unfold decMeasure
    simp only [hr']
    refine ⟨?_, by omega⟩
    by_cases hflag : st.r = 0 ∧ wsub wb sum st.s % 4 = 0
    · have hv0 : nextCode wb hv sum st = 0 := by
        unfold nextCode
        rw [if_neg (by omega), and_three]
        exact hflag.2
      have hs : wsub wb sum ((st.s + nextCode wb hv sum st) % 2 ^ wb) = wsub wb sum st.s := by
        rw [wsub_mod, hv0, Nat.add_zero]
      rw [hs, if_pos hflag, if_pos ⟨by omega, hflag.2⟩]
      omega
    · rw [if_neg hflag]
      split_ifs <;> omega
  · rw [heq]
    obtain ⟨k1, _, _, _⟩ := skipCovered_spec st.grid 20 st.p (by omega)
    unfold decMeasure
    simp only [hr']
    refine ⟨?_, by omega⟩
    by_cases hr0 : st.r = 0
    · have hvne : nextCode wb hv sum st ≠ 0 := by
        intro h0
        rw [h0] at hbad
        simp only [shapeOf, H, W] at hbad
        omega
      have hveq : nextCode wb hv sum st = wsub wb sum st.s % 4 := by
        unfold nextCode
        rw [if_neg (by omega), and_three]
      have hflag : ¬ (st.r = 0 ∧ wsub wb sum st.s % 4 = 0) := by
        rw [← hveq]
        exact fun h => hvne h.2
      rw [if_neg hflag, hveq, if_pos ⟨by omega, wsub_mod4 wb (by omega) sum st.s⟩]
      omega
    · split_ifs <;> omega

/-- The loop of the decoder ends within as many iterations as the measure. -/
theorem decodeLoop_total (wb : Nat) (hwb : 32 ≤ wb) (hv sum : Nat) (fuel : Nat)
    (st : decodeState) (hr : st.r ≤ 9) (hm : decMeasure wb sum st ≤ fuel) :
    ∃ fin, decodeLoop wb 10 hv sum fuel st = some fin := by
  induction fuel generalizing st with
  | zero =>
    simp only [decodeLoop, H, W]
    have : ¬ st.p < 5 * 4 := by
      unfold decMeasure at hm
      omega
    rw [if_neg this]
    exact ⟨st, rfl⟩
  | succ fuel ih =>
    simp only [decodeLoop, H, W]
    split_ifs with hp
    · obtain ⟨h1, h2⟩ := decMeasure_step wb hwb hv sum st hr (by omega)
      exact ih _ h2 (by omega)
    · exact ⟨st, rfl⟩


/-! ## Decoding and encoding again -/

theorem scanTo_congr (wb pieces : Nat) (G G' : Nat → Nat) (p : Nat) (h : ∀ q < p, G q = G' q) :
    scanTo wb pieces G p = scanTo wb pieces G' p := by
  induction p with
  | zero => rfl
  | succ p ih =>
    rw [scanTo_succ, scanTo_succ, ih (fun q hq => h q (Nat.lt_succ_of_lt hq)),
      h p (Nat.lt_succ_self p)]

theorem buildCell_illegal_le (G : Nat → Nat) (sol : piece) (pz : puzzle) (y x : Nat) :
    pz.illegal ≤ (buildCell G sol pz y x).illegal := by
  unfold buildCell puzzle.add
  simp only [apply_ite puzzle.illegal]
  split_ifs <;> simp only [Nat.le_refl, Nat.le_succ, Nat.le_add_right]

theorem build_foldl_illegal_le (G : Nat → Nat) (sol : piece) (l : List Nat) (pz : puzzle) :
    pz.illegal ≤ (l.foldl (fun pz q => buildCell G sol pz (q / 4) (q % 4)) pz).illegal := by
  induction l generalizing pz with
  | nil => exact Nat.le_refl _
  | cons q rest ih =>
    rw [List.foldl_cons]
    exact Nat.le_trans (buildCell_illegal_le G sol pz _ _) (ih _)

/-- The decoding constructor for piece count 10: the loop, the final check
and the final loops. -/
theorem decode_eq (wb c : Nat) (sol : piece) (sum : Nat) :
    puzzle.decode wb c 10 sol sum =
      (decodeLoop wb 10 (c / 121) sum 64 ⟨c % 121, 0, 0, 0, wsub wb 10 1, 0, fun _ => 0, 0⟩).map
        fun st => buildBoard st.grid sol
          ⟨[], if st.n ≠ 2 ∨ st.i ≠ 10 ∨ st.s ≠ sum then st.illegal + 1 else st.illegal, 0⟩ := by
  unfold puzzle.decode
  show (match decodeLoop wb 10 (c / 121) sum 64
      ⟨c % 121, 0, 0, 0, wsub wb 10 1, 0, fun _ => 0, 0⟩ with
    | none => none
    | some st => _) = _
  cases decodeLoop wb 10 (c / 121) sum 64 ⟨c % 121, 0, 0, 0, wsub wb 10 1, 0, fun _ => 0, 0⟩ <;>
    rfl

/-- The invariant holds when the loop of the decoder starts. -/
theorem decInv_init (wb : Nat) (hwb : 32 ≤ wb) (hv0 e0 : Nat) (hhv : hv0 < 4 ^ 9)
    (he0 : e0 < 121) :
    decInv hv0 e0 ⟨e0, 0, 0, 0, wsub wb 10 1, 0, fun _ => 0, 0⟩ := by
  have hp32 := two_pow_wb hwb
  refine ⟨?_, ?_, ?_, ?_, ?_, ?_, ?_, ?_, ?_, ?_, ?_, ?_, ?_, ?_, ?_, ?_, ?_⟩
  · simp
  · intro _; rfl
  · intro q _; exact Or.inl rfl
  · intro q; simp
  · intro a h0; simp at h0
  · intro q hq; simp at hq
  · rfl
  · simp
  · rfl
  · simp
  · show ofBase 11 [] = e0 / 11 ^ (2 - 0)
    simp only [ofBase, List.foldl_nil]
    norm_num
    omega
  · simp
  · show wsub wb 10 1 = 9 - 0
    rw [wsub_of_le wb 10 1 (by omega) (by omega)]
  · intro _
    show ofBase 4 [] = hv0 / 4 ^ (9 - 0)
    simp only [ofBase, List.foldl_nil]
    rw [Nat.div_eq_of_lt hhv]
  · intro h; simp at h
  · rfl
  · rfl

/-- The grid at the end of a run that kept the invariant is well-formed. -/
theorem decInv_gridWF (hv0 e0 : Nat) (st : decodeState) (hinv : decInv hv0 e0 st) :
    gridWF st.grid := by
  refine ⟨fun q _ => hinv.le5 q, fun a _ h0 h5 => ?_, fun q _ h => hinv.cov q h⟩
  obtain ⟨_, a2, a3, a4⟩ := hinv.anch a h0 h5
  exact ⟨a2, a3, a4⟩

/-- C9: for every code `c < S`, decoding with piece count 10 and checksum 12
returns a puzzle, and if it reports zero illegality then
`calculate_hashvalue` of the decoded board is `c` again (and the checksum 12),
for either width of `unsigned long` and every `solution` piece. -/
theorem decode_encode (wb : Nat) (hwb : 32 ≤ wb) (c : Nat) (hc : c < S) (sol : piece) :
    ∃ pz, puzzle.decode wb c 10 sol 12 = some pz ∧
      (pz.illegal = 0 → pz.calculate_hashvalue wb = (c, 12)) := by
  have hp32 := two_pow_wb hwb
  have hS : S = 4 ^ 9 * 121 := by decide
  have hhv : c / 121 < 4 ^ 9 := by
    rw [hS] at hc
    exact Nat.div_lt_of_lt_mul (by rw [Nat.mul_comm]; exact hc)
  have he0 : c % 121 < 121 := Nat.mod_lt _ (by decide)
  have hr9 : wsub wb 10 1 = 9 := by rw [wsub_of_le wb 10 1 (by omega) (by omega)]
  obtain ⟨fin, hfin⟩ := decodeLoop_total wb hwb (c / 121) 12 64
    ⟨c % 121, 0, 0, 0, wsub wb 10 1, 0, fun _ => 0, 0⟩ (by simp only [hr9]; omega)
    (by unfold decMeasure; simp only [hr9]; split_ifs <;> omega)
  rw [decode_eq, hfin]
  refine ⟨buildBoard fin.grid sol
    ⟨[], if fin.n ≠ 2 ∨ fin.i ≠ 10 ∨ fin.s ≠ 12 then fin.illegal + 1 else fin.illegal, 0⟩,
    rfl, ?_⟩
  intro hill
  rw [buildBoard_eq] at hill ⊢
  have hmono := build_foldl_illegal_le fin.grid sol (List.range 20).reverse
    ⟨[], if fin.n ≠ 2 ∨ fin.i ≠ 10 ∨ fin.s ≠ 12 then fin.illegal + 1 else fin.illegal, 0⟩
  rw [hill] at hmono
  simp only [Nat.le_zero] at hmono
  have hchk : ¬ (fin.n ≠ 2 ∨ fin.i ≠ 10 ∨ fin.s ≠ 12) := by
    intro h
    rw [if_pos h] at hmono
    omega
  rw [if_neg hchk] at hmono
  have hn : fin.n = 2 := by omega
  have hi : fin.i = 10 := by omega
  have hs : fin.s = 12 := by omega
  have hnd : ¬ doomed fin := by
    unfold doomed
    omega
  obtain ⟨hinv, hp⟩ := decodeLoop_inv wb hwb (c / 121) (c % 121) 12 he0 64 _ fin
    (decInv_init wb hwb _ _ hhv he0) hfin hnd
  have hwf := decInv_gridWF _ _ fin hinv
  have hilen := hinv.ilen
  have hnlen := hinv.nlen
  have hev := hinv.eval
  have hh10 := hinv.hval10 hi
  have hsum := hinv.s_eq
  rw [hp] at hilen hnlen hev hh10 hsum
  rw [hn] at hnlen hev
  rw [hi] at hilen
  rw [hs] at hsum
  have hanch : (anchorsOf fin.grid (List.range 20).reverse).length = 10 := by
    rw [anchorsOf_length, hilen]
  obtain ⟨hb, _⟩ := build_foldl fin.grid sol (List.range 20).reverse
    ⟨[], if fin.n ≠ 2 ∨ fin.i ≠ 10 ∨ fin.s ≠ 12 then fin.illegal + 1 else fin.illegal, 0⟩
    (by simp only [List.length_nil, hanch]; omega)
  simp only [List.nil_append] at hb
  unfold puzzle.calculate_hashvalue
  rw [hb, List.length_map, hanch, scanGrid_eq,
    scanTo_congr wb 10 _ fin.grid 20 (fun q hq => paint_build fin.grid hwf q hq),
    scanTo_spec wb hwb fin.grid 20 (by omega) (by omega)]
  simp only [Nat.shiftRight_eq_div_pow, hev, hsum]
  norm_num at hh10 ⊢
  rw [hh10, Nat.mul_assoc, Nat.mod_eq_of_lt]
  · norm_num
    omega
  · norm_num at hhv
    omega

theorem decode_encode_witness :
    32 ≤ 64 ∧ 22985197 < S ∧
      ∃ pz, puzzle.decode 64 22985197 10 solutionPiece 12 = some pz ∧
        (pz.illegal = 0 → pz.calculate_hashvalue 64 = (22985197, 12)) :=
  ⟨by decide, by decide, decode_encode 64 (by decide) 22985197 (by decide) solutionPiece⟩


/-! ## The position code determines the grid -/

theorem ofBase_inj (B : Nat) (l1 l2 : List Nat) (hlen : l1.length = l2.length)
    (h1 : ∀ d ∈ l1, d < B) (h2 : ∀ d ∈ l2, d < B) (h : ofBase B l1 = ofBase B l2) :
    l1 = l2 := by
  induction l1 using List.reverseRecOn generalizing l2 with
  | nil =>
    cases l2 with
    | nil => rfl
    | cons x xs => simp at hlen
  | append_singleton a x ih =>
    rcases List.eq_nil_or_concat l2 with rfl | ⟨b, y, rfl⟩
    · simp at hlen
    · simp only [List.concat_eq_append] at *
      rw [ofBase_snoc, ofBase_snoc] at h
      have hx := h1 x (List.mem_append_right _ (List.mem_singleton_self x))
      have hy := h2 y (List.mem_append_right _ (List.mem_singleton_self y))
      have hlen' : a.length = b.length := by
        simp only [List.length_append, List.length_singleton] at hlen
        omega
      have hdiv : ofBase B a = ofBase B b := by
        have e1 : (ofBase B a * B + x) / B = ofBase B a := by
          rw [Nat.mul_comm, Nat.mul_add_div (by omega), Nat.div_eq_of_lt hx, Nat.add_zero]
        have e2 : (ofBase B b * B + y) / B = ofBase B b := by
          rw [Nat.mul_comm, Nat.mul_add_div (by omega), Nat.div_eq_of_lt hy, Nat.add_zero]
        rw [← e1, ← e2, h]
      have hxy : x = y := by
        rw [hdiv] at h
        omega
      rw [ih b hlen' (fun d hd => h1 d (List.mem_append_left _ hd))
        (fun d hd => h2 d (List.mem_append_left _ hd)) hdiv, hxy]

/-- Two lists of ten shape codes with the same sum and the same first nine
digits are equal. -/
theorem codes_inj (l1 l2 : List Nat) (hlen1 : l1.length = 10) (hlen2 : l2.length = 10)
    (h1 : ∀ d ∈ l1, d < 4) (h2 : ∀ d ∈ l2, d < 4) (hs : l1.sum = l2.sum)
    (h : ofBase 4 l1 / 4 = ofBase 4 l2 / 4) : l1 = l2 := by
  rcases List.eq_nil_or_concat l1 with rfl | ⟨a, x, rfl⟩
  · simp at hlen1
  rcases List.eq_nil_or_concat l2 with rfl | ⟨b, y, rfl⟩
  · simp at hlen2
  simp only [List.concat_eq_append] at *
  have hx := h1 x (List.mem_append_right _ (List.mem_singleton_self x))
  have hy := h2 y (List.mem_append_right _ (List.mem_singleton_self y))
  rw [ofBase_snoc, ofBase_snoc] at h
  have hab : ofBase 4 a = ofBase 4 b := by omega
  have hlen : a.length = b.length := by
    simp only [List.length_append, List.length_singleton] at hlen1 hlen2
    omega
  have heq := ofBase_inj 4 a b hlen (fun d hd => h1 d (List.mem_append_left _ hd))
    (fun d hd => h2 d (List.mem_append_left _ hd)) hab
  subst heq
  simp only [List.sum_append, List.sum_cons, List.sum_nil] at hs
  have : x = y := by omega
  rw [this]

/-- The lists of a longer scan extend the lists of a shorter one; the new
empty-cell ranks are at least the number of anchors seen before. -/
theorem lists_extend (G : Nat → Nat) (p p' : Nat) (hpp : p ≤ p') :
    (∃ suf, codesTo G p' = codesTo G p ++ suf) ∧
      ∃ suf, emptiesTo G p' = emptiesTo G p ++ suf ∧ ∀ d ∈ suf, (codesTo G p).length ≤ d := by
  induction p', hpp using Nat.le_induction with
  | base => exact ⟨⟨[], by simp⟩, ⟨[], by simp, by simp⟩⟩
  | succ k hk ih =>
    obtain ⟨⟨s1, hs1⟩, ⟨s2, hs2, hd⟩⟩ := ih
    refine ⟨⟨s1 ++ _, by rw [codesTo_succ, hs1, List.append_assoc]⟩,
      ⟨s2 ++ _, by rw [emptiesTo_succ, hs2, List.append_assoc], ?_⟩⟩
    intro d hmem
    rcases List.mem_append.mp hmem with h | h
    · exact hd d h
    · split_ifs at h
      · rw [List.mem_singleton] at h
        rw [h]
        exact codesTo_length_mono G hk
      · cases h

/-- Two well-formed grids with the same lists of shape codes and of
empty-cell ranks are equal. -/
theorem grid_determined (G1 G2 : Nat → Nat) (h1 : gridWF G1) (h2 : gridWF G2)
    (hc : codesTo G1 20 = codesTo G2 20) (he : emptiesTo G1 20 = emptiesTo G2 20) :
    ∀ q < 20, G1 q = G2 q := by
  intro q
  induction q using Nat.strong_induction_on with
  | _ q ih =>
    intro hq
    have hpre : ∀ q' < q, G1 q' = G2 q' := fun q' hq' => ih q' hq' (by omega)
    have hcq := codesTo_congr G1 G2 q hpre
    have heq := emptiesTo_congr G1 G2 q hpre
    -- the status "covered" agrees
    have hfive : ∀ (Ga Gb : Nat → Nat), gridWF Ga → gridWF Gb → (∀ q' < q, Ga q' = Gb q') →
        Ga q = 5 → Gb q = 5 := by
      intro Ga Gb wa wb hab h5
      obtain ⟨a, haq, a0, a5, hf⟩ := wa.2.2 q hq h5
      have hGa := hab a haq
      rw [hGa] at a0 a5 hf
      exact (wb.2.1 a (by omega) a0 a5).2.2 q hf (by omega)
    obtain ⟨⟨c1, hc1⟩, ⟨e1, he1, hd1⟩⟩ := lists_extend G1 (q + 1) 20 (by omega)
    obtain ⟨⟨c2, hc2⟩, ⟨e2, he2, hd2⟩⟩ := lists_extend G2 (q + 1) 20 (by omega)
    rw [codesTo_succ G1 q] at hc1 hd1
    rw [codesTo_succ G2 q] at hc2 hd2
    rw [emptiesTo_succ G1 q] at he1
    rw [emptiesTo_succ G2 q] at he2
    rw [hc1, hc2, hcq] at hc
    rw [he1, he2, heq, hcq] at he
    have hle1 := h1.1 q hq
    have hle2 := h2.1 q hq
    by_cases g15 : G1 q = 5
    · rw [g15, hfive G1 G2 h1 h2 hpre g15]
    by_cases g25 : G2 q = 5
    · exact absurd (hfive G2 G1 h2 h1 (fun q' hq' => (hpre q' hq').symm) g25) g15
    by_cases g10 : G1 q = 0
    · by_cases g20 : G2 q = 0
      · rw [g10, g20]
      · exfalso
        have a2 : 0 < G2 q ∧ G2 q < 5 := by omega
        simp only [g10, g20, a2, if_true, if_false, Nat.lt_irrefl, false_and, and_self,
          List.append_nil, hcq] at he hd2
        rw [List.append_assoc] at he
        have := List.append_cancel_left he
        simp only [List.singleton_append, List.nil_append] at this
        have hmem : (codesTo G2 q).length ∈ e2 := by rw [← this]; exact List.mem_cons_self _ _
        have := hd2 _ hmem
        simp only [List.length_append, List.length_singleton] at this
        omega
    · by_cases g20 : G2 q = 0
      · exfalso
        have a1 : 0 < G1 q ∧ G1 q < 5 := by omega
        simp only [g20, g10, a1, if_true, if_false, Nat.lt_irrefl, false_and, and_self,
          List.append_nil, hcq] at he hd1
        rw [List.append_assoc] at he
        have := List.append_cancel_left he
        simp only [List.singleton_append, List.nil_append] at this
        have hmem : (codesTo G2 q).length ∈ e1 := by rw [this]; exact List.mem_cons_self _ _
        have := hd1 _ hmem
        simp only [List.length_append, List.length_singleton] at this
        omega
      · have a1 : 0 < G1 q ∧ G1 q < 5 := by omega
        have a2 : 0 < G2 q ∧ G2 q < 5 := by omega
        simp only [a1, a2, if_true, and_self] at hc
        rw [List.append_assoc, List.append_assoc] at hc
        have := List.append_cancel_left hc
        simp only [List.singleton_append, List.cons.injEq] at this
        omega


/-- A piece inside the grid in terms of the raster index of its anchor. -/
theorem piece_foot (t : piece) (hs : t.small) (hin : t.inside) :
    ∃ a : Nat, a < 20 ∧ (a : Int) = t.anchor ∧ 0 < t.code ∧ t.code < 5 ∧
      t.x = ((a % 4 : Nat) : Int) ∧ t.y = ((a / 4 : Nat) : Int) ∧
      t.w = ((footW t.code + 1 : Nat) : Int) ∧ t.h = ((footH t.code + 1 : Nat) : Int) ∧
      a % 4 + footW t.code < 4 ∧ a + 4 * footH t.code + footW t.code < 20 ∧
      (∀ q, q < 20 → (t.covers q = true ↔ inFoot a t.code q)) ∧
      (∀ q, t.paintVal q = if q = a then t.code else 5) := by
  rcases t with ⟨x, y, w, h, tx, ty, m⟩
  simp only [piece.small, piece.inside, W, H] at hs hin
  obtain ⟨hx0, hxw, hy0, hyh⟩ := hin
  simp only [Nat.cast_ofNat] at hxw hyh
  lift x to ℕ using hx0
  lift y to ℕ using hy0
  refine ⟨y * 4 + x, ?_⟩
  rcases hs with ⟨rfl | rfl, rfl | rfl⟩ <;>
    simp only [piece.anchor, piece.code, piece.paintVal, covers_iff, inFoot, footW, footH, W] <;>
    norm_num <;>
    refine ⟨by omega, by omega, by omega, by omega, by omega, ?_, ?_⟩ <;>
    intros <;> first | omega | (split_ifs <;> omega)

/-- The grid painted for a legal board is well-formed. -/
theorem legal_gridWF (pz : puzzle) (hl : pz.legal) : gridWF (paintBoard pz.board) := by
  have hcase : ∀ q, q < 20 → paintBoard pz.board q = 0 ∨
      ∃ t ∈ pz.board, t.covers q = true ∧ paintBoard pz.board q = t.paintVal q := by
    intro q hq
    by_cases hex : ∃ t ∈ pz.board, t.covers q = true
    · obtain ⟨t, ht, hc⟩ := hex
      exact Or.inr ⟨t, ht, hc, paintBoard_covered pz hl q hq t ht hc⟩
    · left
      apply paintBoard_free pz hl q hq
      intro t ht
      by_contra hc
      exact hex ⟨t, ht, by simpa using hc⟩
  refine ⟨?_, ?_, ?_⟩
  · intro q hq
    rcases hcase q hq with h0 | ⟨t, ht, hc, hv⟩
    · omega
    · obtain ⟨a, _, _, _, c5, _, _, _, _, _, _, _, hpv⟩ := piece_foot t (hl.1 t ht).1 (hl.1 t ht).2
      rw [hv, hpv]
      split_ifs <;> omega
  · intro a ha h0 h5
    rcases hcase a ha with hz | ⟨t, ht, hc, hv⟩
    · omega
    · obtain ⟨a', ha', _, c0, c5, _, _, _, _, f1, f2, hcov, hpv⟩ :=
        piece_foot t (hl.1 t ht).1 (hl.1 t ht).2
      rw [hpv] at hv
      have haa : a = a' := by
        by_contra hne
        rw [if_neg hne] at hv
        omega
      subst haa
      rw [if_pos rfl] at hv
      rw [hv]
      refine ⟨f1, f2, ?_⟩
      intro q hq hne
      have hq20 : q < 20 := by
        simp only [inFoot] at hq
        omega
      rw [paintBoard_covered pz hl q hq20 t ht ((hcov q hq20).mpr hq), hpv, if_neg hne]
  · intro q hq h5
    rcases hcase q hq with hz | ⟨t, ht, hc, hv⟩
    · omega
    · obtain ⟨a, ha, _, c0, c5, _, _, _, _, f1, f2, hcov, hpv⟩ :=
        piece_foot t (hl.1 t ht).1 (hl.1 t ht).2
      rw [hpv] at hv
      have hne : q ≠ a := by
        intro heq
        rw [if_pos heq] at hv
        omega
      have hf := (hcov q hq).mp hc
      have hGa : paintBoard pz.board a = t.code := by
        rw [paintBoard_covered pz hl a ha t ht ((hcov a ha).mpr (Or.inl rfl)), hpv, if_pos rfl]
      refine ⟨a, ?_, by omega, by omega, by rw [hGa]; exact hf⟩
      simp only [inFoot] at hf
      omega

/-- Two arrangements of the start pieces with the same position code paint the
same grid. -/
theorem hash_inj (wb : Nat) (hwb : 32 ≤ wb) (b1 b2 : puzzle) (h1 : b1.arrangement)
    (h2 : b2.arrangement)
    (h : (b1.calculate_hashvalue wb).1 = (b2.calculate_hashvalue wb).1) :
    ∀ q < 20, paintBoard b1.board q = paintBoard b2.board q := by
  obtain ⟨e1, d1, d2⟩ := hash_arrangement wb hwb b1 h1
  obtain ⟨e2, d3, d4⟩ := hash_arrangement wb hwb b2 h2
  obtain ⟨_, a1, a2, a3⟩ := arrangement_counts b1 h1
  obtain ⟨_, a4, a5, a6⟩ := arrangement_counts b2 h2
  rw [e1, e2] at h
  simp only at h
  have hH : ofBase 4 (codesTo (paintBoard b1.board) 20) / 4 =
      ofBase 4 (codesTo (paintBoard b2.board) 20) / 4 := by omega
  have hE : ofBase 11 (emptiesTo (paintBoard b1.board) 20) =
      ofBase 11 (emptiesTo (paintBoard b2.board) 20) := by omega
  apply grid_determined _ _ (legal_gridWF b1 h1.1) (legal_gridWF b2 h2.1)
  · exact codes_inj _ _ a1 a4 (codesTo_digit _ 20) (codesTo_digit _ 20) (by rw [a3, a6]) hH
  · apply ofBase_inj 11 _ _ (by rw [a2, a5]) _ _ hE
    · intro d hd
      have := emptiesTo_digit _ 20 d hd
      omega
    · intro d hd
      have := emptiesTo_digit _ 20 d hd
      omega


/-! ## Boards with the same pieces -/

/-- In the start configuration the size of a piece determines its success
criteria. -/
theorem start_kind_unique :
    ∀ k1 ∈ puzzle.start.board.map piece.kind, ∀ k2 ∈ puzzle.start.board.map piece.kind,
      k1.1 = k2.1 → k1.2.1 = k2.2.1 → k1 = k2 := by
  decide

theorem arrangement_kind_mem (pz : puzzle) (ha : pz.arrangement) (t : piece)
    (ht : t ∈ pz.board) : t.kind ∈ puzzle.start.board.map piece.kind := by
  rw [← ha.2]
  exact List.mem_map_of_mem _ ht

/-- On a legal board a piece occurs at one index only. -/
theorem legal_index_unique (pz : puzzle) (hl : pz.legal) (i j : Nat) (t : piece)
    (hi : pz.board[i]? = some t) (hj : pz.board[j]? = some t) : i = j := by
  by_contra hne
  have hap := ((legal_iff_idx pz).mp hl).2 i j t t hi hj hne
  have hm : t ∈ pz.board := List.mem_iff_getElem?.mpr ⟨i, hi⟩
  obtain ⟨a, ha, _, hc, _⟩ := anchor_covered t (hl.1 t hm).1 (hl.1 t hm).2
  have := apart_covers hap a ha hc
  rw [hc] at this
  cases this

/-- If two arrangements of the start pieces paint the same grid, every piece
of the first is a piece of the second. -/
theorem grid_mem (b1 b2 : puzzle) (h1 : b1.arrangement) (h2 : b2.arrangement)
    (hg : ∀ q < 20, paintBoard b1.board q = paintBoard b2.board q) (t : piece)
    (ht : t ∈ b1.board) : t ∈ b2.board := by
  obtain ⟨a, ha, _, c0, c5, hx, hy, hw, hh, _, _, hcov, hpv⟩ :=
    piece_foot t (h1.1.1 t ht).1 (h1.1.1 t ht).2
  have hG1 : paintBoard b1.board a = t.code := by
    rw [paintBoard_covered b1 h1.1 a ha t ht ((hcov a ha).mpr (Or.inl rfl)), hpv, if_pos rfl]
  have hG2 : paintBoard b2.board a = t.code := by rw [← hg a ha, hG1]
  by_cases hex : ∃ t' ∈ b2.board, t'.covers a = true
  · obtain ⟨t', ht', hc'⟩ := hex
    obtain ⟨a', ha', _, _, _, hx', hy', hw', hh', _, _, _, hpv'⟩ :=
      piece_foot t' (h2.1.1 t' ht').1 (h2.1.1 t' ht').2
    rw [paintBoard_covered b2 h2.1 a ha t' ht' hc', hpv'] at hG2
    have haa : a = a' := by
      by_contra hne
      rw [if_neg hne] at hG2
      omega
    subst haa
    rw [if_pos rfl] at hG2
    have hk := start_kind_unique _ (arrangement_kind_mem b1 h1 t ht) _
      (arrangement_kind_mem b2 h2 t' ht')
      (by simp only [piece.kind]; rw [hw, hw', hG2])
      (by simp only [piece.kind]; rw [hh, hh', hG2])
    have : t = t' := by
      rcases t with ⟨x, y, w, h, tx, ty, m⟩
      rcases t' with ⟨x', y', w', h', tx', ty', m'⟩
      simp only [piece.kind, Prod.mk.injEq] at hk
      simp only at hx hy hx' hy'
      simp only [piece.mk.injEq]
      exact ⟨by rw [hx, hx'], by rw [hy, hy'], hk.1, hk.2.1, hk.2.2.1, hk.2.2.2.1, hk.2.2.2.2⟩
    rw [this]
    exact ht'
  · exfalso
    have : paintBoard b2.board a = 0 := by
      apply paintBoard_free b2 h2.1 a ha
      intro t' ht'
      by_contra hc
      exact hex ⟨t', ht', by simpa using hc⟩
    omega

/-- Two arrangements of the start pieces with the same position code hold the
same pieces. -/
theorem hash_sameSet (wb : Nat) (hwb : 32 ≤ wb) (b1 b2 : puzzle) (h1 : b1.arrangement)
    (h2 : b2.arrangement) (h : hashOf wb b1 = hashOf wb b2) : b1.sameSet b2 := by
  have hg := hash_inj wb hwb b1 b2 h1 h2 h
  intro t
  exact ⟨grid_mem b1 b2 h1 h2 hg t, grid_mem b2 b1 h2 h1 (fun q hq => (hg q hq).symm) t⟩

/-- Legal boards with the same pieces paint the same grid. -/
theorem sameSet_paint (b1 b2 : puzzle) (h1 : b1.legal) (h2 : b2.legal) (hs : b1.sameSet b2) :
    ∀ q < 20, paintBoard b1.board q = paintBoard b2.board q := by
  intro q hq
  by_cases hex : ∃ t ∈ b1.board, t.covers q = true
  · obtain ⟨t, ht, hc⟩ := hex
    rw [paintBoard_covered b1 h1 q hq t ht hc,
      paintBoard_covered b2 h2 q hq t ((hs t).mp ht) hc]
  · rw [paintBoard_free b1 h1 q hq, paintBoard_free b2 h2 q hq]
    · intro t ht
      by_contra hc
      exact hex ⟨t, (hs t).mpr ht, by simpa using hc⟩
    · intro t ht
      by_contra hc
      exact hex ⟨t, ht, by simpa using hc⟩

/-- Arrangements of the start pieces with the same pieces have the same
position code. -/
theorem sameSet_hash (wb : Nat) (b1 b2 : puzzle) (h1 : b1.arrangement) (h2 : b2.arrangement)
    (hs : b1.sameSet b2) : hashOf wb b1 = hashOf wb b2 := by
  obtain ⟨l1, _⟩ := arrangement_counts b1 h1
  obtain ⟨l2, _⟩ := arrangement_counts b2 h2
  unfold hashOf puzzle.calculate_hashvalue
  rw [l1, l2, scanGrid_eq, scanGrid_eq,
    scanTo_congr wb 10 _ _ 20 (sameSet_paint b1 b2 h1.1 h2.1 hs)]

/-- The pieces of a legal board after piece `i` has been replaced. -/
theorem mem_set_iff (pz : puzzle) (hl : pz.legal) (i : Nat) (t t' x : piece)
    (hi : pz.board[i]? = some t) :
    x ∈ pz.board.set i t' ↔ x = t' ∨ (x ∈ pz.board ∧ x ≠ t) := by
  have hilt : i < pz.board.length := (List.getElem?_eq_some_iff.mp hi).1
  constructor
  · intro hx
    obtain ⟨k, hk⟩ := List.mem_iff_getElem?.mp hx
    rcases getElem?_set_cases hk with ⟨_, rfl⟩ | ⟨hne, hk'⟩
    · exact Or.inl rfl
    · refine Or.inr ⟨List.mem_iff_getElem?.mpr ⟨k, hk'⟩, ?_⟩
      rintro rfl
      exact hne (legal_index_unique pz hl i k x hi hk')
  · rintro (rfl | ⟨hx, hne⟩)
    · exact List.mem_iff_getElem?.mpr ⟨i, by simp [List.getElem?_set, hilt]⟩
    · obtain ⟨k, hk⟩ := List.mem_iff_getElem?.mp hx
      have hki : i ≠ k := by
        rintro rfl
        rw [hi] at hk
        exact hne (Option.some.inj hk).symm
      exact List.mem_iff_getElem?.mpr ⟨k, by rw [List.getElem?_set_ne hki]; exact hk⟩

theorem solvedAt_set (pz : puzzle) (i : Nat) (t' : piece) (l : List piece)
    (hi : l[i]? = some t') :
    ({ pz with board := l } : puzzle).solvedAt i =
      (if t'.tx = X ∧ t'.ty = X then false else if l.any piece.nsolved then false else true) := by
  unfold puzzle.solvedAt
  simp only [hi]
  rfl

theorem any_sameSet (l1 l2 : List piece) (h : ∀ t, t ∈ l1 ↔ t ∈ l2) :
    l1.any piece.nsolved = l2.any piece.nsolved := by
  rw [Bool.eq_iff_iff, List.any_eq_true, List.any_eq_true]
  exact ⟨fun ⟨x, hx, hn⟩ => ⟨x, (h x).mp hx, hn⟩, fun ⟨x, hx, hn⟩ => ⟨x, (h x).mpr hx, hn⟩⟩

/-- A move on a legal board can be made on every legal board with the same
pieces, with the same pieces after the move and the same result of the solved
check. -/
theorem move_sameSet (b1 b2 u1 : puzzle) (h1 : b1.legal) (h2 : b2.legal)
    (hs : b1.sameSet b2) (i : Nat) (dx dy : Int)
    (hm : piece.move b1 i dx dy = (true, u1)) :
    ∃ j u2, piece.move b2 j dx dy = (true, u2) ∧ u1.sameSet u2 ∧
      u1.solvedAt i = u2.solvedAt j := by
  rcases move_cases b1 i dx dy with h | ⟨t, hi, hin, hfree, h⟩
  · rw [h] at hm; cases hm
  rw [h] at hm
  cases hm
  have ht1 : t ∈ b1.board := List.mem_iff_getElem?.mpr ⟨i, hi⟩
  obtain ⟨j, hj⟩ := List.mem_iff_getElem?.mp ((hs t).mp ht1)
  have hilt : i < b1.board.length := (List.getElem?_eq_some_iff.mp hi).1
  have hjlt : j < b2.board.length := (List.getElem?_eq_some_iff.mp hj).1
  have hfree2 : ∀ k q, b2.board[k]? = some q → k ≠ j →
      q.hits (t.x + dx) (t.y + dy) t.w t.h = false := by
    intro k q hk hkj
    obtain ⟨k', hk'⟩ := List.mem_iff_getElem?.mp ((hs q).mpr (List.mem_iff_getElem?.mpr ⟨k, hk⟩))
    apply hfree k' q hk'
    rintro rfl
    rw [hi] at hk'
    cases hk'
    exact hkj (legal_index_unique b2 h2 k j t hk hj)
  have hset : ∀ x, x ∈ b1.board.set i (t.shift dx dy) ↔ x ∈ b2.board.set j (t.shift dx dy) := by
    intro x
    rw [mem_set_iff b1 h1 i t _ x hi, mem_set_iff b2 h2 j t _ x hj, hs x]
  refine ⟨j, _, move_ok b2 j t hj dx dy hin hfree2, hset, ?_⟩
  rw [solvedAt_set b1 i (t.shift dx dy) _ (by simp [List.getElem?_set, hilt]),
    solvedAt_set b2 j (t.shift dx dy) _ (by simp [List.getElem?_set, hjlt]),
    any_sameSet _ _ hset]


/-! ## The depth-first search -/

theorem mem_candidates (n i : Nat) (dy dx : Int) :
    (i, dy, dx) ∈ candidates n ↔ i < n ∧ unitStep dx dy := by
  simp only [candidates, List.mem_flatMap, List.mem_range, List.mem_map, List.mem_filter,
    List.mem_cons, List.mem_singleton, List.mem_nil_iff, or_false, Prod.mk.injEq, unitStep,
    decide_eq_true_eq]
  constructor
  · rintro ⟨i', hi', dy', hdy', dx', ⟨hdx', hc⟩, rfl, rfl, rfl⟩
    refine ⟨hi', ?_⟩
    omega
  · rintro ⟨hi, hu⟩
    refine ⟨i, hi, dy, by omega, dx, ⟨by omega, by omega⟩, rfl, rfl, rfl⟩

theorem moveHash_true (wb : Nat) (pz w : puzzle) (g : globals) (i : Nat) (dx dy : Int)
    (h : piece.move pz i dx dy = (true, w)) :
    piece.moveHash wb pz g i dx dy =
      (true, w, ⟨g.mode, g.hashtable, g.backtrace, (w.calculate_hashvalue wb).2⟩,
        hashOf wb w) := by
  unfold piece.moveHash
  rw [h]
  rfl

theorem moveHash_false (wb : Nat) (pz : puzzle) (g : globals) (i : Nat) (dx dy : Int)
    (h : piece.move pz i dx dy = (false, pz)) :
    piece.moveHash wb pz g i dx dy = (false, pz, g, 0) := by
  unfold piece.moveHash
  rw [h]

theorem solveLoop_nil (wb : Nat) (recur : puzzle → globals → Bool × puzzle × globals)
    (depth from_ : Nat) (pz : puzzle) (g : globals) :
    solveLoop wb recur depth from_ [] pz g = (false, pz, g) := by
  rw [solveLoop]

theorem solveLoop_cons_skip (wb : Nat) (recur : puzzle → globals → Bool × puzzle × globals)
    (depth from_ i : Nat) (dy dx : Int) (rest : List (Nat × Int × Int)) (pz : puzzle)
    (g : globals) (h : piece.move pz i dx dy = (false, pz)) :
    solveLoop wb recur depth from_ ((i, dy, dx) :: rest) pz g =
      solveLoop wb recur depth from_ rest pz g := by
  rw [solveLoop, moveHash_false wb pz g i dx dy h]

/-- One candidate of the loop of `solve` in depth-first mode whose move
succeeds. -/
theorem solveLoop_cons_df (wb : Nat) (recur : puzzle → globals → Bool × puzzle × globals)
    (depth from_ i : Nat) (dy dx : Int) (rest : List (Nat × Int × Int)) (pz w : puzzle)
    (g : globals) (hmode : g.mode = mode.depth_first)
    (h : piece.move pz i dx dy = (true, w)) :
    solveLoop wb recur depth from_ ((i, dy, dx) :: rest) pz g =
      if w.solvedAt i = true then
        (true, (piece.move w i (-dx) (-dy)).2,
          ⟨g.mode, g.hashtable, g.backtrace, (w.calculate_hashvalue wb).2⟩)
      else if g.hashtable (hashOf wb w) < depth then
        if (recur w ⟨g.mode, Function.update g.hashtable (hashOf wb w) depth, g.backtrace,
            (w.calculate_hashvalue wb).2⟩).1 = true then
          (true, (piece.move (recur w ⟨g.mode, Function.update g.hashtable (hashOf wb w) depth,
            g.backtrace, (w.calculate_hashvalue wb).2⟩).2.1 i (-dx) (-dy)).2,
            (recur w ⟨g.mode, Function.update g.hashtable (hashOf wb w) depth, g.backtrace,
              (w.calculate_hashvalue wb).2⟩).2.2)
        else
          solveLoop wb recur depth from_ rest
            (piece.move (recur w ⟨g.mode, Function.update g.hashtable (hashOf wb w) depth,
              g.backtrace, (w.calculate_hashvalue wb).2⟩).2.1 i (-dx) (-dy)).2
            (recur w ⟨g.mode, Function.update g.hashtable (hashOf wb w) depth, g.backtrace,
              (w.calculate_hashvalue wb).2⟩).2.2
      else
        solveLoop wb recur depth from_ rest (piece.move w i (-dx) (-dy)).2
          ⟨g.mode, g.hashtable, g.backtrace, (w.calculate_hashvalue wb).2⟩ := by
  rw [solveLoop, moveHash_true wb pz w g i dx dy h]
  simp only [hmode]
  by_cases hs : w.solvedAt i = true
  · simp only [hs, if_true]
  · simp only [hs, if_false, Bool.false_eq_true]
    unfold puzzle.fails
    by_cases hlt : g.hashtable (hashOf wb w) < depth
    · simp only [hlt, if_true]
      rcases hr : recur w ⟨mode.depth_first, Function.update g.hashtable (hashOf wb w) depth,
        g.backtrace, (w.calculate_hashvalue wb).2⟩ with ⟨r, w2, g2⟩
      cases r <;> simp
    · simp only [hlt, if_false]


theorem hasGoal_of_nsolved (t : piece) (h : t.nsolved = true) : t.hasGoal := by
  unfold piece.nsolved at h
  unfold piece.hasGoal
  simp only [X, MIN, MAX] at *
  split_ifs at h <;>
    simp only [Bool.or_eq_true, Bool.and_eq_true, decide_eq_true_eq] at h <;> omega

/-- A position that the solved check accepts satisfies the goal. -/
theorem solvedAt_goal (w : puzzle) (i : Nat) (h : w.solvedAt i = true) : w.goalSatisfied := by
  unfold puzzle.solvedAt at h
  cases hi : w.board[i]? with
  | none => rw [hi] at h; cases h
  | some t =>
    rw [hi] at h
    simp only at h
    obtain ⟨hg, hall⟩ := (solved_iff t w).mp h
    exact ⟨⟨t, List.mem_iff_getElem?.mpr ⟨i, hi⟩, hg⟩, hall⟩

theorem closedAt_mono (wb : Nat) (T T1 : Nat → Nat) (c : Nat) (hle : ∀ x, T x ≤ T1 x)
    (heq : T1 c = T c) (h : closedAt wb T c) : closedAt wb T1 c := by
  intro h2 v hv hh i dy dx w hu hm
  obtain ⟨a1, a2⟩ := h (by omega) v hv hh i dy dx w hu hm
  exact ⟨a1, by have := hle (hashOf wb w); omega⟩

theorem applyMoves_cons (i : Nat) (dy dx : Int) (ms : List (Nat × Int × Int)) (b w : puzzle)
    (h : piece.move b i dx dy = (true, w)) :
    applyMoves ((i, dy, dx) :: ms) b = applyMoves ms w := by
  rw [applyMoves, h]

theorem solvableWithin_step (b w : puzzle) (i : Nat) (dy dx : Int) (d : Nat)
    (hu : unitStep dx dy) (hm : piece.move b i dx dy = (true, w)) (h : solvableWithin w d) :
    solvableWithin b (d + 1) := by
  obtain ⟨ms, h1, h2, h3, u, h4, h5⟩ := h
  refine ⟨(i, dy, dx) :: ms, by simp, by simp; omega, ?_, u, ?_, h5⟩
  · intro m hmem
    rcases List.mem_cons.mp hmem with rfl | hmem
    · exact hu
    · exact h3 m hmem
  · rw [applyMoves_cons i dy dx ms b w hm, h4]

theorem solvableWithin_one (b w : puzzle) (i : Nat) (dy dx : Int) (d : Nat)
    (hu : unitStep dx dy) (hm : piece.move b i dx dy = (true, w)) (h : w.goalSatisfied) :
    solvableWithin b (d + 1) := by
  refine ⟨[(i, dy, dx)], by simp, by simp, ?_, w, ?_, h⟩
  · intro m hmem
    rw [List.mem_singleton] at hmem
    rw [hmem]
    exact hu
  · rw [applyMoves_cons i dy dx [] b w hm]
    rfl

/-- The loop of `solve(d+1)` over any candidates, given the specification of
the recursive call `solve(d)`. -/
theorem solveLoop_spec (wb : Nat) (hwb : 32 ≤ wb) (d : Nat)
    (recur : puzzle → globals → Bool × puzzle × globals)
    (hrec : ∀ b g, b.arrangement → g.mode = mode.depth_first → solveSpec wb d b g (recur b g))
    (from_ : Nat) (cands : List (Nat × Int × Int)) (b : puzzle) (g : globals)
    (hb : b.arrangement) (hmode : g.mode = mode.depth_first)
    (hunit : ∀ m ∈ cands, unitStep m.2.2 m.2.1) :
    loopSpec wb (d + 1) cands b g (solveLoop wb recur (d + 1) from_ cands b g) := by
  induction cands generalizing g with
  | nil =>
    rw [solveLoop_nil]
    refine ⟨fun _ => ⟨rfl, hmode, fun _ => Nat.le_refl _, ?_, ?_⟩, fun h => by cases h⟩
    · intro i dy dx hmem
      cases hmem
    · intro c hc
      exact absurd rfl hc
  | cons m rest ih =>
    obtain ⟨i, dy, dx⟩ := m
    have hu : unitStep dx dy := hunit (i, dy, dx) (List.mem_cons_self _ _)
    have hunit' : ∀ m ∈ rest, unitStep m.2.2 m.2.1 :=
      fun m hm => hunit m (List.mem_cons_of_mem _ hm)
    rcases move_cases b i dx dy with hmv | ⟨t, _, _, _, hmv⟩
    · -- the move is rejected
      rw [solveLoop_cons_skip wb recur (d + 1) from_ i dy dx rest b g hmv]
      obtain ⟨f1, f2⟩ := ih g hmode hunit'
      refine ⟨fun hr => ?_, f2⟩
      obtain ⟨a1, a2, a3, a4, a5⟩ := f1 hr
      refine ⟨a1, a2, a3, ?_, a5⟩
      intro i' dy' dx' hmem w hw
      rcases List.mem_cons.mp hmem with heq | hmem
      · simp only [Prod.mk.injEq] at heq
        obtain ⟨rfl, rfl, rfl⟩ := heq
        rw [hmv] at hw
        cases hw
      · exact a4 i' dy' dx' hmem w hw
    · -- the move succeeds
      generalize hwdef : ({ b with board := b.board.set i (t.shift dx dy) } : puzzle) = w at hmv
      have hwarr : w.arrangement := move_arrangement b w hb i dx dy hmv
      have hundo : piece.move w i (-dx) (-dy) = (true, b) := move_undo b w hb.1 i dx dy hmv
      rw [solveLoop_cons_df wb recur (d + 1) from_ i dy dx rest b w g hmode hmv]
      have hhead : ∀ (T1 : Nat → Nat), w.solvedAt i = false → d + 1 ≤ T1 (hashOf wb w) →
          ∀ (i' : Nat) (dy' dx' : Int), (i', dy', dx') = (i, dy, dx) → ∀ w' : puzzle,
            piece.move b i' dx' dy' = (true, w') →
            w'.solvedAt i' = false ∧ d + 1 ≤ T1 (hashOf wb w') := by
        intro T1 hs hT i' dy' dx' heq w' hw'
        simp only [Prod.mk.injEq] at heq
        obtain ⟨rfl, rfl, rfl⟩ := heq
        rw [hmv] at hw'
        cases hw'
        exact ⟨hs, hT⟩
      by_cases hs : w.solvedAt i = true
      · rw [if_pos hs]
        exact ⟨fun h => absurd h (by simp [hs]),
          fun _ => solvableWithin_one b w i dy dx d hu hmv (solvedAt_goal w i hs)⟩
      rw [if_neg hs]
      have hs' : w.solvedAt i = false := by simpa using hs
      by_cases hlt : g.hashtable (hashOf wb w) < d + 1
      · rw [if_pos hlt]
        have hR := hrec w ⟨g.mode, Function.update g.hashtable (hashOf wb w) (d + 1), g.backtrace,
          (w.calculate_hashvalue wb).2⟩ hwarr hmode
        generalize recur w ⟨g.mode, Function.update g.hashtable (hashOf wb w) (d + 1),
          g.backtrace, (w.calculate_hashvalue wb).2⟩ = R at hR ⊢
        by_cases hR1 : R.1 = true
        · rw [if_pos hR1]
          exact ⟨fun h => absurd h (by simp [hR1]),
            fun _ => solvableWithin_step b w i dy dx d hu hmv (hR.2 hR1)⟩
        rw [if_neg hR1]
        obtain ⟨r1, r2, r3, r4, r5⟩ := hR.1 (by simpa using hR1)
        rw [r1, hundo]
        obtain ⟨f1, f2⟩ := ih R.2.2 r2 hunit'
        refine ⟨fun hr => ?_, f2⟩
        obtain ⟨a1, a2, a3, a4, a5⟩ := f1 hr
        generalize (solveLoop wb recur (d + 1) from_ rest b R.2.2).2.2.hashtable = T' at a3 a4 a5 ⊢
        simp only at r3 r4 r5
        have hT1 : ∀ c, g.hashtable c ≤ Function.update g.hashtable (hashOf wb w) (d + 1) c := by
          intro c
          rw [Function.update_apply]
          split_ifs with hc
          · rw [hc]; omega
          · exact Nat.le_refl _
        have hw2 : d + 1 ≤ R.2.2.hashtable (hashOf wb w) := by
          have := r3 (hashOf wb w)
          rw [Function.update_same] at this
          exact this
        refine ⟨a1, a2, fun c => Nat.le_trans (hT1 c) (Nat.le_trans (r3 c) (a3 c)), ?_, ?_⟩
        · intro i' dy' dx' hmem w' hw'
          rcases List.mem_cons.mp hmem with heq | hmem
          · exact hhead T' hs' (Nat.le_trans hw2 (a3 _)) i' dy' dx' heq w' hw'
          · exact a4 i' dy' dx' hmem w' hw'
        · intro c hc
          by_cases h1 : T' c ≠ R.2.2.hashtable c
          · exact a5 c h1
          have h1' : T' c = R.2.2.hashtable c := by simpa using h1
          by_cases h2 : R.2.2.hashtable c ≠
              Function.update g.hashtable (hashOf wb w) (d + 1) c
          · exact closedAt_mono wb _ T' c a3 h1' (r5 c h2)
          have h2' : R.2.2.hashtable c = Function.update g.hashtable (hashOf wb w) (d + 1) c := by
            simpa using h2
          by_cases h3 : c = hashOf wb w
          · subst h3
            rw [Function.update_same] at h2'
            intro h2le v hv hvh i' dy' dx' u hu' hmu
            have hd1 : 1 ≤ d := by omega
            have hss := hash_sameSet wb hwb v w hv hwarr hvh
            obtain ⟨j, u2, hm2, hsu, hsol⟩ :=
              move_sameSet v w u hv.1 hwarr.1 hss i' dx' dy' hmu
            obtain ⟨e1, e2⟩ := r4 hd1 j dy' dx' u2 hu' hm2
            have hua : u.arrangement := move_arrangement v u hv i' dx' dy' hmu
            have hu2a : u2.arrangement := move_arrangement w u2 hwarr j dx' dy' hm2
            have hhash := sameSet_hash wb u u2 hua hu2a hsu
            refine ⟨by rw [hsol]; exact e1, ?_⟩
            have := a3 (hashOf wb u2)
            rw [hhash]
            omega
          · exfalso
            rw [Function.update_noteq h3] at h2'
            apply hc
            rw [h1', h2']
      · rw [if_neg hlt, hundo]
        obtain ⟨f1, f2⟩ := ih ⟨g.mode, g.hashtable, g.backtrace, (w.calculate_hashvalue wb).2⟩
          hmode hunit'
        refine ⟨fun hr => ?_, f2⟩
        obtain ⟨a1, a2, a3, a4, a5⟩ := f1 hr
        refine ⟨a1, a2, a3, ?_, a5⟩
        intro i' dy' dx' hmem w' hw'
        rcases List.mem_cons.mp hmem with heq | hmem
        · exact hhead _ hs' (Nat.le_trans (Nat.le_of_not_lt hlt) (a3 _)) i' dy' dx' heq w' hw'
        · exact a4 i' dy' dx' hmem w' hw'


/-- The depth-first search `solve(d)` on an arrangement of the start pieces,
in depth-first mode. -/
theorem solve_spec (wb : Nat) (hwb : 32 ≤ wb) (d : Nat) :
    ∀ (from_ : Nat) (b : puzzle) (g : globals), b.arrangement → g.mode = mode.depth_first →
      solveSpec wb d b g (puzzle.solve wb d from_ b g) := by
  induction d with
  | zero =>
    intro from_ b g _ hmode
    rw [puzzle.solve]
    refine ⟨fun _ => ⟨rfl, hmode, fun _ => Nat.le_refl _, fun h => by omega, ?_⟩,
      fun h => absurd h (by simp)⟩
    intro c hc
    exact absurd rfl hc
  | succ d ih =>
    intro from_ b g hb hmode
    rw [puzzle.solve]
    obtain ⟨f1, f2⟩ := solveLoop_spec wb hwb d (puzzle.solve wb d 0)
      (fun b g hb hg => ih 0 b g hb hg) from_ (candidates b.board.length) b g hb hmode
      (fun m hm => ((mem_candidates _ m.1 m.2.1 m.2.2).mp hm).2)
    refine ⟨fun hr => ?_, f2⟩
    obtain ⟨a1, a2, a3, a4, a5⟩ := f1 hr
    refine ⟨a1, a2, a3, ?_, a5⟩
    intro _ i dy dx w hu hm
    apply a4 i dy dx _ w hm
    rw [mem_candidates]
    refine ⟨?_, hu⟩
    rcases move_cases b i dx dy with h | ⟨t, hi, _⟩
    · rw [h] at hm; cases hm
    · exact (List.getElem?_eq_some_iff.mp hi).1

theorem applyMoves_cons_some (i : Nat) (dy dx : Int) (ms : List (Nat × Int × Int))
    (b w : puzzle) (h : applyMoves ((i, dy, dx) :: ms) b = some w) :
    ∃ u, piece.move b i dx dy = (true, u) ∧ applyMoves ms u = some w := by
  rw [applyMoves] at h
  split at h
  · next u heq => exact ⟨u, heq, h⟩
  · cases h

theorem applyMoves_snoc (pre : List (Nat × Int × Int)) (i : Nat) (dy dx : Int)
    (b prev u : puzzle) (hp : applyMoves pre b = some prev)
    (hm : piece.move prev i dx dy = (true, u)) :
    applyMoves (pre ++ [(i, dy, dx)]) b = some u := by
  induction pre generalizing b with
  | nil =>
    simp only [applyMoves, Option.some.injEq] at hp
    subst hp
    rw [List.nil_append, applyMoves_cons i dy dx [] b u hm]
    rfl
  | cons m pre ih =>
    obtain ⟨i0, dy0, dx0⟩ := m
    obtain ⟨u0, h0, h1⟩ := applyMoves_cons_some i0 dy0 dx0 pre b prev hp
    rw [List.cons_append, applyMoves_cons i0 dy0 dx0 _ b u0 h0]
    exact ih u0 h1

/-- Along a path from a position whose hashtable entry is large enough, with
all entries justified, no move is accepted by the solved check. -/
theorem walk (wb : Nat) (T : Nat → Nat) (hT : ∀ c, closedAt wb T c) (b : puzzle)
    (rest : List (Nat × Int × Int)) :
    ∀ (pre : List (Nat × Int × Int)) (prev u : puzzle) (j : Nat) (dy dx : Int) (D : Nat),
      unitMoves pre → applyMoves pre b = some prev → prev.arrangement → unitStep dx dy →
      piece.move prev j dx dy = (true, u) → u.solvedAt j = false → D ≤ T (hashOf wb u) →
      rest.length + 1 ≤ D → unitMoves rest → ∀ w, applyMoves rest u = some w →
      ∃ (pre1 : List (Nat × Int × Int)) (prev1 : puzzle) (j1 : Nat) (dy1 dx1 : Int),
        pre1.length = pre.length + rest.length ∧ unitMoves pre1 ∧
        applyMoves pre1 b = some prev1 ∧ piece.move prev1 j1 dx1 dy1 = (true, w) ∧
        w.solvedAt j1 = false := by
  induction rest with
  | nil =>
    intro pre prev u j dy dx D hpre hap _ _ hm hs _ _ _ w hw
    simp only [applyMoves, Option.some.injEq] at hw
    subst hw
    exact ⟨pre, prev, j, dy, dx, by simp, hpre, hap, hm, hs⟩
  | cons m rest ih =>
    intro pre prev u j dy dx D hpre hap hparr hu hm hs hD hlen hrest w hw
    obtain ⟨j2, dy2, dx2⟩ := m
    obtain ⟨u2, hm2, hw2⟩ := applyMoves_cons_some j2 dy2 dx2 rest u w hw
    have huarr : u.arrangement := move_arrangement prev u hparr j dx dy hm
    have hu2 : unitStep dx2 dy2 := hrest (j2, dy2, dx2) (List.mem_cons_self _ _)
    simp only [List.length_cons] at hlen
    obtain ⟨c1, c2⟩ := hT (hashOf wb u) (by omega) u huarr rfl j2 dy2 dx2 u2 hu2 hm2
    obtain ⟨pre1, prev1, j1, dy1, dx1, e1, e2, e3, e4, e5⟩ :=
      ih (pre ++ [(j, dy, dx)]) u u2 j2 dy2 dx2 (D - 1)
        (by
          intro m hmem
          rcases List.mem_append.mp hmem with h | h
          · exact hpre m h
          · rw [List.mem_singleton] at h
            rw [h]
            exact hu)
        (applyMoves_snoc pre j dy dx b prev u hap hm) huarr hu2 hm2 c1 (by omega) (by omega)
        (fun m hmem => hrest m (List.mem_cons_of_mem _ hmem)) w hw2
    refine ⟨pre1, prev1, j1, dy1, dx1, ?_, e2, e3, e4, e5⟩
    have hsn : (pre ++ [(j, dy, dx)]).length = pre.length + 1 := by
      rw [List.length_append, List.length_singleton]
    rw [e1, hsn, List.length_cons]
    omega

/-- The move that first satisfies the goal is accepted by the solved check. -/
theorem solvedAt_first (prev w : puzzle) (j : Nat) (dx dy : Int)
    (hm : piece.move prev j dx dy = (true, w)) (hw : w.goalSatisfied)
    (hp : ¬ prev.goalSatisfied) : w.solvedAt j = true := by
  rcases move_cases prev j dx dy with h | ⟨t, hi, _, _, h⟩
  · rw [h] at hm; cases hm
  rw [h] at hm
  cases hm
  have hjlt : j < prev.board.length := (List.getElem?_eq_some_iff.mp hi).1
  have hother : ∀ k x, prev.board[k]? = some x → k ≠ j →
      x ∈ prev.board.set j (t.shift dx dy) := by
    intro k x hk hkj
    exact List.mem_iff_getElem?.mpr ⟨k, by rw [List.getElem?_set_ne (Ne.symm hkj)]; exact hk⟩
  obtain ⟨⟨x, hx, hxg⟩, hall⟩ := hw
  simp only at hx hall
  have hgoal : t.hasGoal := by
    by_cases hex : ∃ y ∈ prev.board, y.nsolved = true
    · obtain ⟨y, hy, hyn⟩ := hex
      obtain ⟨k, hk⟩ := List.mem_iff_getElem?.mp hy
      by_cases hkj : k = j
      · subst hkj
        rw [hi] at hk
        cases hk
        exact hasGoal_of_nsolved _ hyn
      · have := hall y (hother k y hk hkj)
        rw [hyn] at this
        cases this
    · exfalso
      apply hp
      have hall' : ∀ y ∈ prev.board, y.nsolved = false := by
        intro y hy
        by_contra hc
        exact hex ⟨y, hy, by simpa using hc⟩
      obtain ⟨k, hk⟩ := List.mem_iff_getElem?.mp hx
      rcases getElem?_set_cases hk with ⟨_, rfl⟩ | ⟨_, hk'⟩
      · refine ⟨⟨t, List.mem_iff_getElem?.mpr ⟨j, hi⟩, hxg⟩, hall'⟩
      · exact ⟨⟨x, List.mem_iff_getElem?.mpr ⟨k, hk'⟩, hxg⟩, hall'⟩
  rw [solvedAt_set prev j (t.shift dx dy) _ (by simp [List.getElem?_set, hjlt])]
  have hng : ¬ ((t.shift dx dy).tx = X ∧ (t.shift dx dy).ty = X) := hgoal
  have hany : ¬ (prev.board.set j (t.shift dx dy)).any piece.nsolved = true := by
    rw [List.any_eq_true]
    rintro ⟨y, hy, hyn⟩
    rw [hall y hy] at hyn
    cases hyn
  rw [if_neg hng, if_neg hany]

/-- A failed `solve(k)` with all entries justified excludes a solution of
exactly `k` moves whose shorter prefixes do not satisfy the goal. -/
theorem fail_excludes (wb : Nat) (b : puzzle) (hb : b.arrangement) (k : Nat) (hk : 1 ≤ k)
    (hmin : minimalSolution b k) (g g1 : globals) (hf : failSpec wb k b g b g1)
    (hT : ∀ c, closedAt wb g1.hashtable c) : False := by
  obtain ⟨⟨ms, hlen, hunit, w, hap, hgoal⟩, hno⟩ := hmin
  cases ms with
  | nil => simp at hlen; omega
  | cons m rest =>
    obtain ⟨i, dy, dx⟩ := m
    obtain ⟨u, hm, hw⟩ := applyMoves_cons_some i dy dx rest b w hap
    have hu : unitStep dx dy := hunit (i, dy, dx) (List.mem_cons_self _ _)
    obtain ⟨_, _, _, hedge, _⟩ := hf
    obtain ⟨e1, e2⟩ := hedge hk i dy dx u hu hm
    simp only [List.length_cons] at hlen
    obtain ⟨pre1, prev1, j1, dy1, dx1, p1, p2, p3, p4, p5⟩ :=
      walk wb g1.hashtable hT b rest [] b u i dy dx k (by intro m hm; cases hm) rfl hb hu hm e1 e2
        (by omega) (fun m hmem => hunit m (List.mem_cons_of_mem _ hmem)) w hw
    have hprev : ¬ prev1.goalSatisfied := by
      intro hg
      exact hno pre1.length (by rw [p1]; simp; omega) ⟨pre1, rfl, p2, prev1, p3, hg⟩
    have := solvedAt_first prev1 w j1 dx1 dy1 p4 hgoal hprev
    rw [p5] at this
    cases this

/-- The iterative deepening over the depths `s, s+1, ...` stops at the minimum
number of moves `k`. -/
theorem deepen_first (wb : Nat) (hwb : 32 ≤ wb) (b : puzzle) (hb : b.arrangement) (k : Nat)
    (hk : 1 ≤ k) (hmin : minimalSolution b k) (n : Nat) :
    ∀ (s : Nat) (g : globals), g.mode = mode.depth_first →
      (∀ c, closedAt wb g.hashtable c) → s ≤ k → k < s + n →
      (deepen wb (List.range' s n) b g).1 = some k := by
  induction n with
  | zero => intro s g _ _ h1 h2; omega
  | succ n ih =>
    intro s g hmode hT hsk hkn
    rw [List.range'_succ, deepen]
    have hsp := solve_spec wb hwb s 0 b g hb hmode
    generalize puzzle.solve wb s 0 b g = R at hsp
    obtain ⟨r, b1, g1⟩ := R
    cases r with
    | true =>
      simp only
      obtain ⟨ms, l1, l2, hunit, w, hap, hgoal⟩ := hsp.2 rfl
      have : ¬ ms.length < k := fun hlt => hmin.2 ms.length hlt ⟨ms, rfl, hunit, w, hap, hgoal⟩
      have : s = k := by omega
      rw [this]
    | false =>
      simp only
      have hf := hsp.1 rfl
      simp only at hf
      obtain ⟨f1, f2, f3, f4, f5⟩ := hf
      subst f1
      have hT1 : ∀ c, closedAt wb g1.hashtable c := by
        intro c
        by_cases hc : g1.hashtable c ≠ g.hashtable c
        · exact f5 c hc
        · exact closedAt_mono wb g.hashtable g1.hashtable c f3 (by simpa using hc) (hT c)
      by_cases hsk' : s = k
      · subst hsk'
        exact absurd (fail_excludes wb b1 hb s hk hmin g g1 ⟨rfl, f2, f3, f4, f5⟩ hT1) id
      · exact ih (s + 1) g1 f2 hT1 (by omega) (by omega)

/-- C10: for every arrangement `b` of the start pieces (the start
configuration is one) and every `k` with `1 ≤ k ≤ 255`: if `k` is the minimum
number of unit moves from `b` to a board on which the goal is satisfied, then
the iterative deepening `solve()`, run on the zeroed hashtable that is never
cleared between depths, fails at every depth below `k` and succeeds at depth
`k`: it returns the depth `k`. -/
theorem deepening_shallowest (wb : Nat) (hwb : 32 ≤ wb) (b : puzzle) (hb : b.arrangement)
    (k : Nat) (hk1 : 1 ≤ k) (hk2 : k ≤ 255) (hmin : minimalSolution b k) :
    puzzle.start.arrangement ∧ (puzzle.solveDeepening wb b globals.init).1 = some k := by
  refine ⟨start_arrangement, ?_⟩
  unfold puzzle.solveDeepening
  apply deepen_first wb hwb b hb k hk1 hmin 255 1 globals.init rfl _ hk1 (by omega)
  intro c h2
  simp [globals.init] at h2

set_option maxRecDepth 100000 in
theorem deepening_shallowest_witness :
    32 ≤ 64 ∧ nearGoalBoard.arrangement ∧ 1 ≤ 1 ∧ 1 ≤ 255 ∧ minimalSolution nearGoalBoard 1 ∧
      (puzzle.start.arrangement ∧
        (puzzle.solveDeepening 64 nearGoalBoard globals.init).1 = some 1) :=
  have hmin : minimalSolution nearGoalBoard 1 :=
    ⟨⟨[(0, 1, 0)], rfl, by decide, goalBoard, by decide, by decide⟩, fun j hj => by
      have hj0 : j = 0 := by omega
      subst hj0
      rintro ⟨ms, hlen, _, w, hap, hg⟩
      have hnil : ms = [] := List.length_eq_zero.mp hlen
      subst hnil
      simp only [applyMoves, Option.some.injEq] at hap
      subst hap
      revert hg
      decide⟩
  ⟨by decide, by decide, by decide, by decide, hmin,
    deepening_shallowest 64 (by decide) nearGoalBoard (by decide) 1 (by decide) (by decide) hmin⟩

/-! ## Scenarios of the decoder -/

/-- The loop of the decoder on the code 0: every cell is taken as empty. -/
theorem decodeLoop_zero (wb hv sum r : Nat) (fuel : Nat) (n p : Nat) (hp : p ≤ 20)
    (hf : 20 - p ≤ fuel) :
    decodeLoop wb 10 hv sum fuel ⟨0, 0, n, p, r, 0, fun _ => 0, 0⟩ =
      some ⟨0, 0, n + (20 - p), 20, r, 0, fun _ => 0, 0⟩ := by
  induction fuel generalizing n p with
  | zero =>
    have : p = 20 := by omega
    subst this
    simp [decodeLoop, H, W]
  | succ fuel ih =>
    simp only [decodeLoop, H, W]
    split_ifs with h
    · rw [decodeBody_empty wb hv sum _ (by simp)]
      have hs : skipCovered (fun _ => 0) 20 (p + 1) = p + 1 := by
        simp [skipCovered]
      simp only [hs, Nat.zero_mul, Nat.zero_mod]
      rw [ih (n + 1) (p + 1) (by omega) (by omega)]
      congr 2
      omega
    · have : p = 20 := by omega
      subst this
      rfl

/-- C11: decoding the identifier 0 with piece count 10 ends, for every width
of `unsigned long`, every value of the static `sum` and every solution piece,
with a puzzle without pieces whose illegality counter is 1 (the loop has
taken all twenty cells as empty, so `n != 2`); the conversion
`operator void*` of this puzzle yields NULL. -/
theorem decode_zero (wb sum : Nat) (sol : piece) :
    ∃ pz, puzzle.decode wb 0 10 sol sum = some pz ∧ pz.illegal ≠ 0 ∧ pz.usable = false ∧
      pz.board = [] := by
  refine ⟨⟨[], 1, 0⟩, ?_, by decide, by decide, rfl⟩
  rw [decode_eq]
  show Option.map _ (decodeLoop wb 10 0 sum 64 ⟨0, 0, 0, 0, wsub wb 10 1, 0, fun _ => 0, 0⟩) = _
  rw [decodeLoop_zero wb 0 sum _ 64 0 0 (by omega) (by omega)]
  rfl

set_option maxRecDepth 100000 in
/-- C12: `calculate_hashvalue` on the start configuration returns the code
22985197 and sets the checksum 12; decoding this code with piece count 10 and
that checksum yields, for either width of `unsigned long`, the usable and
legal board `startDecoded`, whose list of `(x, y, w, h)` tuples is a
permutation of the start piece list. -/
theorem start_roundtrip :
    puzzle.start.calculate_hashvalue 32 = (22985197, 12) ∧
    puzzle.start.calculate_hashvalue 64 = (22985197, 12) ∧
    puzzle.decode 32 22985197 10 piece.default 12 = some startDecoded ∧
    puzzle.decode 64 22985197 10 piece.default 12 = some startDecoded ∧
    startDecoded.usable = true ∧ startDecoded.legal ∧
    (startDecoded.board.map piece.tuple).Perm startTuples ∧
    puzzle.start.board.map piece.tuple = startTuples := by
  decide

/-- C13: on every board reached from the start configuration by successful
moves the shape codes `2*(h-1)+(w-1)` of the pieces sum to 12, as they do on
the start configuration, and `calculate_hashvalue` leaves exactly this value
in the static `sum`, on the start configuration and on the board reached. -/
theorem checksum_invariant (wb : Nat) (hwb : 32 ≤ wb) (ms : List (Nat × Int × Int)) (b : puzzle)
    (h : applyMoves ms puzzle.start = some b) :
    (b.board.map piece.shapeCode).sum = 12 ∧
    (puzzle.start.board.map piece.shapeCode).sum = 12 ∧
    (puzzle.start.calculate_hashvalue wb).2 = 12 ∧
    (b.calculate_hashvalue wb).2 = 12 := by
  have hb := applyMoves_arrangement ms puzzle.start b start_arrangement h
  refine ⟨?_, by decide, ?_, ?_⟩
  · have : b.board.map piece.shapeCode =
        (b.board.map piece.kind).map fun k => 2 * (k.2.1 - 1) + (k.1 - 1) := by
      rw [List.map_map]; rfl
    rw [this, hb.2]
    decide
  · rw [(hash_arrangement wb hwb puzzle.start start_arrangement).1]
  · rw [(hash_arrangement wb hwb b hb).1]

set_option maxRecDepth 100000 in
theorem checksum_invariant_witness :
    32 ≤ 32 ∧ applyMoves cornerPath puzzle.start = some cornerBoard ∧
      ((cornerBoard.board.map piece.shapeCode).sum = 12 ∧
        (puzzle.start.board.map piece.shapeCode).sum = 12 ∧
        (puzzle.start.calculate_hashvalue 32).2 = 12 ∧
        (cornerBoard.calculate_hashvalue 32).2 = 12) :=
  ⟨by decide, by decide, checksum_invariant 32 (by decide) cornerPath cornerBoard (by decide)⟩

/-- C20: for every code value, piece count 10, every value of the static
`sum` and every solution piece the loop `while (p<H*W)` of the decoder ends:
it ends within 30 iterations, so the decoding constructor returns a puzzle.
Iterations that reject a placement and leave `p` where it is are covered:
each of them lowers the number of shape codes still to be read from the code
or, once that number is 0, leaves a checksum remainder whose shape code is 0,
which the next iteration places. -/
theorem decode_terminates (wb : Nat) (hwb : 32 ≤ wb) (c sum : Nat) (sol : piece) :
    (∃ fin, decodeLoop wb 10 (c / 121) sum 30
      ⟨c % 121, 0, 0, 0, wsub wb 10 1, 0, fun _ => 0, 0⟩ = some fin) ∧
    ∃ pz, puzzle.decode wb c 10 sol sum = some pz := by
  have hp := two_pow_wb hwb
  have hr : wsub wb 10 1 = 9 := by
    rw [wsub_of_le wb 10 1 (by omega) (by omega)]
  have hm : decMeasure wb sum ⟨c % 121, 0, 0, 0, wsub wb 10 1, 0, fun _ => 0, 0⟩ ≤ 30 := by
    unfold decMeasure
    simp only [hr]
    split_ifs <;> omega
  refine ⟨decodeLoop_total wb hwb (c / 121) sum 30 _ (by simp [hr]) hm, ?_⟩
  rw [decode_eq]
  obtain ⟨fin, hfin⟩ := decodeLoop_total wb hwb (c / 121) sum 64
    ⟨c % 121, 0, 0, 0, wsub wb 10 1, 0, fun _ => 0, 0⟩ (by simp [hr]) (by omega)
  rw [hfin]
  exact ⟨_, rfl⟩

theorem decode_terminates_witness :
    32 ≤ 32 ∧
      ((∃ fin, decodeLoop 32 10 (4294967295 / 121) 7 30
        ⟨4294967295 % 121, 0, 0, 0, wsub 32 10 1, 0, fun _ => 0, 0⟩ = some fin) ∧
      ∃ pz, puzzle.decode 32 4294967295 10 solutionPiece 7 = some pz) :=
  ⟨by decide, decode_terminates 32 (by decide) 4294967295 7 solutionPiece⟩

/-! ## The goal of the start configuration -/

/-- C16 (amended): in the start configuration exactly one piece carries a real
goal, the 2x2 piece with the target `(1, 3)`, and its comparison mode is exact
equality: a 2x2 piece with this goal is solved exactly at `x = 1` and
`y = 3`. -/
theorem start_goal_exact :
    puzzle.start.goalPieces = [⟨1, 0, 2, 2, 1, 3, EQ⟩] ∧
    ∀ x y : Int, (⟨x, y, 2, 2, 1, 3, EQ⟩ : piece).nsolved = false ↔ x = 1 ∧ y = 3 := by
  refine ⟨by decide, fun x y => ?_⟩
  simp [piece.nsolved, EQ, MIN, MAX]

/-- C16 (counterexample): the only piece of the start configuration with a
real goal does not have the comparison mode minimum; at the position `(2, 3)`
the mode minimum would count the goal `(1, 3)` as satisfied, the mode of the
start configuration does not. -/
theorem start_goal_counterexample :
    ¬ (∃ t, puzzle.start.goalPieces = [t] ∧ t.tuple = (1, 0, 2, 2) ∧ t.tx = 1 ∧ t.ty = 3 ∧
        t.match_ = MIN) ∧
    (⟨2, 3, 2, 2, 1, 3, MIN⟩ : piece).nsolved = false ∧
    (⟨2, 3, 2, 2, 1, 3, EQ⟩ : piece).nsolved = true := by
  refine ⟨?_, by decide, by decide⟩
  rintro ⟨t, ht, -, -, -, hm⟩
  have h0 : puzzle.start.goalPieces = [⟨1, 0, 2, 2, 1, 3, EQ⟩] := by decide
  rw [h0] at ht
  cases ht
  revert hm
  decide

/-! ## The depths of the iterative deepening -/

/-- Every depth at which the loop calls `solve` is one of the depths
offered. -/
theorem depthsRun_subset (wb : Nat) (l : List Nat) :
    ∀ (pz : puzzle) (g : globals), ∀ d ∈ depthsRun wb l pz g, d ∈ l := by
  induction l with
  | nil => intro pz g d hd; simp [depthsRun] at hd
  | cons a rest ih =>
    intro pz g d hd
    rw [depthsRun] at hd
    rcases hs : puzzle.solve wb a 0 pz g with ⟨r, pz1, g1⟩
    rw [hs] at hd
    cases r with
    | true =>
      simp only [List.mem_singleton] at hd
      rw [hd]; exact List.mem_cons_self _ _
    | false =>
      simp only [List.mem_cons] at hd
      rcases hd with hd | hd
      · rw [hd]; exact List.mem_cons_self _ _
      · exact List.mem_cons_of_mem _ (ih pz1 g1 d hd)

/-- The loop over the depths `s, s+1, ...` calls `solve` at every offered
depth that no successful depth precedes. -/
theorem depthsRun_reaches (wb : Nat) (n : Nat) :
    ∀ (s : Nat) (pz : puzzle) (g : globals) (d : Nat), s ≤ d → d < s + n →
      (∀ k, (deepen wb (List.range' s n) pz g).1 = some k → d ≤ k) →
      d ∈ depthsRun wb (List.range' s n) pz g := by
  induction n with
  | zero => intro s pz g d h1 h2; omega
  | succ n ih =>
    intro s pz g d h1 h2 hk
    rw [List.range'_succ, depthsRun]
    rw [List.range'_succ, deepen] at hk
    rcases hs : puzzle.solve wb s 0 pz g with ⟨r, pz1, g1⟩
    rw [hs] at hk
    cases r with
    | true =>
      have := hk s rfl
      have hds : d = s := by omega
      simp [hds]
    | false =>
      simp only [List.mem_cons]
      by_cases hds : d = s
      · exact Or.inl hds
      · exact Or.inr (ih (s + 1) pz1 g1 d (by omega) (by omega) hk)

/-- C15 (amended): the driver `solve()` has the depth bound 255 of its
`uint8` counter.  For every depth `d` from 1 to 255, on every board and
table: if no search at a depth below `d` succeeds, the driver runs the search
at depth `d`; and it runs no search at any other depth. -/
theorem deepening_bounded (wb : Nat) (pz : puzzle) (g : globals) (d : Nat) (h1 : 1 ≤ d)
    (h2 : d ≤ 255) (hk : ∀ k, (puzzle.solveDeepening wb pz g).1 = some k → d ≤ k) :
    d ∈ pz.depthsSearched wb g ∧ ∀ j ∈ pz.depthsSearched wb g, 1 ≤ j ∧ j ≤ 255 := by
  constructor
  · exact depthsRun_reaches wb 255 1 pz g d h1 (by omega) hk
  · intro j hj
    have := depthsRun_subset wb _ pz g j hj
    rw [List.mem_range'_1] at this
    omega

set_option maxRecDepth 100000 in
theorem deepening_bounded_witness :
    1 ≤ 255 ∧ 255 ≤ 255 ∧ (puzzle.solveDeepening 32 fullBoard globals.init).1 = none ∧
      (255 ∈ fullBoard.depthsSearched 32 globals.init ∧
        ∀ j ∈ fullBoard.depthsSearched 32 globals.init, 1 ≤ j ∧ j ≤ 255) :=
  have h0 : (puzzle.solveDeepening 32 fullBoard globals.init).1 = none := by decide!
  ⟨by decide, by decide, h0,
    deepening_bounded 32 fullBoard globals.init 255 (by decide) (by decide)
      (fun k hk => by rw [h0] at hk; cases hk)⟩

set_option maxRecDepth 100000 in
/-- C15 (counterexample): on the legal board `fullBoard`, where no piece can
move, the searches at the depths 1 to 255 all fail and the driver ends
without a result; it does not run the search at depth 256. -/
theorem deepening_counterexample :
    fullBoard.legal ∧
    (puzzle.solveDeepening 32 fullBoard globals.init).1 = none ∧
    fullBoard.depthsSearched 32 globals.init = List.range' 1 255 ∧
    ¬ (∀ d, 1 ≤ d →
        (∀ k, (puzzle.solveDeepening 32 fullBoard globals.init).1 = some k → d ≤ k) →
        d ∈ fullBoard.depthsSearched 32 globals.init) := by
  have h1 : (puzzle.solveDeepening 32 fullBoard globals.init).1 = none := by decide!
  have h2 : fullBoard.depthsSearched 32 globals.init = List.range' 1 255 := by decide!
  refine ⟨by decide, h1, h2, fun h => ?_⟩
  have := h 256 (by omega) (fun k hk => by rw [h1] at hk; cases hk)
  rw [h2, List.mem_range'_1] at this
  omega

/-! ## Undo on backtrack -/

/-- One candidate of the loop of `solve` in scan mode whose move succeeds. -/
theorem solveLoop_cons_scan (wb : Nat) (recur : puzzle → globals → Bool × puzzle × globals)
    (depth from_ i : Nat) (dy dx : Int) (rest : List (Nat × Int × Int)) (pz w : puzzle)
    (g : globals) (hmode : g.mode = mode.scan)
    (h : piece.move pz i dx dy = (true, w)) :
    solveLoop wb recur depth from_ ((i, dy, dx) :: rest) pz g =
      solveLoop wb recur depth from_ rest (piece.move w i (-dx) (-dy)).2
        (if g.hashtable (hashOf wb w) &&& REACHED = 0 then
          ⟨g.mode, Function.update g.hashtable (hashOf wb w) (g.hashtable (hashOf wb w) ||| REACHED),
            Function.update g.backtrace (hashOf wb w) from_, (w.calculate_hashvalue wb).2⟩
        else ⟨g.mode, g.hashtable, g.backtrace, (w.calculate_hashvalue wb).2⟩) := by
  rw [solveLoop, moveHash_true wb pz w g i dx dy h]
  simp only [hmode]

/-- A rejected move returns the board as it was. -/
theorem move_false (pz w : puzzle) (i : Nat) (dx dy : Int)
    (hm : piece.move pz i dx dy = (false, w)) : w = pz := by
  rcases move_cases pz i dx dy with h | ⟨t, _, _, _, h⟩
  · rw [h] at hm; cases hm; rfl
  · rw [h] at hm; cases hm

/-- A failing run of the loop of `solve` on a legal board returns the board
unchanged, when the recursive call does so. -/
theorem solveLoop_restores (wb : Nat) (recur : puzzle → globals → Bool × puzzle × globals)
    (hrec : ∀ pz g, pz.legal → (recur pz g).1 = false → (recur pz g).2.1 = pz)
    (depth from_ : Nat) (cands : List (Nat × Int × Int)) :
    ∀ (pz : puzzle) (g : globals), pz.legal →
      (solveLoop wb recur depth from_ cands pz g).1 = false →
      (solveLoop wb recur depth from_ cands pz g).2.1 = pz := by
  induction cands with
  | nil => intro pz g _ _; rw [solveLoop_nil]
  | cons c rest ih =>
    obtain ⟨i, dy, dx⟩ := c
    intro pz g hl hf
    rcases hm : piece.move pz i dx dy with ⟨ok, w⟩
    cases ok with
    | false =>
      have hw : w = pz := move_false pz w i dx dy hm
      subst hw
      rw [solveLoop_cons_skip wb recur depth from_ i dy dx rest w g hm] at hf ⊢
      exact ih w g hl hf
    | true =>
      have hwl : w.legal := move_legal pz w hl i dx dy hm
      have hback : (piece.move w i (-dx) (-dy)).2 = pz := by
        rw [move_undo pz w hl i dx dy hm]
      cases hmode : g.mode with
      | scan =>
        rw [solveLoop_cons_scan wb recur depth from_ i dy dx rest pz w g hmode hm, hback] at hf ⊢
        exact ih pz _ hl hf
      | depth_first =>
        rw [solveLoop_cons_df wb recur depth from_ i dy dx rest pz w g hmode hm] at hf ⊢
        split_ifs at hf ⊢ with h1 h2 h3
        · have hr := hrec w _ hwl (by simpa using h3)
          rw [hr, hback] at hf ⊢
          exact ih pz _ hl hf
        · rw [hback] at hf ⊢
          exact ih pz _ hl hf

/-- C19: for every legal board, every depth, every `from`, either search mode
and whatever the tables hold: when `solve(depth, from)` returns failure, the
board after the call equals the board before the call, piece by piece. -/
theorem solve_restores (wb depth from_ : Nat) (pz : puzzle) (g : globals) (hl : pz.legal)
    (hf : (puzzle.solve wb depth from_ pz g).1 = false) :
    (puzzle.solve wb depth from_ pz g).2.1 = pz := by
  induction depth generalizing from_ pz g with
  | zero => rfl
  | succ d ih =>
    rw [puzzle.solve] at hf ⊢
    exact solveLoop_restores wb _ (fun pz g hl hf => ih 0 pz g hl hf) _ _ _ pz g hl hf

set_option maxRecDepth 100000 in
theorem solve_restores_witness :
    puzzle.start.legal ∧ (puzzle.solve 32 1 0 puzzle.start globals.init).1 = false ∧
      (puzzle.solve 32 1 0 puzzle.start globals.init).2.1 = puzzle.start :=
  ⟨by decide, by decide!, solve_restores 32 1 0 puzzle.start globals.init (by decide) (by decide!)⟩

/-! ## Layouts -/

theorem start_layout : puzzle.start.layout := by decide

/-- On a layout the grid has 10 anchors and 2 empty cells, and the shape codes
sum to 12. -/
theorem layout_counts (pz : puzzle) (h : pz.layout) :
    (codesTo (paintBoard pz.board) 20).length = 10 ∧
    (emptiesTo (paintBoard pz.board) 20).length = 2 ∧
    (codesTo (paintBoard pz.board) 20).sum = 12 := by
  obtain ⟨hl, hlen, harea, hcode⟩ := h
  obtain ⟨h1, h2, h3⟩ := legal_counts pz hl
  exact ⟨by omega, by omega, by omega⟩

/-- The position code of a layout, without any wrap-around. -/
theorem hash_layout (wb : Nat) (hwb : 32 ≤ wb) (pz : puzzle) (ha : pz.layout) :
    pz.calculate_hashvalue wb =
      (ofBase 4 (codesTo (paintBoard pz.board) 20) / 4 * 121 +
        ofBase 11 (emptiesTo (paintBoard pz.board) 20), 12) ∧
    ofBase 4 (codesTo (paintBoard pz.board) 20) / 4 < 4 ^ 9 ∧
    ofBase 11 (emptiesTo (paintBoard pz.board) 20) < 121 := by
  obtain ⟨hA, hE, hS⟩ := layout_counts pz ha
  have hlen := ha.2.1
  have hp := two_pow_wb hwb
  have hhv : ofBase 4 (codesTo (paintBoard pz.board) 20) < 4 ^ 10 := by
    have := ofBase_lt 4 _ (codesTo_digit (paintBoard pz.board) 20)
    rwa [hA] at this
  have he : ofBase 11 (emptiesTo (paintBoard pz.board) 20) < 11 ^ 2 := by
    have := ofBase_lt 11 _ (fun d hd => by
      have := emptiesTo_digit (paintBoard pz.board) 20 d hd; omega)
    rwa [hE] at this
  have h1 : ofBase 4 (codesTo (paintBoard pz.board) 20) / 4 < 4 ^ 9 := by
    norm_num at hhv ⊢; omega
  refine ⟨?_, h1, by norm_num at he ⊢; exact he⟩
  unfold puzzle.calculate_hashvalue
  rw [hlen, scanGrid_eq, scanTo_spec wb hwb _ 20 (by omega) (by omega)]
  simp only [Nat.shiftRight_eq_div_pow]
  rw [hS, Nat.mod_eq_of_lt]
  · norm_num [Nat.mul_assoc]
  · norm_num at h1 he hp ⊢; omega

/-- The code of a layout is below `S` and its checksum is 12. -/
theorem layout_code (wb : Nat) (hwb : 32 ≤ wb) (pz : puzzle) (ha : pz.layout) :
    hashOf wb pz < S ∧ (pz.calculate_hashvalue wb).2 = 12 ∧
      hashOf wb pz / 121 = ofBase 4 (codesTo (paintBoard pz.board) 20) / 4 ∧
      hashOf wb pz % 121 = ofBase 11 (emptiesTo (paintBoard pz.board) 20) := by
  obtain ⟨h1, h2, h3⟩ := hash_layout wb hwb pz ha
  have hS : S = 4 ^ 9 * 121 := by decide
  unfold hashOf
  rw [h1, hS]
  simp only
  norm_num at h2 ⊢
  omega

/-- A successful move keeps every quantity of the pieces that does not depend
on the position. -/
theorem move_map {α : Type} (f : piece → α) (hf : ∀ t dx dy, f (t.shift dx dy) = f t)
    (pz pz1 : puzzle) (i : Nat) (dx dy : Int) (hm : piece.move pz i dx dy = (true, pz1)) :
    pz1.board.map f = pz.board.map f := by
  rcases move_cases pz i dx dy with h | ⟨t, hi, _, _, h⟩
  · rw [h] at hm; cases hm
  · rw [h] at hm
    cases hm
    apply List.ext_getElem?
    intro k
    simp only [List.getElem?_map, List.getElem?_set]
    split
    · next hik =>
      subst hik
      have hilt : i < pz.board.length := (List.getElem?_eq_some_iff.mp hi).1
      simp [hilt, hi, hf]
    · rfl

/-- A successful move of a layout gives a layout. -/
theorem move_layout (pz pz1 : puzzle) (ha : pz.layout) (i : Nat) (dx dy : Int)
    (hm : piece.move pz i dx dy = (true, pz1)) : pz1.layout := by
  obtain ⟨hl, hlen, harea, hcode⟩ := ha
  refine ⟨move_legal pz pz1 hl i dx dy hm, ?_, ?_, ?_⟩
  · have := congrArg List.length (move_map (fun _ => ()) (fun _ _ _ => rfl) pz pz1 i dx dy hm)
    simpa [hlen] using this
  · rw [move_map (fun t => (t.w * t.h).toNat) (fun _ _ _ => rfl) pz pz1 i dx dy hm, harea]
  · rw [move_map (fun t => t.code - 1) (fun _ _ _ => rfl) pz pz1 i dx dy hm, hcode]

/-- Two well-formed grids with ten anchors, two empty cells and the checksum
12 that give the same code are equal. -/
theorem grid_of_code (G1 G2 : Nat → Nat) (h1 : gridWF G1) (h2 : gridWF G2)
    (a1 : (codesTo G1 20).length = 10) (a2 : (codesTo G2 20).length = 10)
    (e1 : (emptiesTo G1 20).length = 2) (e2 : (emptiesTo G2 20).length = 2)
    (s1 : (codesTo G1 20).sum = 12) (s2 : (codesTo G2 20).sum = 12)
    (hH : ofBase 4 (codesTo G1 20) / 4 = ofBase 4 (codesTo G2 20) / 4)
    (hE : ofBase 11 (emptiesTo G1 20) = ofBase 11 (emptiesTo G2 20)) :
    ∀ q < 20, G1 q = G2 q := by
  apply grid_determined _ _ h1 h2
  · exact codes_inj _ _ a1 a2 (codesTo_digit _ 20) (codesTo_digit _ 20) (by rw [s1, s2]) hH
  · apply ofBase_inj 11 _ _ (by rw [e1, e2]) _ _ hE
    · intro d hd
      have := emptiesTo_digit _ 20 d hd
      omega
    · intro d hd
      have := emptiesTo_digit _ 20 d hd
      omega


/-- What a usable result of the decoder for a code below `S` is built from: a
well-formed grid with ten anchors, two empty cells and the checksum 12 whose
lists of shape codes and empty-cell ranks spell the code. -/
theorem decode_usable (wb : Nat) (hwb : 32 ≤ wb) (c : Nat) (hc : c < S) (sol : piece)
    (pz : puzzle) (h : puzzle.decode wb c 10 sol 12 = some pz) (hill : pz.illegal = 0) :
    ∃ G, gridWF G ∧ (codesTo G 20).length = 10 ∧ (emptiesTo G 20).length = 2 ∧
      (codesTo G 20).sum = 12 ∧ ofBase 4 (codesTo G 20) / 4 = c / 121 ∧
      ofBase 11 (emptiesTo G 20) = c % 121 ∧
      pz.board = (anchorsOf G (List.range 20).reverse).map (pieceAt G) := by
  have hp32 := two_pow_wb hwb
  have hS : S = 4 ^ 9 * 121 := by decide
  have hhv : c / 121 < 4 ^ 9 := by
    rw [hS] at hc
    exact Nat.div_lt_of_lt_mul (by rw [Nat.mul_comm]; exact hc)
  have he0 : c % 121 < 121 := Nat.mod_lt _ (by decide)
  rw [decode_eq] at h
  cases hfin : decodeLoop wb 10 (c / 121) 12 64
      ⟨c % 121, 0, 0, 0, wsub wb 10 1, 0, fun _ => 0, 0⟩ with
  | none => rw [hfin] at h; cases h
  | some fin =>
    rw [hfin] at h
    simp only [Option.map_some', Option.some.injEq] at h
    subst h
    rw [buildBoard_eq] at hill ⊢
    have hmono := build_foldl_illegal_le fin.grid sol (List.range 20).reverse
      ⟨[], if fin.n ≠ 2 ∨ fin.i ≠ 10 ∨ fin.s ≠ 12 then fin.illegal + 1 else fin.illegal, 0⟩
    rw [hill] at hmono
    simp only [Nat.le_zero] at hmono
    have hchk : ¬ (fin.n ≠ 2 ∨ fin.i ≠ 10 ∨ fin.s ≠ 12) := by
      intro h
      rw [if_pos h] at hmono
      omega
    rw [if_neg hchk] at hmono
    have hn : fin.n = 2 := by omega
    have hi : fin.i = 10 := by omega
    have hs : fin.s = 12 := by omega
    have hnd : ¬ doomed fin := by
      unfold doomed
      omega
    obtain ⟨hinv, hp⟩ := decodeLoop_inv wb hwb (c / 121) (c % 121) 12 he0 64 _ fin
      (decInv_init wb hwb _ _ hhv he0) hfin hnd
    have hwf := decInv_gridWF _ _ fin hinv
    have hilen := hinv.ilen
    have hnlen := hinv.nlen
    have hev := hinv.eval
    have hh10 := hinv.hval10 hi
    have hsum := hinv.s_eq
    rw [hp] at hilen hnlen hev hh10 hsum
    rw [hn] at hnlen hev
    rw [hi] at hilen
    rw [hs] at hsum
    have hanch : (anchorsOf fin.grid (List.range 20).reverse).length = 10 := by
      rw [anchorsOf_length, hilen]
    obtain ⟨hb, _⟩ := build_foldl fin.grid sol (List.range 20).reverse
      ⟨[], if fin.n ≠ 2 ∨ fin.i ≠ 10 ∨ fin.s ≠ 12 then fin.illegal + 1 else fin.illegal, 0⟩
      (by simp only [List.length_nil, hanch]; omega)
    simp only [List.nil_append] at hb
    refine ⟨fin.grid, hwf, hilen, hnlen, hsum, hh10, ?_, hb⟩
    rw [hev]
    norm_num

/-- Pieces that cover no common cell of the grid are apart. -/
theorem apart_of_covers (a b : piece)
    (h : ∀ q < 20, ¬ (a.covers q = true ∧ b.covers q = true)) : a.apart b := by
  intro cx hcx cy hcy hc
  simp only [List.mem_range, W, H] at hcx hcy
  apply h (cy * 4 + cx) (by omega)
  simp only [piece.covers, W]
  have e1 : (cy * 4 + cx) % 4 = cx := by omega
  have e2 : (cy * 4 + cx) / 4 = cy := by omega
  rw [e1, e2]
  exact hc

/-- On a legal board every anchor cell of the painted grid is the anchor of a
piece of the board, which covers the footprint of the anchor. -/
theorem anchor_piece (pz : puzzle) (hl : pz.legal) (a : Nat) (ha : a < 20)
    (h0 : 0 < paintBoard pz.board a) (h5 : paintBoard pz.board a < 5) :
    ∃ t ∈ pz.board, t.covers a = true ∧
      ∀ q, q < 20 → (t.covers q = true ↔ inFoot a (paintBoard pz.board a) q) := by
  by_cases hex : ∃ t ∈ pz.board, t.covers a = true
  · obtain ⟨t, ht, hc⟩ := hex
    obtain ⟨a', ha', _, c0, c5, _, _, _, _, _, _, hcov, hpv⟩ :=
      piece_foot t (hl.1 t ht).1 (hl.1 t ht).2
    have hv := paintBoard_covered pz hl a ha t ht hc
    rw [hpv] at hv
    have haa : a = a' := by
      by_contra hne
      rw [if_neg hne] at hv
      omega
    subst haa
    rw [if_pos rfl] at hv
    refine ⟨t, ht, hc, fun q hq => ?_⟩
    rw [hv]
    exact hcov q hq
  · exfalso
    have : paintBoard pz.board a = 0 := by
      apply paintBoard_free pz hl a ha
      intro t' ht'
      by_contra hc
      exact hex ⟨t', ht', by simpa using hc⟩
    omega

/-- The board built from a grid that a legal board paints is legal. -/
theorem build_legal (G : Nat → Nat) (hwf : gridWF G) (b : puzzle) (hb : b.legal)
    (hg : ∀ q < 20, G q = paintBoard b.board q) (ill fin : Nat) :
    (⟨(anchorsOf G (List.range 20).reverse).map (pieceAt G), ill, fin⟩ : puzzle).legal := by
  obtain ⟨w1, w2, w3⟩ := hwf
  have hspec : ∀ a, a < 20 → 0 < G a → G a < 5 → _ := fun a ha h0 h5 =>
    pieceAt_spec G a ha h0 h5 (w2 a ha h0 h5).1 (w2 a ha h0 h5).2.1
  constructor
  · intro t ht
    obtain ⟨a, ha, rfl⟩ := List.mem_map.mp ht
    obtain ⟨h1, h2, h3⟩ := (mem_anchorsOf G 20 a).mp ha
    exact ⟨(hspec a h1 h2 h3).1, (hspec a h1 h2 h3).2.1⟩
  · show List.Pairwise piece.apart ((anchorsOf G (List.range 20).reverse).map (pieceAt G))
    rw [List.pairwise_map]
    have hnd : (anchorsOf G (List.range 20).reverse).Nodup := by
      unfold anchorsOf
      exact List.Nodup.filter _ (List.nodup_reverse.mpr (List.nodup_range 20))
    apply List.Nodup.pairwise_of_forall_ne hnd
    intro a1 ha1 a2 ha2 hne
    obtain ⟨p1, p2, p3⟩ := (mem_anchorsOf G 20 a1).mp ha1
    obtain ⟨q1, q2, q3⟩ := (mem_anchorsOf G 20 a2).mp ha2
    apply apart_of_covers
    rintro q hq ⟨c1, c2⟩
    have f1 := ((hspec a1 p1 p2 p3).2.2.1 q hq).mp c1
    have f2 := ((hspec a2 q1 q2 q3).2.2.1 q hq).mp c2
    rw [hg a1 p1] at p2 p3 f1
    rw [hg a2 q1] at q2 q3 f2
    obtain ⟨t1, ht1, ca1, hc1⟩ := anchor_piece b hb a1 p1 p2 p3
    obtain ⟨t2, ht2, ca2, hc2⟩ := anchor_piece b hb a2 q1 q2 q3
    have e12 : t1 = t2 :=
      legal_cover_unique b hb q hq t1 t2 ht1 ht2 ((hc1 q hq).mpr f1) ((hc2 q hq).mpr f2)
    subst e12
    -- one piece with two anchors
    obtain ⟨a', _, _, _, c5, _, _, _, _, _, _, _, hpv⟩ := piece_foot t1 (hb.1 t1 ht1).1 (hb.1 t1 ht1).2
    have v1 := paintBoard_covered b hb a1 p1 t1 ht1 ca1
    have v2 := paintBoard_covered b hb a2 q1 t1 ht1 ca2
    rw [hpv] at v1 v2
    have e1 : a1 = a' := by
      by_contra hne'
      rw [if_neg hne'] at v1
      omega
    have e2 : a2 = a' := by
      by_contra hne'
      rw [if_neg hne'] at v2
      omega
    exact hne (e1.trans e2.symm)

/-- A usable result of decoding the code of a layout is a layout with the
same code. -/
theorem decoded_layout (wb : Nat) (hwb : 32 ≤ wb) (b : puzzle) (hb : b.layout) (sol : piece)
    (pz : puzzle) (h : puzzle.decode wb (hashOf wb b) 10 sol 12 = some pz)
    (hill : pz.illegal = 0) :
    pz.layout ∧ hashOf wb pz = hashOf wb b := by
  obtain ⟨hcS, _, hc1, hc2⟩ := layout_code wb hwb b hb
  obtain ⟨bA, bE, bS⟩ := layout_counts b hb
  obtain ⟨G, hwf, gA, gE, gS, gH, gEv, hboard⟩ :=
    decode_usable wb hwb (hashOf wb b) hcS sol pz h hill
  have hg : ∀ q < 20, G q = paintBoard b.board q :=
    grid_of_code G _ hwf (legal_gridWF b hb.1) gA bA gE bE gS bS (by rw [gH, hc1])
      (by rw [gEv, hc2])
  have hleg : pz.legal := by
    have := build_legal G hwf b hb.1 hg pz.illegal pz.final
    rw [← hboard] at this
    exact this
  have hpaint : ∀ q < 20, paintBoard pz.board q = G q := by
    intro q hq
    rw [hboard]
    exact paint_build G hwf q hq
  have hlay : pz.layout := by
    obtain ⟨k1, k2, k3⟩ := legal_counts pz hleg
    rw [codesTo_congr _ G 20 hpaint] at k1 k3
    rw [emptiesTo_congr _ G 20 hpaint] at k2
    exact ⟨hleg, by omega, by omega, by omega⟩
  refine ⟨hlay, ?_⟩
  obtain ⟨_, _, d1, d2⟩ := layout_code wb hwb pz hlay
  rw [codesTo_congr _ G 20 hpaint, gH] at d1
  rw [emptiesTo_congr _ G 20 hpaint, gEv] at d2
  have := Nat.div_add_mod (hashOf wb pz) 121
  have := Nat.div_add_mod (hashOf wb b) 121
  omega

/-! ## Flags of the hashtable -/

/-- Setting flags outside a mask does not change the masked entry. -/
theorem or_and_mask (x a m : Nat) (h : a &&& m = 0) : (x ||| a) &&& m = x &&& m := by
  rw [Nat.and_comm, Nat.and_or_distrib_left, Nat.and_comm m a, h, Nat.or_zero, Nat.and_comm]

/-- A flag that has been set is set. -/
theorem or_and_self (x a : Nat) (ha : a ≠ 0) : (x ||| a) &&& a ≠ 0 := by
  rw [Nat.and_comm, Nat.and_or_distrib_left, Nat.and_self]
  intro h
  apply ha
  apply Nat.eq_of_testBit_eq
  intro i
  have := congrArg (fun n => n.testBit i) h
  simp only [Nat.testBit_or, Nat.zero_testBit, Bool.or_eq_false_iff] at this
  rw [this.2, Nat.zero_testBit]

/-- A part of a mask sees what the mask sees. -/
theorem and_sub_mask (x m a v : Nat) (hx : x &&& m = v) (ha : m &&& a = a) :
    x &&& a = v &&& a := by
  rw [← hx, Nat.and_assoc, ha]

theorem markReached_mode (wb : Nat) (g : globals) (w : puzzle) (from_ : Nat) :
    (markReached wb g w from_).mode = g.mode := by
  unfold markReached
  split_ifs <;> rfl

theorem markReached_sum (wb : Nat) (g : globals) (w : puzzle) (from_ : Nat) :
    (markReached wb g w from_).sum = (w.calculate_hashvalue wb).2 := by
  unfold markReached
  split_ifs <;> rfl

/-- The entries of the tables after one candidate of `solve` in scan mode. -/
theorem markReached_tables (wb : Nat) (g : globals) (w : puzzle) (from_ c : Nat) :
    ((markReached wb g w from_).hashtable c =
        if c = hashOf wb w ∧ ¬ reached g c then g.hashtable c ||| REACHED else g.hashtable c) ∧
    ((markReached wb g w from_).backtrace c =
        if c = hashOf wb w ∧ ¬ reached g c then from_ else g.backtrace c) := by
  unfold markReached reached
  by_cases h : g.hashtable (hashOf wb w) &&& REACHED = 0
  · rw [if_pos h]
    by_cases hc : c = hashOf wb w
    · subst hc
      simp [h]
    · simp [hc, Function.update_noteq hc]
  · rw [if_neg h]
    by_cases hc : c = hashOf wb w
    · subst hc
      simp [h]
    · simp [hc]

/-- The loop of `solve` in scan mode on a legal board: it fails, returns the
board unchanged, and every property of the statics that each successor of the
board keeps holds at the end. -/
theorem solveLoop_scan (wb : Nat) (recur : puzzle → globals → Bool × puzzle × globals)
    (depth from_ : Nat) (pz : puzzle) (hl : pz.legal) (P : globals → Prop)
    (hstep : ∀ (g : globals) (i : Nat) (dy dx : Int) (w : puzzle), P g → g.mode = mode.scan →
      unitStep dx dy → piece.move pz i dx dy = (true, w) → P (markReached wb g w from_))
    (cands : List (Nat × Int × Int)) (hu : ∀ m ∈ cands, unitStep m.2.2 m.2.1) :
    ∀ g : globals, g.mode = mode.scan → P g →
      (solveLoop wb recur depth from_ cands pz g).1 = false ∧
      (solveLoop wb recur depth from_ cands pz g).2.1 = pz ∧
      (solveLoop wb recur depth from_ cands pz g).2.2.mode = mode.scan ∧
      P (solveLoop wb recur depth from_ cands pz g).2.2 := by
  induction cands with
  | nil => intro g hm hP; rw [solveLoop_nil]; exact ⟨rfl, rfl, hm, hP⟩
  | cons c rest ih =>
    obtain ⟨i, dy, dx⟩ := c
    intro g hmode hP
    have hu' : ∀ m ∈ rest, unitStep m.2.2 m.2.1 := fun m hm => hu m (List.mem_cons_of_mem _ hm)
    rcases hm : piece.move pz i dx dy with ⟨ok, w⟩
    cases ok with
    | false =>
      have hw : w = pz := move_false pz w i dx dy hm
      subst hw
      rw [solveLoop_cons_skip wb recur depth from_ i dy dx rest w g hm]
      exact ih hu' g hmode hP
    | true =>
      have hback : (piece.move w i (-dx) (-dy)).2 = pz := by
        rw [move_undo pz w hl i dx dy hm]
      rw [solveLoop_cons_scan wb recur depth from_ i dy dx rest pz w g hmode hm, hback]
      exact ih hu' (markReached wb g w from_) (by rw [markReached_mode]; exact hmode)
        (hstep g i dy dx w hP hmode (hu (i, dy, dx) (List.mem_cons_self _ _)) hm)

/-- The loop of `solve` in scan mode on any board: every property of the
statics that marking a code keeps holds at the end. -/
theorem solveLoop_scan_any (wb : Nat) (recur : puzzle → globals → Bool × puzzle × globals)
    (depth from_ : Nat) (P : globals → Prop)
    (hstep : ∀ (g : globals) (w : puzzle), P g → g.mode = mode.scan →
      P (markReached wb g w from_))
    (cands : List (Nat × Int × Int)) :
    ∀ (pz : puzzle) (g : globals), g.mode = mode.scan → P g →
      (solveLoop wb recur depth from_ cands pz g).1 = false ∧
      (solveLoop wb recur depth from_ cands pz g).2.2.mode = mode.scan ∧
      P (solveLoop wb recur depth from_ cands pz g).2.2 := by
  induction cands with
  | nil => intro pz g hm hP; rw [solveLoop_nil]; exact ⟨rfl, hm, hP⟩
  | cons c rest ih =>
    obtain ⟨i, dy, dx⟩ := c
    intro pz g hmode hP
    rcases hm : piece.move pz i dx dy with ⟨ok, w⟩
    cases ok with
    | false =>
      have hw : w = pz := move_false pz w i dx dy hm
      subst hw
      rw [solveLoop_cons_skip wb recur depth from_ i dy dx rest w g hm]
      exact ih w g hmode hP
    | true =>
      rw [solveLoop_cons_scan wb recur depth from_ i dy dx rest pz w g hmode hm]
      exact ih _ (markReached wb g w from_) (by rw [markReached_mode]; exact hmode)
        (hstep g w hP hmode)

/-- The first `if` of the body of the scan loop keeps every property that
setting the flag FOUND keeps. -/
theorem markFound_rule (P : globals → Prop) (i : Nat)
    (hflag : ∀ (g : globals) (a : Nat), P g → a = FOUND ∨ a = EXPANDED →
      P { g with hashtable := Function.update g.hashtable i (g.hashtable i ||| a) })
    (st : scanState) (hP : P st.g) : P (markFound st i).g := by
  unfold markFound
  split_ifs
  · exact hflag st.g FOUND hP (Or.inl rfl)
  · exact hP

/-- The flags LEGAL and REACHED of the code after the first `if` of the body
of the scan loop. -/
theorem markFound_flags (st : scanState) (i : Nat) :
    (markFound st i).g.hashtable i &&& LEGAL = st.g.hashtable i &&& LEGAL ∧
    (markFound st i).g.hashtable i &&& REACHED = st.g.hashtable i &&& REACHED ∧
    (markFound st i).g.hashtable i &&& EXPANDED = st.g.hashtable i &&& EXPANDED := by
  unfold markFound
  split_ifs
  · simp only [Function.update_same]
    exact ⟨or_and_mask _ FOUND LEGAL (by decide), or_and_mask _ FOUND REACHED (by decide),
      or_and_mask _ FOUND EXPANDED (by decide)⟩
  · exact ⟨rfl, rfl, rfl⟩

/-- A code that the body of the scan loop expands is marked REACHED and not
marked EXPANDED. -/
theorem expand_cond (x : Nat) (hx : x &&& (REACHED ||| FINAL ||| EXPANDED) = REACHED) :
    x &&& REACHED ≠ 0 ∧ x &&& EXPANDED = 0 := by
  constructor
  · rw [and_sub_mask x _ REACHED _ hx (by decide)]
    decide
  · rw [and_sub_mask x _ EXPANDED _ hx (by decide)]
    decide

/-- The body of the scan loop keeps every property of the statics that is
kept by setting the flag FOUND or EXPANDED and by the expansion of a code that
is marked LEGAL and REACHED. -/
theorem scanBody_rule (wb : Nat) (all : Int) (pieces walkFuel : Nat) (P : globals → Prop)
    (i : Nat)
    (hflag : ∀ (g : globals) (a : Nat), P g → a = FOUND ∨ a = EXPANDED →
      P { g with hashtable := Function.update g.hashtable i (g.hashtable i ||| a) })
    (hsolve : ∀ (g : globals) (p : puzzle), P g → g.hashtable i &&& LEGAL ≠ 0 →
      reached g i → puzzle.decode wb i pieces piece.default g.sum = some p →
      P (puzzle.solve wb 1 i p g).2.2)
    (st : scanState) (brk : Bool) (st1 : scanState) (hP : P st.g)
    (h : scanBody wb all pieces walkFuel st i = some (brk, st1)) : P st1.g := by
  have hPf := markFound_rule P i hflag st hP
  obtain ⟨f1, f2, _⟩ := markFound_flags st i
  unfold scanBody at h
  by_cases h1 : st.g.hashtable i &&& LEGAL ≠ 0
  · rw [if_pos h1] at h
    by_cases h2 : st.g.hashtable i &&& (REACHED ||| FINAL ||| FOUND) = (REACHED ||| FINAL) ∧ all = 0
    · rw [if_pos h2] at h
      cases hpp : printPath (markFound st i).g.backtrace walkFuel i with
      | none => rw [hpp] at h; cases h
      | some l =>
        rw [hpp] at h
        simp only [Option.map_some', Option.some.injEq, Prod.mk.injEq] at h
        rw [← h.2]
        exact hPf
    · rw [if_neg h2] at h
      by_cases h3 : (markFound st i).g.hashtable i &&& (REACHED ||| FINAL ||| EXPANDED) = REACHED
      · rw [if_pos h3] at h
        cases hd : puzzle.decode wb i pieces piece.default (markFound st i).g.sum with
        | none => rw [hd] at h; cases h
        | some p =>
          rw [hd] at h
          simp only [Option.some.injEq, Prod.mk.injEq] at h
          rw [← h.2]
          unfold expandCode
          apply hflag _ EXPANDED _ (Or.inr rfl)
          exact hsolve _ p hPf (by rw [f1]; exact h1) (expand_cond _ h3).1 hd
      · rw [if_neg h3] at h
        simp only [Option.some.injEq, Prod.mk.injEq] at h
        rw [← h.2]
        exact hPf
  · rw [if_neg h1] at h
    simp only [Option.some.injEq, Prod.mk.injEq] at h
    rw [← h.2]
    exact hP

/-- The loop body over a list of codes keeps what the body keeps. -/
theorem scanRound_rule (wb : Nat) (all : Int) (pieces walkFuel : Nat) (P : scanState → Prop)
    (l : List Nat)
    (hbody : ∀ (st : scanState) (i : Nat) (brk : Bool) (st1 : scanState), i ∈ l → P st →
      scanBody wb all pieces walkFuel st i = some (brk, st1) → P st1) :
    ∀ (st : scanState) (r : Bool × scanState), P st →
      scanRound wb all pieces walkFuel l st = some r → P r.2 := by
  induction l with
  | nil =>
    intro st r hP h
    simp only [scanRound, Option.some.injEq] at h
    rw [← h]; exact hP
  | cons i rest ih =>
    intro st r hP h
    rw [scanRound] at h
    cases hb : scanBody wb all pieces walkFuel st i with
    | none => rw [hb] at h; cases h
    | some x =>
      obtain ⟨brk, st1⟩ := x
      rw [hb] at h
      have hP1 := hbody st i brk st1 (List.mem_cons_self _ _) hP hb
      cases brk with
      | true =>
        simp only [Option.some.injEq] at h
        rw [← h]; exact hP1
      | false =>
        simp only at h
        exact ih (fun st i brk st1 hi => hbody st i brk st1 (List.mem_cons_of_mem _ hi)) st1 r hP1 h

theorem mem_allCodes (i : Nat) : i ∈ allCodes ↔ i < S := by
  unfold allCodes
  exact List.mem_range

theorem allCodes_nodup : allCodes.Nodup := by
  unfold allCodes
  exact List.nodup_range S

theorem solve_one (wb from_ : Nat) (pz : puzzle) (g : globals) :
    puzzle.solve wb 1 from_ pz g =
      solveLoop wb (puzzle.solve wb 0 0) 1 from_ (candidates pz.board.length) pz g := rfl

theorem candidates_unit (n : Nat) : ∀ m ∈ candidates n, unitStep m.2.2 m.2.1 := by
  rintro ⟨i, dy, dx⟩ hm
  exact ((mem_candidates n i dy dx).mp hm).2

/-- Marking a code keeps the codes that are marked REACHED and their
predecessors. -/
theorem markReached_frame (wb : Nat) (g : globals) (w : puzzle) (from_ c : Nat)
    (hc : reached g c) :
    (markReached wb g w from_).hashtable c = g.hashtable c ∧
      (markReached wb g w from_).backtrace c = g.backtrace c ∧
      reached (markReached wb g w from_) c := by
  obtain ⟨h1, h2⟩ := markReached_tables wb g w from_ c
  have hn : ¬ (c = hashOf wb w ∧ ¬ reached g c) := fun h => h.2 hc
  rw [if_neg hn] at h1 h2
  refine ⟨h1, h2, ?_⟩
  unfold reached at hc ⊢
  rw [h1]
  exact hc

/-- After a code has been marked it is marked REACHED. -/
theorem markReached_reached (wb : Nat) (g : globals) (w : puzzle) (from_ : Nat) :
    reached (markReached wb g w from_) (hashOf wb w) := by
  by_cases hc : reached g (hashOf wb w)
  · exact (markReached_frame wb g w from_ _ hc).2.2
  · obtain ⟨h1, _⟩ := markReached_tables wb g w from_ (hashOf wb w)
    rw [if_pos ⟨rfl, hc⟩] at h1
    unfold reached
    rw [h1]
    exact or_and_self _ REACHED (by decide)

/-- Marking a code relative to the statics `g0` at the start of `solve`: every
entry is as in `g0`, or the code was not marked REACHED in `g0` and now is,
with the predecessor `from`. -/
theorem markReached_step (wb : Nat) (g0 g : globals) (w : puzzle) (from_ : Nat) (Q : Nat → Prop)
    (hQ : Q (hashOf wb w))
    (hP : ∀ c, (g.hashtable c = g0.hashtable c ∧ g.backtrace c = g0.backtrace c) ∨
      (¬ reached g0 c ∧ g.hashtable c = g0.hashtable c ||| REACHED ∧ g.backtrace c = from_ ∧
        Q c)) :
    ∀ c, ((markReached wb g w from_).hashtable c = g0.hashtable c ∧
        (markReached wb g w from_).backtrace c = g0.backtrace c) ∨
      (¬ reached g0 c ∧ (markReached wb g w from_).hashtable c = g0.hashtable c ||| REACHED ∧
        (markReached wb g w from_).backtrace c = from_ ∧ Q c) := by
  intro c
  obtain ⟨h1, h2⟩ := markReached_tables wb g w from_ c
  by_cases hn : c = hashOf wb w ∧ ¬ reached g c
  · rw [if_pos hn] at h1 h2
    rcases hP c with ⟨e1, _⟩ | ⟨_, e1, _, _⟩
    · right
      refine ⟨?_, by rw [h1, e1], h2, by rw [hn.1]; exact hQ⟩
      unfold reached at hn ⊢
      rw [← e1]
      exact hn.2
    · exfalso
      apply hn.2
      unfold reached
      rw [e1]
      exact or_and_self _ REACHED (by decide)
  · rw [if_neg hn] at h1 h2
    rw [h1, h2]
    exact hP c

/-- On a legal board `solve(1, from)` in scan mode marks the code of every
successor. -/
theorem solveLoop_scan_marks (wb : Nat) (recur : puzzle → globals → Bool × puzzle × globals)
    (depth from_ : Nat) (pz : puzzle) (hl : pz.legal) (cands : List (Nat × Int × Int))
    (hu : ∀ m ∈ cands, unitStep m.2.2 m.2.1) :
    ∀ g : globals, g.mode = mode.scan →
      ∀ (i : Nat) (dy dx : Int) (w : puzzle), (i, dy, dx) ∈ cands →
        piece.move pz i dx dy = (true, w) →
        reached (solveLoop wb recur depth from_ cands pz g).2.2 (hashOf wb w) := by
  induction cands with
  | nil => intro g _ i dy dx w hm; cases hm
  | cons c rest ih =>
    obtain ⟨i0, dy0, dx0⟩ := c
    intro g hmode i dy dx w hmem hmove
    have hu' : ∀ m ∈ rest, unitStep m.2.2 m.2.1 := fun m hm => hu m (List.mem_cons_of_mem _ hm)
    rcases hm : piece.move pz i0 dx0 dy0 with ⟨ok, w0⟩
    cases ok with
    | false =>
      have hw : w0 = pz := move_false pz w0 i0 dx0 dy0 hm
      subst hw
      rw [solveLoop_cons_skip wb recur depth from_ i0 dy0 dx0 rest w0 g hm]
      rcases List.mem_cons.mp hmem with heq | hin
      · cases heq
        rw [hm] at hmove
        cases hmove
      · exact ih hu' g hmode i dy dx w hin hmove
    | true =>
      have hback : (piece.move w0 i0 (-dx0) (-dy0)).2 = pz := by
        rw [move_undo pz w0 hl i0 dx0 dy0 hm]
      rw [solveLoop_cons_scan wb recur depth from_ i0 dy0 dx0 rest pz w0 g hmode hm, hback]
      have hmode1 : (markReached wb g w0 from_).mode = mode.scan := by
        rw [markReached_mode]; exact hmode
      rcases List.mem_cons.mp hmem with heq | hin
      · cases heq
        rw [hm] at hmove
        cases hmove
        exact (solveLoop_scan wb recur depth from_ pz hl (fun g1 => reached g1 (hashOf wb w))
          (fun g1 _ _ _ w1 h1 _ _ _ => (markReached_frame wb g1 w1 from_ _ h1).2.2)
          rest hu' _ hmode1 (markReached_reached wb g w from_)).2.2.2
      · exact ih hu' _ hmode1 i dy dx w hin hmove

/-- Setting the flag FOUND or EXPANDED keeps the flag REACHED. -/
theorem flag_reached (x a : Nat) (ha : a = FOUND ∨ a = EXPANDED) :
    (x ||| a) &&& REACHED = x &&& REACHED := by
  rcases ha with rfl | rfl <;> exact or_and_mask _ _ _ (by decide)

/-- The body of the scan loop in scan mode stays in scan mode, keeps the
codes that are marked REACHED and does not change their predecessors. -/
theorem scanBody_frame (wb : Nat) (all : Int) (pieces walkFuel : Nat) (g0 : globals)
    (st : scanState) (i : Nat) (brk : Bool) (st1 : scanState)
    (hP : st.g.mode = mode.scan ∧
      ∀ c, reached g0 c → reached st.g c ∧ st.g.backtrace c = g0.backtrace c)
    (h : scanBody wb all pieces walkFuel st i = some (brk, st1)) :
    st1.g.mode = mode.scan ∧
      ∀ c, reached g0 c → reached st1.g c ∧ st1.g.backtrace c = g0.backtrace c := by
  apply scanBody_rule wb all pieces walkFuel
    (fun g => g.mode = mode.scan ∧ ∀ c, reached g0 c → reached g c ∧ g.backtrace c = g0.backtrace c)
    i _ _ st brk st1 hP h
  · rintro g a ⟨hm, hf⟩ ha
    refine ⟨hm, fun c hc => ⟨?_, (hf c hc).2⟩⟩
    have := (hf c hc).1
    unfold reached at this ⊢
    simp only
    by_cases hcj : c = i
    · subst hcj
      rw [Function.update_same, flag_reached _ a ha]
      exact this
    · rw [Function.update_noteq hcj]
      exact this
  · rintro g p ⟨hm, hf⟩ _ _ _
    rw [solve_one]
    obtain ⟨_, k2, k3⟩ := solveLoop_scan_any wb (puzzle.solve wb 0 0) 1 i
      (fun g1 => ∀ c, reached g0 c → reached g1 c ∧ g1.backtrace c = g0.backtrace c)
      (fun g1 w h1 _ c hc => by
        obtain ⟨_, f2, f3⟩ := markReached_frame wb g1 w i c (h1 c hc).1
        exact ⟨f3, by rw [f2]; exact (h1 c hc).2⟩)
      (candidates p.board.length) p g hm hf
    exact ⟨k2, k3⟩

/-- The loop of the scan in scan mode keeps the codes that are marked REACHED
and does not change their predecessors. -/
theorem scanLoop_frame (wb : Nat) (all : Int) (pieces walkFuel : Nat) (codes : List Nat)
    (g0 : globals) (fuel : Nat) :
    ∀ (g : globals) (solved total : Nat) (r : globals × Nat × Nat),
      (g.mode = mode.scan ∧ ∀ c, reached g0 c → reached g c ∧ g.backtrace c = g0.backtrace c) →
      scanLoop wb all pieces walkFuel codes fuel g solved total = some r →
      ∀ c, reached g0 c → reached r.1 c ∧ r.1.backtrace c = g0.backtrace c := by
  induction fuel with
  | zero => intro g solved total r _ h; simp [scanLoop] at h
  | succ fuel ih =>
    intro g solved total r hP h
    rw [scanLoop] at h
    cases hr : scanRound wb all pieces walkFuel codes ⟨g, solved, 0⟩ with
    | none => rw [hr] at h; cases h
    | some x =>
      obtain ⟨brk, st⟩ := x
      rw [hr] at h
      have hst := scanRound_rule wb all pieces walkFuel
        (fun st => st.g.mode = mode.scan ∧
          ∀ c, reached g0 c → reached st.g c ∧ st.g.backtrace c = g0.backtrace c)
        codes
        (fun st i brk st1 _ hP hb => scanBody_frame wb all pieces walkFuel g0 st i brk st1 hP hb)
        ⟨g, solved, 0⟩ (brk, st) hP hr
      simp only at h
      split_ifs at h
      · simp only [Option.some.injEq] at h
        rw [← h]; exact hst.2
      · simp only [Option.some.injEq] at h
        rw [← h]; exact hst.2
      · exact ih st.g st.solved _ r hst h

/-- C14: first writer wins.  In scan mode `solve(1, from)` leaves the entry
and the predecessor of every code that is marked REACHED unchanged; an entry
or predecessor that it changes belongs to a code that was not marked REACHED,
which is then marked REACHED and has the predecessor `from`.  On a legal board
the codes changed are successor codes of the board, and every successor code
is marked REACHED afterwards, with the predecessor `from` if it was not marked
before.  The loop of the scan never changes the predecessor of a code that is
marked REACHED nor clears the mark, so the predecessor of a code is written at
most once during a scan. -/
theorem first_writer_wins (wb from_ : Nat) (pz : puzzle) (g : globals)
    (hmode : g.mode = mode.scan) :
    (∀ c, reached g c →
      (puzzle.solve wb 1 from_ pz g).2.2.hashtable c = g.hashtable c ∧
      (puzzle.solve wb 1 from_ pz g).2.2.backtrace c = g.backtrace c) ∧
    (∀ c, (puzzle.solve wb 1 from_ pz g).2.2.hashtable c ≠ g.hashtable c ∨
        (puzzle.solve wb 1 from_ pz g).2.2.backtrace c ≠ g.backtrace c →
      ¬ reached g c ∧
      (puzzle.solve wb 1 from_ pz g).2.2.hashtable c = g.hashtable c ||| REACHED ∧
      (puzzle.solve wb 1 from_ pz g).2.2.backtrace c = from_) ∧
    (pz.legal →
      (∀ c, (puzzle.solve wb 1 from_ pz g).2.2.hashtable c ≠ g.hashtable c ∨
          (puzzle.solve wb 1 from_ pz g).2.2.backtrace c ≠ g.backtrace c →
        successorCode wb pz c) ∧
      (∀ c, successorCode wb pz c →
        reached (puzzle.solve wb 1 from_ pz g).2.2 c ∧
        (¬ reached g c → (puzzle.solve wb 1 from_ pz g).2.2.backtrace c = from_))) ∧
    (∀ (all : Int) (pieces walkFuel : Nat) (codes : List Nat) (fuel solved total : Nat)
        (r : globals × Nat × Nat),
      scanLoop wb all pieces walkFuel codes fuel g solved total = some r →
      ∀ c, reached g c → reached r.1 c ∧ r.1.backtrace c = g.backtrace c) := by
  have hany := (solveLoop_scan_any wb (puzzle.solve wb 0 0) 1 from_
    (fun g1 => ∀ c, (g1.hashtable c = g.hashtable c ∧ g1.backtrace c = g.backtrace c) ∨
      (¬ reached g c ∧ g1.hashtable c = g.hashtable c ||| REACHED ∧ g1.backtrace c = from_ ∧
        True))
    (fun g1 w h1 _ => markReached_step wb g g1 w from_ (fun _ => True) trivial h1)
    (candidates pz.board.length) pz g hmode (fun c => Or.inl ⟨rfl, rfl⟩)).2.2
  rw [← solve_one] at hany
  have hsplit : ∀ (Q : Nat → Prop),
      (∀ c, ((puzzle.solve wb 1 from_ pz g).2.2.hashtable c = g.hashtable c ∧
          (puzzle.solve wb 1 from_ pz g).2.2.backtrace c = g.backtrace c) ∨
        (¬ reached g c ∧
          (puzzle.solve wb 1 from_ pz g).2.2.hashtable c = g.hashtable c ||| REACHED ∧
          (puzzle.solve wb 1 from_ pz g).2.2.backtrace c = from_ ∧ Q c)) →
      ∀ c, (puzzle.solve wb 1 from_ pz g).2.2.hashtable c ≠ g.hashtable c ∨
          (puzzle.solve wb 1 from_ pz g).2.2.backtrace c ≠ g.backtrace c →
        ¬ reached g c ∧
        (puzzle.solve wb 1 from_ pz g).2.2.hashtable c = g.hashtable c ||| REACHED ∧
        (puzzle.solve wb 1 from_ pz g).2.2.backtrace c = from_ ∧ Q c := by
    intro Q hQ c hch
    rcases hQ c with ⟨e1, e2⟩ | h
    · rcases hch with h1 | h2
      · exact absurd e1 h1
      · exact absurd e2 h2
    · exact h
  refine ⟨?_, ?_, ?_, ?_⟩
  · intro c hc
    rcases hany c with h | ⟨h, _⟩
    · exact h
    · exact absurd hc h
  · intro c hch
    obtain ⟨h1, h2, h3, _⟩ := hsplit (fun _ => True) hany c hch
    exact ⟨h1, h2, h3⟩
  · intro hl
    have hleg := (solveLoop_scan wb (puzzle.solve wb 0 0) 1 from_ pz hl
      (fun g1 => ∀ c, (g1.hashtable c = g.hashtable c ∧ g1.backtrace c = g.backtrace c) ∨
        (¬ reached g c ∧ g1.hashtable c = g.hashtable c ||| REACHED ∧ g1.backtrace c = from_ ∧
          successorCode wb pz c))
      (fun g1 i dy dx w h1 _ hu hm =>
        markReached_step wb g g1 w from_ (successorCode wb pz) ⟨i, dy, dx, w, hu, hm, rfl⟩ h1)
      (candidates pz.board.length) (candidates_unit _) g hmode (fun c => Or.inl ⟨rfl, rfl⟩)).2.2.2
    rw [← solve_one] at hleg
    refine ⟨fun c hch => (hsplit _ hleg c hch).2.2.2, ?_⟩
    rintro c ⟨i, dy, dx, w, hu, hm, rfl⟩
    have hilt : i < pz.board.length := by
      rcases move_cases pz i dx dy with h | ⟨t, hi, _, _, _⟩
      · rw [h] at hm; cases hm
      · exact (List.getElem?_eq_some_iff.mp hi).1
    have hr := solveLoop_scan_marks wb (puzzle.solve wb 0 0) 1 from_ pz hl
      (candidates pz.board.length) (candidates_unit _) g hmode i dy dx w
      ((mem_candidates _ i dy dx).mpr ⟨hilt, hu⟩) hm
    rw [← solve_one] at hr
    refine ⟨hr, fun hn => ?_⟩
    apply (hsplit _ hleg (hashOf wb w) (Or.inl ?_)).2.2.1
    intro heq
    apply hn
    unfold reached at hr ⊢
    rw [← heq]
    exact hr
  · intro all pieces walkFuel codes fuel solved total r h
    exact scanLoop_frame wb all pieces walkFuel codes g fuel g solved total r
      ⟨hmode, fun c hc => ⟨hc, rfl⟩⟩ h

set_option maxRecDepth 100000 in
theorem first_writer_wins_witness :
    seenTable.mode = mode.scan ∧ puzzle.start.legal ∧
      successorCode 32 puzzle.start 22985208 ∧ reached seenTable 22985208 ∧
      successorCode 32 puzzle.start 22985196 ∧ ¬ reached seenTable 22985196 ∧
      (puzzle.solve 32 1 22985197 puzzle.start seenTable).2.2.hashtable 22985208 =
        LEGAL ||| REACHED ∧
      (puzzle.solve 32 1 22985197 puzzle.start seenTable).2.2.backtrace 22985208 = 7 ∧
      reached (puzzle.solve 32 1 22985197 puzzle.start seenTable).2.2 22985196 ∧
      (puzzle.solve 32 1 22985197 puzzle.start seenTable).2.2.backtrace 22985196 = 22985197 :=
  have h := first_writer_wins 32 22985197 puzzle.start seenTable rfl
  have hl : puzzle.start.legal := by decide
  have s1 : successorCode 32 puzzle.start 22985208 :=
    ⟨1, 0, -1, (piece.move puzzle.start 1 (-1) 0).2, by decide, by decide, by decide⟩
  have s2 : successorCode 32 puzzle.start 22985196 :=
    ⟨1, 0, 1, (piece.move puzzle.start 1 1 0).2, by decide, by decide, by decide⟩
  have r1 : reached seenTable 22985208 := by decide
  have r2 : ¬ reached seenTable 22985196 := by decide
  ⟨rfl, hl, s1, r1, s2, r2, (h.1 _ r1).1, (h.1 _ r1).2, ((h.2.2.1 hl).2 _ s2).1,
    ((h.2.2.1 hl).2 _ s2).2 r2⟩

/-! ## The invariant of the scan -/

/-- The decoder returns a puzzle for every code, checksum and solution
piece. -/
theorem decode_some (wb : Nat) (hwb : 32 ≤ wb) (c sum : Nat) (sol : piece) :
    ∃ pz, puzzle.decode wb c 10 sol sum = some pz := by
  have hp := two_pow_wb hwb
  have hr : wsub wb 10 1 = 9 := by
    rw [wsub_of_le wb 10 1 (by omega) (by omega)]
  rw [decode_eq]
  obtain ⟨fin, hfin⟩ := decodeLoop_total wb hwb (c / 121) sum 64
    ⟨c % 121, 0, 0, 0, wsub wb 10 1, 0, fun _ => 0, 0⟩ (by simp [hr]) (by
      unfold decMeasure
      simp only [hr]
      split_ifs <;> omega)
  rw [hfin]
  exact ⟨_, rfl⟩

/-- The board and the illegality counter built by the final loops of the
decoder do not depend on the solution piece. -/
theorem buildCell_sol (G : Nat → Nat) (sol1 sol2 : piece) (pz1 pz2 : puzzle) (y x : Nat)
    (h : pz1.board = pz2.board ∧ pz1.illegal = pz2.illegal) :
    (buildCell G sol1 pz1 y x).board = (buildCell G sol2 pz2 y x).board ∧
      (buildCell G sol1 pz1 y x).illegal = (buildCell G sol2 pz2 y x).illegal := by
  unfold buildCell puzzle.add
  simp only [h.1, h.2]
  split_ifs <;> first | exact ⟨rfl, rfl⟩ | exact h

theorem foldl_rel {α β : Type} (R : β → β → Prop) (f1 f2 : β → α → β)
    (h : ∀ a b1 b2, R b1 b2 → R (f1 b1 a) (f2 b2 a)) (l : List α) :
    ∀ b1 b2, R b1 b2 → R (l.foldl f1 b1) (l.foldl f2 b2) := by
  induction l with
  | nil => intro b1 b2 hb; exact hb
  | cons a rest ih => intro b1 b2 hb; exact ih _ _ (h a b1 b2 hb)

theorem buildBoard_sol (G : Nat → Nat) (sol1 sol2 : piece) (pz : puzzle) :
    (buildBoard G sol1 pz).board = (buildBoard G sol2 pz).board ∧
      (buildBoard G sol1 pz).illegal = (buildBoard G sol2 pz).illegal := by
  unfold buildBoard
  apply foldl_rel (fun a b : puzzle => a.board = b.board ∧ a.illegal = b.illegal)
  · intro y b1 b2 hb
    apply foldl_rel (fun a b : puzzle => a.board = b.board ∧ a.illegal = b.illegal)
    · intro x c1 c2 hc
      exact buildCell_sol G sol1 sol2 c1 c2 y x hc
    · exact hb
  · exact ⟨rfl, rfl⟩

/-- The board and the illegality counter of the decoded puzzle do not depend
on the solution piece. -/
theorem decode_sol (wb c pieces sum : Nat) (sol1 sol2 : piece) (pz1 : puzzle)
    (h : puzzle.decode wb c pieces sol1 sum = some pz1) :
    ∃ pz2, puzzle.decode wb c pieces sol2 sum = some pz2 ∧ pz2.board = pz1.board ∧
      pz2.illegal = pz1.illegal := by
  unfold puzzle.decode at h ⊢
  simp only at h ⊢
  split at h
  · cases h
  · next st hst =>
    simp only [Option.some.injEq] at h
    subst h
    refine ⟨_, rfl, ?_⟩
    exact buildBoard_sol st.grid sol2 sol1 _

/-- A predecessor chain survives every change of the tables that keeps the
codes marked REACHED and their predecessors. -/
theorem chainR_mono (wb start : Nat) (g g1 : globals)
    (hbt : ∀ c, reached g c → g1.backtrace c = g.backtrace c)
    (hre : ∀ c, reached g c → reached g1 c) :
    ∀ (n c : Nat), reached g c → chainR wb start g n c → chainR wb start g1 n c := by
  intro n
  induction n with
  | zero => intro c _ h; exact h
  | succ n ih =>
    intro c hc h
    obtain ⟨h1, h2, h3, h4, h5⟩ := h
    refine ⟨h1, ?_, ?_, ?_, ?_⟩
    · rw [hbt c hc]; exact h2
    · rw [hbt c hc]; exact hre _ h3
    · rw [hbt c hc]; exact h4
    · rw [hbt c hc]; exact ih _ h3 h5

/-- Setting the flag FOUND or EXPANDED keeps the flag LEGAL. -/
theorem flag_legal (x a : Nat) (ha : a = FOUND ∨ a = EXPANDED) :
    (x ||| a) &&& LEGAL = x &&& LEGAL := by
  rcases ha with rfl | rfl <;> exact or_and_mask _ _ _ (by decide)

/-- The invariant of the scan is kept when the flag FOUND or EXPANDED of a
code is set. -/
theorem scanInv_flag (wb : Nat) (g : globals) (i a : Nat) (ha : a = FOUND ∨ a = EXPANDED)
    (hinv : scanInv wb g) :
    scanInv wb { g with hashtable := Function.update g.hashtable i (g.hashtable i ||| a) } := by
  have hR : ∀ c, (Function.update g.hashtable i (g.hashtable i ||| a)) c &&& REACHED =
      g.hashtable c &&& REACHED := by
    intro c
    by_cases hc : c = i
    · subst hc; rw [Function.update_same, flag_reached _ a ha]
    · rw [Function.update_noteq hc]
  have hL : ∀ c, (Function.update g.hashtable i (g.hashtable i ||| a)) c &&& LEGAL =
      g.hashtable c &&& LEGAL := by
    intro c
    by_cases hc : c = i
    · subst hc; rw [Function.update_same, flag_legal _ a ha]
    · rw [Function.update_noteq hc]
  have hre : ∀ c, reached { g with
      hashtable := Function.update g.hashtable i (g.hashtable i ||| a) } c ↔ reached g c := by
    intro c
    unfold reached
    simp only
    rw [hR c]
  refine ⟨hinv.mode_eq, hinv.sum_eq, ?_, ⟨(hre _).mpr hinv.start_ok.1, hinv.start_ok.2⟩, ?_, ?_⟩
  · intro j hj hl
    simp only at hl
    rw [hL j] at hl
    exact hinv.flags j hj hl
  · intro c hc hr
    exact hinv.good c hc ((hre c).mp hr)
  · intro c hc hr
    obtain ⟨n, hn⟩ := hinv.chain c hc ((hre c).mp hr)
    exact ⟨n, chainR_mono wb _ g
      { g with hashtable := Function.update g.hashtable i (g.hashtable i ||| a) }
      (fun _ _ => rfl) (fun c h => (hre c).mpr h) n c ((hre c).mp hr) hn⟩

/-- The invariant of the scan is kept when a successor of the board decoded
from a code that is marked REACHED is marked. -/
theorem scanInv_mark (wb : Nat) (hwb : 32 ≤ wb) (g : globals) (w : puzzle) (from_ : Nat)
    (hinv : scanInv wb g) (hf : from_ < S) (hfr : reached g from_) (hw : w.layout)
    (hlink : linked wb from_ (hashOf wb w)) :
    scanInv wb (markReached wb g w from_) := by
  obtain ⟨hwS, hwsum, _, _⟩ := layout_code wb hwb w hw
  have htab := markReached_tables wb g w from_
  have hfr1 : ∀ c, reached g c → (markReached wb g w from_).backtrace c = g.backtrace c :=
    fun c hc => (markReached_frame wb g w from_ c hc).2.1
  have hre1 : ∀ c, reached g c → reached (markReached wb g w from_) c :=
    fun c hc => (markReached_frame wb g w from_ c hc).2.2
  refine ⟨by rw [markReached_mode]; exact hinv.mode_eq, by rw [markReached_sum]; exact hwsum,
    ?_, ⟨hre1 _ hinv.start_ok.1, by rw [hfr1 _ hinv.start_ok.1]; exact hinv.start_ok.2⟩, ?_, ?_⟩
  · intro j hj hl
    rw [(htab j).1] at hl
    apply hinv.flags j hj
    split_ifs at hl
    · rw [or_and_mask _ REACHED LEGAL (by decide)] at hl
      exact hl
    · exact hl
  · intro c hc hr
    by_cases hn : c = hashOf wb w ∧ ¬ reached g c
    · exact ⟨w, hw, hn.1.symm⟩
    · apply hinv.good c hc
      unfold reached at hr ⊢
      rw [(htab c).1, if_neg hn] at hr
      exact hr
  · intro c hc hr
    by_cases hn : c = hashOf wb w ∧ ¬ reached g c
    · obtain ⟨n, hchain⟩ := hinv.chain from_ hf hfr
      have hbt : (markReached wb g w from_).backtrace c = from_ := by
        rw [(htab c).2, if_pos hn]
      refine ⟨n + 1, ?_, ?_, ?_, ?_, ?_⟩
      · intro hcs
        apply hn.2
        rw [hcs]
        exact hinv.start_ok.1
      · rw [hbt]; exact hf
      · rw [hbt]; exact hre1 _ hfr
      · rw [hbt, hn.1]; exact hlink
      · rw [hbt]
        exact chainR_mono wb _ g _ hfr1 hre1 n from_ hfr hchain
    · have hrc : reached g c := by
        unfold reached at hr ⊢
        rw [(htab c).1, if_neg hn] at hr
        exact hr
      obtain ⟨n, hchain⟩ := hinv.chain c hc hrc
      exact ⟨n, chainR_mono wb _ g _ hfr1 hre1 n c hrc hchain⟩

/-- The invariant of the scan is kept by the expansion of a code that is
marked LEGAL and REACHED. -/
theorem scanInv_solve (wb : Nat) (hwb : 32 ≤ wb) (g : globals) (i : Nat) (p : puzzle)
    (hinv : scanInv wb g) (hi : i < S) (hl : g.hashtable i &&& LEGAL ≠ 0) (hr : reached g i)
    (hd : puzzle.decode wb i 10 piece.default g.sum = some p) :
    scanInv wb (puzzle.solve wb 1 i p g).2.2 := by
  rw [hinv.sum_eq] at hd
  obtain ⟨p0, hp0, hill0⟩ := hinv.flags i hi hl
  obtain ⟨p1, hp1, _, hill1⟩ := decode_sol wb i 10 12 solutionPiece piece.default p0 hp0
  rw [hd] at hp1
  cases hp1
  rw [hill0] at hill1
  obtain ⟨b, hb, hbi⟩ := hinv.good i hi hr
  rw [← hbi] at hd
  obtain ⟨hplay, hpi⟩ := decoded_layout wb hwb b hb piece.default p hd hill1
  rw [hbi] at hd hpi
  rw [solve_one]
  exact (solveLoop_scan wb (puzzle.solve wb 0 0) 1 i p hplay.1
    (fun g1 => scanInv wb g1 ∧ reached g1 i)
    (fun g1 j dy dx w h1 _ hu hm =>
      ⟨scanInv_mark wb hwb g1 w i h1.1 hi h1.2 (move_layout p w hplay j dx dy hm)
          ⟨p, hd, j, dy, dx, w, hu, hm, rfl⟩,
        (markReached_frame wb g1 w i i h1.2).2.2⟩)
    (candidates p.board.length) (candidates_unit _) g hinv.mode_eq ⟨hinv, hr⟩).2.2.2.1

/-- The body of the scan loop at a code below `S` keeps the invariant of the
scan. -/
theorem scanBody_inv (wb : Nat) (hwb : 32 ≤ wb) (all : Int) (walkFuel : Nat) (st : scanState)
    (i : Nat) (hi : i < S) (brk : Bool) (st1 : scanState) (hinv : scanInv wb st.g)
    (h : scanBody wb all 10 walkFuel st i = some (brk, st1)) : scanInv wb st1.g :=
  scanBody_rule wb all 10 walkFuel (scanInv wb) i
    (fun g a hg ha => scanInv_flag wb g i a ha hg)
    (fun g p hg hl hr hd => scanInv_solve wb hwb g i p hg hi hl hr hd) st brk st1 hinv h

/-- The first loop of `scan_hashtable` over distinct codes ends and gives
every code visited the flags of its decoded puzzle; the other entries stay. -/
theorem classify_spec (wb : Nat) (hwb : 32 ≤ wb) (sum : Nat) (l : List Nat) (hnd : l.Nodup) :
    ∀ ht, ∃ ht1, classify wb 10 sum l ht = some ht1 ∧
      (∀ i ∈ l, ∃ p, puzzle.decode wb i 10 solutionPiece sum = some p ∧
        ht1 i = if p.usable then (if p.final ≠ 0 then LEGAL ||| FINAL else LEGAL)
          else ILLEGAL) ∧
      (∀ i, i ∉ l → ht1 i = ht i) := by
  induction l with
  | nil => intro ht; exact ⟨ht, rfl, fun i hi => absurd hi (List.not_mem_nil i), fun _ _ => rfl⟩
  | cons i rest ih =>
    intro ht
    obtain ⟨hi, hrest⟩ := List.nodup_cons.mp hnd
    obtain ⟨p, hp⟩ := decode_some wb hwb i sum solutionPiece
    obtain ⟨ht1, h1, h2, h3⟩ := ih hrest (Function.update ht i
      (if p.usable then (if p.final ≠ 0 then LEGAL ||| FINAL else LEGAL) else ILLEGAL))
    refine ⟨ht1, ?_, ?_, ?_⟩
    · rw [classify]
      unfold classifyCode
      rw [hp]
      exact h1
    · intro j hj
      rcases List.mem_cons.mp hj with rfl | hj
      · refine ⟨p, hp, ?_⟩
        rw [h3 j hi, Function.update_same]
      · exact h2 j hj
    · intro j hj
      rw [List.mem_cons, not_or] at hj
      rw [h3 j hj.2, Function.update_noteq hj.1]

/-- The value that the first loop of `scan_hashtable` stores does not have
the flag REACHED, and has the flag LEGAL only for a usable puzzle. -/
theorem classify_flags (p : puzzle) :
    (if p.usable then (if p.final ≠ 0 then LEGAL ||| FINAL else LEGAL) else ILLEGAL) &&&
        REACHED = 0 ∧
    ((if p.usable then (if p.final ≠ 0 then LEGAL ||| FINAL else LEGAL) else ILLEGAL) &&&
        LEGAL ≠ 0 → p.illegal = 0) := by
  constructor
  · split_ifs <;> decide
  · intro h
    by_cases hu : p.usable = true
    · simpa [puzzle.usable] using hu
    · rw [if_neg hu] at h
      exact absurd (by decide) h

theorem start_code (wb : Nat) (hwb : 32 ≤ wb) :
    puzzle.start.calculate_hashvalue wb = (22985197, 12) := by
  rw [(hash_layout wb hwb puzzle.start start_layout).1]
  decide

/-- When the scan of the start configuration enters its `while (1)` loop and
the start code has the predecessor 0, the invariant of the scan holds. -/
theorem scanInit_inv (wb : Nat) (hwb : 32 ≤ wb) (g0 : globals)
    (hbt : g0.backtrace 22985197 = 0) :
    ∃ g1, scanInit wb puzzle.start g0 = some g1 ∧ scanInv wb g1 := by
  have hcode := start_code wb hwb
  have hlen : puzzle.start.board.length = 10 := rfl
  have hs0 : hashOf wb puzzle.start = 22985197 := by unfold hashOf; rw [hcode]
  obtain ⟨ht1, h1, h2, _⟩ := classify_spec wb hwb 12 allCodes allCodes_nodup g0.hashtable
  unfold scanInit
  rw [hlen, hcode, h1]
  refine ⟨_, rfl, ?_⟩
  have hval : ∀ i < S, i ≠ 22985197 →
      Function.update ht1 22985197 (ht1 22985197 ||| REACHED) i &&& REACHED = 0 := by
    intro i hi hne
    rw [Function.update_noteq hne]
    obtain ⟨p, _, hv⟩ := h2 i ((mem_allCodes i).mpr hi)
    rw [hv]
    exact (classify_flags p).1
  have hstart : ∀ c < S, reached ⟨mode.scan,
      Function.update ht1 22985197 (ht1 22985197 ||| REACHED), g0.backtrace, 12⟩ c →
      c = 22985197 := by
    intro c hc hr
    by_contra hne
    exact hr (hval c hc hne)
  refine ⟨rfl, rfl, ?_, ⟨?_, ?_⟩, ?_, ?_⟩
  · intro i hi hl
    obtain ⟨p, hp, hv⟩ := h2 i ((mem_allCodes i).mpr hi)
    refine ⟨p, hp, (classify_flags p).2 ?_⟩
    rw [← hv]
    simp only at hl
    by_cases hne : i = 22985197
    · subst hne
      rw [Function.update_same, or_and_mask _ REACHED LEGAL (by decide)] at hl
      exact hl
    · rw [Function.update_noteq hne] at hl
      exact hl
  · rw [hs0]
    unfold reached
    simp only [Function.update_same]
    exact or_and_self _ REACHED (by decide)
  · rw [hs0]
    exact hbt
  · intro c hc hr
    exact ⟨puzzle.start, start_layout, by rw [hs0, hstart c hc hr]⟩
  · intro c hc hr
    exact ⟨0, by rw [hs0, hstart c hc hr]; rfl⟩

/-- A chain of the invariant is a predecessor chain. -/
theorem chainR_chainTo (wb start : Nat) (g : globals) (h0 : g.backtrace start = 0) :
    ∀ (n c : Nat), chainR wb start g n c → chainTo wb start g.backtrace n c := by
  intro n
  induction n with
  | zero =>
    intro c h
    have hc : c = start := h
    exact ⟨hc, by rw [hc]; exact h0⟩
  | succ n ih =>
    intro c h
    obtain ⟨h1, _, _, h4, h5⟩ := h
    exact ⟨h1, h4, ih _ h5⟩

/-- At every point of the scan of the start configuration that was started
with the predecessor 0 at the start code the invariant of the scan holds. -/
theorem scanPoint_inv (wb : Nat) (hwb : 32 ≤ wb) (all : Int) (walkFuel : Nat) (g0 : globals)
    (hbt : g0.backtrace 22985197 = 0) (st : scanState)
    (h : scanPoint wb all walkFuel puzzle.start g0 st) : scanInv wb st.g := by
  induction h with
  | init g1 hg1 =>
    obtain ⟨g2, h2, hinv⟩ := scanInit_inv wb hwb g0 hbt
    rw [hg1] at h2
    cases h2
    exact hinv
  | body st i brk st1 _ hi hb ih =>
    exact scanBody_inv wb hwb all walkFuel st i hi brk st1 ih hb
  | round st _ ih => exact ih

/-- The states that the loop of the scan passes through and ends in are
points of the scan. -/
theorem scanLoop_point (wb : Nat) (all : Int) (walkFuel : Nat) (pz : puzzle) (g0 : globals)
    (codes : List Nat) (hcodes : ∀ i ∈ codes, i < S) (fuel : Nat) :
    ∀ (g : globals) (solved total : Nat) (r : globals × Nat × Nat),
      scanPoint wb all walkFuel pz g0 ⟨g, solved, 0⟩ →
      scanLoop wb all pz.board.length walkFuel codes fuel g solved total = some r →
      ∃ st, scanPoint wb all walkFuel pz g0 st ∧ st.g = r.1 := by
  induction fuel with
  | zero => intro g solved total r _ h; simp [scanLoop] at h
  | succ fuel ih =>
    intro g solved total r hP h
    rw [scanLoop] at h
    cases hr : scanRound wb all pz.board.length walkFuel codes ⟨g, solved, 0⟩ with
    | none => rw [hr] at h; cases h
    | some x =>
      obtain ⟨brk, st⟩ := x
      rw [hr] at h
      have hst : scanPoint wb all walkFuel pz g0 st :=
        scanRound_rule wb all pz.board.length walkFuel (scanPoint wb all walkFuel pz g0) codes
          (fun st i brk st1 hi hP hb => scanPoint.body st i brk st1 hP (hcodes i hi) hb)
          ⟨g, solved, 0⟩ (brk, st) hP hr
      simp only at h
      split_ifs at h
      · simp only [Option.some.injEq] at h
        exact ⟨st, hst, by rw [← h]⟩
      · simp only [Option.some.injEq] at h
        exact ⟨st, hst, by rw [← h]⟩
      · exact ih st.g st.solved _ r (scanPoint.round st hst) h

/-- The scan is its part before the loop followed by the loop. -/
theorem scan_hashtable_eq (wb : Nat) (all : Int) (walkFuel fuel : Nat) (pz : puzzle)
    (g g1 : globals) (h : scanInit wb pz g = some g1) :
    puzzle.scan_hashtable wb all walkFuel fuel pz g =
      scanLoop wb all pz.board.length walkFuel allCodes fuel g1 0 0 := by
  unfold puzzle.scan_hashtable
  rw [h, Option.some_bind]

/-- C17: the predecessor chain.  The part of `scan_hashtable` before the loop
returns for the start configuration, and at every point of the scan of the
start configuration that was started on a zeroed predecessor table, every code
below `S` that is marked REACHED has a predecessor chain: following the
predecessor links from it leads after finitely many steps to the code
22985197 of the start configuration, whose own predecessor is 0, and every
code on the chain other than the start code is the code of a board obtained by
one accepted unit move from the board decoded from its predecessor. -/
theorem predecessor_chain (wb : Nat) (hwb : 32 ≤ wb) (all : Int) (walkFuel : Nat) (g0 : globals)
    (hbt : ∀ c, g0.backtrace c = 0) :
    hashOf wb puzzle.start = 22985197 ∧
    (∃ g1, scanInit wb puzzle.start g0 = some g1) ∧
    (∀ st, scanPoint wb all walkFuel puzzle.start g0 st →
      chainInv wb 22985197 st.g ∧ reached st.g 22985197) ∧
    ∀ (fuel : Nat) (r : globals × Nat × Nat),
      puzzle.scan_hashtable wb all walkFuel fuel puzzle.start g0 = some r →
      chainInv wb 22985197 r.1 ∧ reached r.1 22985197 := by
  have hs0 : hashOf wb puzzle.start = 22985197 := by
    unfold hashOf; rw [start_code wb hwb]
  obtain ⟨g1, hg1, _⟩ := scanInit_inv wb hwb g0 (hbt _)
  have hpoint : ∀ st, scanPoint wb all walkFuel puzzle.start g0 st →
      chainInv wb 22985197 st.g ∧ reached st.g 22985197 := by
    intro st hst
    have hinv := scanPoint_inv wb hwb all walkFuel g0 (hbt _) st hst
    have hstart := hinv.start_ok
    rw [hs0] at hstart
    refine ⟨fun c hc hr => ?_, hstart.1⟩
    obtain ⟨n, hn⟩ := hinv.chain c hc hr
    rw [hs0] at hn
    exact ⟨n, chainR_chainTo wb _ st.g hstart.2 n c hn⟩
  refine ⟨hs0, ⟨g1, hg1⟩, hpoint, fun fuel r hr => ?_⟩
  rw [scan_hashtable_eq wb all walkFuel fuel puzzle.start g0 g1 hg1] at hr
  obtain ⟨st, hst, hg⟩ := scanLoop_point wb all walkFuel puzzle.start g0 allCodes
    (fun i hi => (mem_allCodes i).mp hi) fuel g1 0 0 r (scanPoint.init g1 hg1) hr
  rw [← hg]
  exact hpoint st hst

theorem predecessor_chain_witness :
    32 ≤ 32 ∧ (∀ c, globals.init.backtrace c = 0) ∧
      (hashOf 32 puzzle.start = 22985197 ∧
        (∃ g1, scanInit 32 puzzle.start globals.init = some g1) ∧
        (∀ st, scanPoint 32 0 0 puzzle.start globals.init st →
          chainInv 32 22985197 st.g ∧ reached st.g 22985197) ∧
        ∀ (fuel : Nat) (r : globals × Nat × Nat),
          puzzle.scan_hashtable 32 0 0 fuel puzzle.start globals.init = some r →
          chainInv 32 22985197 r.1 ∧ reached r.1 22985197) :=
  ⟨by decide, fun _ => rfl, predecessor_chain 32 (by decide) 0 0 globals.init (fun _ => rfl)⟩

/-! ## Termination of the scan -/

/-- The number of unexpanded codes depends on the flags EXPANDED only. -/
theorem unexpandedIn_congr (codes : List Nat) (ht ht1 : Nat → Nat)
    (h : ∀ i ∈ codes, ht1 i &&& EXPANDED = ht i &&& EXPANDED) :
    unexpandedIn codes ht1 = unexpandedIn codes ht := by
  unfold unexpandedIn
  congr 1
  apply List.filter_congr
  intro i hi
  rw [h i hi]

/-- Marking one unexpanded code EXPANDED lowers the number of unexpanded
codes by one. -/
theorem unexpandedIn_mark (codes : List Nat) (hnd : codes.Nodup) (i : Nat) (hi : i ∈ codes)
    (ht ht1 : Nat → Nat)
    (h : ∀ j ∈ codes, j ≠ i → ht1 j &&& EXPANDED = ht j &&& EXPANDED)
    (h0 : ht i &&& EXPANDED = 0) (h1 : ht1 i &&& EXPANDED ≠ 0) :
    unexpandedIn codes ht1 + 1 = unexpandedIn codes ht := by
  induction codes with
  | nil => cases hi
  | cons a rest ih =>
    obtain ⟨ha, hrest⟩ := List.nodup_cons.mp hnd
    unfold unexpandedIn at ih ⊢
    rw [List.filter_cons, List.filter_cons]
    rcases List.mem_cons.mp hi with rfl | hin
    · have e1 : (List.filter (fun i => decide (ht1 i &&& EXPANDED = 0)) rest) =
          (List.filter (fun i => decide (ht i &&& EXPANDED = 0)) rest) := by
        apply List.filter_congr
        intro j hj
        rw [h j (List.mem_cons_of_mem _ hj) (by rintro rfl; exact ha hj)]
      simp [h0, h1, e1]
    · have hne : a ≠ i := by rintro rfl; exact ha hin
      have ea := h a (List.mem_cons_self _ _) hne
      have := ih hrest hin (fun j hj hji => h j (List.mem_cons_of_mem _ hj) hji)
      rw [ea]
      split_ifs
      · simp only [List.length_cons]; omega
      · exact this

theorem unexpandedIn_le (codes : List Nat) (ht : Nat → Nat) :
    unexpandedIn codes ht ≤ codes.length := by
  unfold unexpandedIn
  exact List.length_filter_le _ _

theorem allCodes_length : allCodes.length = S := by
  unfold allCodes
  exact List.length_range S

/-- The result of the body of the scan loop in any case: the code is skipped,
or the solution is printed and the loop is left, or the code is expanded, or
it is at most marked FOUND. -/
theorem scanBody_cases (wb : Nat) (all : Int) (pieces walkFuel : Nat) (st : scanState) (i : Nat)
    (brk : Bool) (st1 : scanState)
    (h : scanBody wb all pieces walkFuel st i = some (brk, st1)) :
    (brk = false ∧ st1 = st) ∨
    (brk = true ∧ st1 = markFound st i ∧ all = 0 ∧
      st.g.hashtable i &&& (REACHED ||| FINAL ||| FOUND) = (REACHED ||| FINAL)) ∨
    (brk = false ∧ st1 = markFound st i) ∨
    (brk = false ∧ st.g.hashtable i &&& LEGAL ≠ 0 ∧
      (markFound st i).g.hashtable i &&& (REACHED ||| FINAL ||| EXPANDED) = REACHED ∧
      ∃ p, puzzle.decode wb i pieces piece.default (markFound st i).g.sum = some p ∧
        st1 = expandCode wb (markFound st i) i p) := by
  unfold scanBody at h
  by_cases h1 : st.g.hashtable i &&& LEGAL ≠ 0
  · rw [if_pos h1] at h
    by_cases h2 : st.g.hashtable i &&& (REACHED ||| FINAL ||| FOUND) = (REACHED ||| FINAL) ∧ all = 0
    · rw [if_pos h2] at h
      cases hpp : printPath (markFound st i).g.backtrace walkFuel i with
      | none => rw [hpp] at h; cases h
      | some l =>
        rw [hpp] at h
        simp only [Option.map_some', Option.some.injEq, Prod.mk.injEq] at h
        exact Or.inr (Or.inl ⟨h.1.symm, h.2.symm, h2.2, h2.1⟩)
    · rw [if_neg h2] at h
      by_cases h3 : (markFound st i).g.hashtable i &&& (REACHED ||| FINAL ||| EXPANDED) = REACHED
      · rw [if_pos h3] at h
        cases hd : puzzle.decode wb i pieces piece.default (markFound st i).g.sum with
        | none => rw [hd] at h; cases h
        | some p =>
          rw [hd] at h
          simp only [Option.some.injEq, Prod.mk.injEq] at h
          exact Or.inr (Or.inr (Or.inr ⟨h.1.symm, h1, h3, p, rfl, h.2.symm⟩))
      · rw [if_neg h3] at h
        simp only [Option.some.injEq, Prod.mk.injEq] at h
        exact Or.inr (Or.inr (Or.inl ⟨h.1.symm, h.2.symm⟩))
  · rw [if_neg h1] at h
    simp only [Option.some.injEq, Prod.mk.injEq] at h
    exact Or.inl ⟨h.1.symm, h.2.symm⟩

/-- The first `if` of the body of the scan loop changes neither the mode nor
`expand` nor any flag EXPANDED. -/
theorem markFound_keeps (st : scanState) (i : Nat) :
    (markFound st i).g.mode = st.g.mode ∧ (markFound st i).expand = st.expand ∧
      ∀ c, (markFound st i).g.hashtable c &&& EXPANDED = st.g.hashtable c &&& EXPANDED := by
  unfold markFound
  split_ifs
  · refine ⟨rfl, rfl, fun c => ?_⟩
    simp only
    by_cases hc : c = i
    · subst hc
      rw [Function.update_same, or_and_mask _ FOUND EXPANDED (by decide)]
    · rw [Function.update_noteq hc]
  · exact ⟨rfl, rfl, fun _ => rfl⟩

/-- In scan mode `solve(1, from)` stays in scan mode and changes no flag
EXPANDED. -/
theorem solve_scan_expanded (wb from_ : Nat) (p : puzzle) (g : globals)
    (hmode : g.mode = mode.scan) :
    (puzzle.solve wb 1 from_ p g).2.2.mode = mode.scan ∧
      ∀ c, (puzzle.solve wb 1 from_ p g).2.2.hashtable c &&& EXPANDED =
        g.hashtable c &&& EXPANDED := by
  rw [solve_one]
  obtain ⟨_, k2, k3⟩ := solveLoop_scan_any wb (puzzle.solve wb 0 0) 1 from_
    (fun g1 => ∀ c, g1.hashtable c &&& EXPANDED = g.hashtable c &&& EXPANDED)
    (fun g1 w h1 _ c => by
      rw [(markReached_tables wb g1 w from_ c).1]
      split_ifs
      · rw [or_and_mask _ REACHED EXPANDED (by decide)]; exact h1 c
      · exact h1 c)
    (candidates p.board.length) p g hmode (fun _ => rfl)
  exact ⟨k2, k3⟩

/-- The body of the scan loop in scan mode at one of the codes counted: the
number of unexpanded codes drops by what `expand` grows, and no flag EXPANDED
is cleared. -/
theorem scanBody_acct (wb : Nat) (all : Int) (pieces walkFuel : Nat) (codes : List Nat)
    (hnd : codes.Nodup) (st : scanState) (i : Nat) (hi : i ∈ codes) (brk : Bool)
    (st1 : scanState) (hmode : st.g.mode = mode.scan)
    (h : scanBody wb all pieces walkFuel st i = some (brk, st1)) :
    st1.g.mode = mode.scan ∧
      unexpandedIn codes st1.g.hashtable + st1.expand =
        unexpandedIn codes st.g.hashtable + st.expand ∧
      (∀ c, st.g.hashtable c &&& EXPANDED ≠ 0 → st1.g.hashtable c &&& EXPANDED ≠ 0) ∧
      st.expand ≤ st1.expand := by
  obtain ⟨m1, m2, m3⟩ := markFound_keeps st i
  have hfound : unexpandedIn codes (markFound st i).g.hashtable =
      unexpandedIn codes st.g.hashtable :=
    unexpandedIn_congr codes _ _ (fun c _ => m3 c)
  rcases scanBody_cases wb all pieces walkFuel st i brk st1 h with
    ⟨_, rfl⟩ | ⟨_, rfl, _, _⟩ | ⟨_, rfl⟩ | ⟨_, _, hcond, p, _, rfl⟩
  · exact ⟨hmode, rfl, fun _ hc => hc, Nat.le_refl _⟩
  · exact ⟨by rw [m1]; exact hmode, by rw [hfound, m2], fun c hc => by rw [m3 c]; exact hc,
      by rw [m2]⟩
  · exact ⟨by rw [m1]; exact hmode, by rw [hfound, m2], fun c hc => by rw [m3 c]; exact hc,
      by rw [m2]⟩
  · obtain ⟨s1, s2⟩ := solve_scan_expanded wb i p (markFound st i).g (by rw [m1]; exact hmode)
    obtain ⟨_, hE⟩ := expand_cond _ hcond
    have hcount : unexpandedIn codes (expandCode wb (markFound st i) i p).g.hashtable + 1 =
        unexpandedIn codes (markFound st i).g.hashtable := by
      apply unexpandedIn_mark codes hnd i hi
      · intro j _ hji
        unfold expandCode
        simp only
        rw [Function.update_noteq hji, s2 j]
      · exact hE
      · unfold expandCode
        simp only [Function.update_same]
        exact or_and_self _ EXPANDED (by decide)
    refine ⟨s1, ?_, ?_, ?_⟩
    · have : (expandCode wb (markFound st i) i p).expand = st.expand + 1 := by
        unfold expandCode; simp only; rw [m2]
      rw [this, ← hfound]
      omega
    · intro c hc
      unfold expandCode
      simp only
      by_cases hci : c = i
      · subst hci
        rw [Function.update_same]
        exact or_and_self _ EXPANDED (by decide)
      · rw [Function.update_noteq hci, s2 c, m3 c]
        exact hc
    · unfold expandCode; simp only; rw [m2]; omega

/-- One round of the scan in scan mode: the number of unexpanded codes drops
by the number of expansions, and no flag EXPANDED is cleared. -/
theorem scanRound_acct (wb : Nat) (all : Int) (pieces walkFuel : Nat) (codes : List Nat)
    (hnd : codes.Nodup) (g : globals) (solved : Nat) (hmode : g.mode = mode.scan)
    (r : Bool × scanState)
    (h : scanRound wb all pieces walkFuel codes ⟨g, solved, 0⟩ = some r) :
    r.2.g.mode = mode.scan ∧
      unexpandedIn codes r.2.g.hashtable + r.2.expand = unexpandedIn codes g.hashtable ∧
      ∀ c, g.hashtable c &&& EXPANDED ≠ 0 → r.2.g.hashtable c &&& EXPANDED ≠ 0 := by
  have := scanRound_rule wb all pieces walkFuel
    (fun st => st.g.mode = mode.scan ∧
      unexpandedIn codes st.g.hashtable + st.expand = unexpandedIn codes g.hashtable ∧
      ∀ c, g.hashtable c &&& EXPANDED ≠ 0 → st.g.hashtable c &&& EXPANDED ≠ 0)
    codes
    (fun st i brk st1 hi hP hb => by
      obtain ⟨a1, a2, a3, _⟩ := scanBody_acct wb all pieces walkFuel codes hnd st i hi brk st1
        hP.1 hb
      exact ⟨a1, by rw [a2]; exact hP.2.1, fun c hc => a3 c (hP.2.2 c hc)⟩)
    ⟨g, solved, 0⟩ r ⟨hmode, rfl, fun _ hc => hc⟩ h
  exact this

/-- When the body of the scan loop does not print a solution, it returns
without leaving the loop, whatever the fuel of the printing loop. -/
theorem scanBody_nowalk (wb : Nat) (hwb : 32 ≤ wb) (all : Int) (st : scanState) (i : Nat)
    (h : ¬ (st.g.hashtable i &&& LEGAL ≠ 0 ∧
      st.g.hashtable i &&& (REACHED ||| FINAL ||| FOUND) = (REACHED ||| FINAL) ∧ all = 0)) :
    ∃ st1, ∀ walkFuel, scanBody wb all 10 walkFuel st i = some (false, st1) := by
  unfold scanBody
  by_cases h1 : st.g.hashtable i &&& LEGAL ≠ 0
  · have h2 : ¬ (st.g.hashtable i &&& (REACHED ||| FINAL ||| FOUND) = (REACHED ||| FINAL) ∧
        all = 0) := fun hc => h ⟨h1, hc⟩
    by_cases h3 : (markFound st i).g.hashtable i &&& (REACHED ||| FINAL ||| EXPANDED) = REACHED
    · obtain ⟨p, hp⟩ := decode_some wb hwb i (markFound st i).g.sum piece.default
      refine ⟨expandCode wb (markFound st i) i p, fun walkFuel => ?_⟩
      rw [if_pos h1, if_neg h2, if_pos h3, hp]
    · refine ⟨markFound st i, fun walkFuel => ?_⟩
      rw [if_pos h1, if_neg h2, if_neg h3]
  · refine ⟨st, fun walkFuel => ?_⟩
    rw [if_neg h1]

/-- In all-solutions mode every run of the loop body over a list of codes
returns. -/
theorem scanRound_total (wb : Nat) (hwb : 32 ≤ wb) (all : Int) (hall : all ≠ 0) (walkFuel : Nat)
    (l : List Nat) : ∀ st, ∃ r, scanRound wb all 10 walkFuel l st = some r := by
  induction l with
  | nil => intro st; exact ⟨_, rfl⟩
  | cons i rest ih =>
    intro st
    obtain ⟨st1, h1⟩ := scanBody_nowalk wb hwb all st i (fun hc => hall hc.2.2)
    obtain ⟨r, hr⟩ := ih st1
    refine ⟨r, ?_⟩
    rw [scanRound, h1 walkFuel]
    exact hr

/-- The loop of the scan ends within as many rounds as there are unexpanded
codes, plus one, when every round returns. -/
theorem scanLoop_ends (wb : Nat) (all : Int) (pieces walkFuel : Nat) (codes : List Nat)
    (hnd : codes.Nodup)
    (hround : ∀ st, ∃ r, scanRound wb all pieces walkFuel codes st = some r) (fuel : Nat) :
    ∀ (g : globals) (solved total : Nat), g.mode = mode.scan →
      unexpandedIn codes g.hashtable < fuel →
      ∃ r, scanLoop wb all pieces walkFuel codes fuel g solved total = some r := by
  induction fuel with
  | zero => intro g solved total _ h; omega
  | succ fuel ih =>
    intro g solved total hmode hU
    obtain ⟨r0, hr0⟩ := hround ⟨g, solved, 0⟩
    obtain ⟨a1, a2, _⟩ := scanRound_acct wb all pieces walkFuel codes hnd g solved hmode r0 hr0
    obtain ⟨brk, st⟩ := r0
    rw [scanLoop, hr0]
    simp only at a1 a2 ⊢
    split_ifs with h1 h2
    · exact ⟨_, rfl⟩
    · exact ⟨_, rfl⟩
    · exact ih st.g st.solved _ a1 (by omega)

/-- The loop of the scan stops at the first round that performs no
expansion. -/
theorem scanLoop_stop (wb : Nat) (all : Int) (pieces walkFuel : Nat) (codes : List Nat)
    (fuel : Nat) (g : globals) (solved total : Nat) (brk : Bool) (st : scanState)
    (h : scanRound wb all pieces walkFuel codes ⟨g, solved, 0⟩ = some (brk, st))
    (he : st.expand = 0) :
    scanLoop wb all pieces walkFuel codes (fuel + 1) g solved total =
      some (st.g, st.solved, total) := by
  rw [scanLoop, h]
  simp only
  split_ifs <;> rfl

/-- More fuel does not change the result of the printing loop. -/
theorem printPath_mono (bt : Nat → Nat) (f : Nat) :
    ∀ (f1 i : Nat) (l : List Nat), f ≤ f1 → printPath bt f i = some l →
      printPath bt f1 i = some l := by
  induction f with
  | zero =>
    intro f1 i l _ h
    cases i with
    | zero =>
      cases f1 <;> simpa [printPath] using h
    | succ i => simp [printPath] at h
  | succ f ih =>
    intro f1 i l hle h
    cases i with
    | zero =>
      cases f1 <;> simpa [printPath] using h
    | succ i =>
      cases f1 with
      | zero => omega
      | succ f1 =>
        rw [printPath] at h ⊢
        cases hp : printPath bt f (bt (i + 1)) with
        | none => rw [hp] at h; cases h
        | some l0 =>
          rw [hp] at h
          rw [ih f1 _ l0 (by omega) hp]
          exact h

/-- More fuel for the printing loop does not change the result of the body
of the scan loop. -/
theorem scanBody_mono (wb : Nat) (all : Int) (pieces f f1 : Nat) (hle : f ≤ f1) (st : scanState)
    (i : Nat) (r : Bool × scanState) (h : scanBody wb all pieces f st i = some r) :
    scanBody wb all pieces f1 st i = some r := by
  unfold scanBody at h ⊢
  by_cases h1 : st.g.hashtable i &&& LEGAL ≠ 0
  · rw [if_pos h1] at h ⊢
    by_cases h2 : st.g.hashtable i &&& (REACHED ||| FINAL ||| FOUND) = (REACHED ||| FINAL) ∧ all = 0
    · rw [if_pos h2] at h ⊢
      cases hpp : printPath (markFound st i).g.backtrace f i with
      | none => rw [hpp] at h; cases h
      | some l =>
        rw [hpp] at h
        rw [printPath_mono _ f f1 i l hle hpp]
        exact h
    · rw [if_neg h2] at h ⊢
      exact h
  · rw [if_neg h1] at h ⊢
    exact h

theorem scanRound_mono (wb : Nat) (all : Int) (pieces f f1 : Nat) (hle : f ≤ f1) (l : List Nat) :
    ∀ (st : scanState) (r : Bool × scanState), scanRound wb all pieces f l st = some r →
      scanRound wb all pieces f1 l st = some r := by
  induction l with
  | nil => intro st r h; exact h
  | cons i rest ih =>
    intro st r h
    rw [scanRound] at h ⊢
    cases hb : scanBody wb all pieces f st i with
    | none => rw [hb] at h; cases h
    | some x =>
      obtain ⟨brk, st1⟩ := x
      rw [hb] at h
      rw [scanBody_mono wb all pieces f f1 hle st i _ hb]
      cases brk with
      | true => exact h
      | false => exact ih st1 r h

theorem scanLoop_mono (wb : Nat) (all : Int) (pieces f f1 : Nat) (hle : f ≤ f1)
    (codes : List Nat) (fuel : Nat) :
    ∀ (g : globals) (solved total : Nat) (r : globals × Nat × Nat),
      scanLoop wb all pieces f codes fuel g solved total = some r →
      scanLoop wb all pieces f1 codes fuel g solved total = some r := by
  induction fuel with
  | zero => intro g solved total r h; simp [scanLoop] at h
  | succ fuel ih =>
    intro g solved total r h
    rw [scanLoop] at h ⊢
    cases hr : scanRound wb all pieces f codes ⟨g, solved, 0⟩ with
    | none => rw [hr] at h; cases h
    | some x =>
      obtain ⟨brk, st⟩ := x
      rw [hr] at h
      rw [scanRound_mono wb all pieces f f1 hle codes _ _ hr]
      simp only at h ⊢
      split_ifs at h ⊢ with h1 h2
      · exact h
      · exact h
      · exact ih st.g st.solved _ r h

/-- The printing loop ends on a predecessor chain. -/
theorem printPath_chain (wb start : Nat) (bt : Nat → Nat) (n : Nat) :
    ∀ c, chainTo wb start bt n c → ∃ l, printPath bt (n + 1) c = some l := by
  induction n with
  | zero =>
    intro c h
    obtain ⟨_, h0⟩ := h
    cases c with
    | zero => exact ⟨[], rfl⟩
    | succ c =>
      refine ⟨[c + 1], ?_⟩
      rw [printPath, h0]
      rfl
  | succ n ih =>
    intro c h
    obtain ⟨_, _, h3⟩ := h
    cases c with
    | zero => exact ⟨[], rfl⟩
    | succ c =>
      obtain ⟨l, hl⟩ := ih _ h3
      refine ⟨(c + 1) :: l, ?_⟩
      rw [printPath, hl]
      rfl

/-- A run of the loop body over codes below `S` keeps the invariant of the
scan. -/
theorem scanRound_inv (wb : Nat) (hwb : 32 ≤ wb) (all : Int) (walkFuel : Nat) (l : List Nat)
    (hl : ∀ i ∈ l, i < S) (st : scanState) (r : Bool × scanState) (hinv : scanInv wb st.g)
    (h : scanRound wb all 10 walkFuel l st = some r) : scanInv wb r.2.g :=
  scanRound_rule wb all 10 walkFuel (fun st => scanInv wb st.g) l
    (fun st i brk st1 hi hP hb => scanBody_inv wb hwb all walkFuel st i (hl i hi) brk st1 hP hb)
    st r hinv h

/-- Under the invariant of the scan every run of the loop body over codes
below `S` returns, given enough fuel for the printing loop. -/
theorem scanRound_inv_ends (wb : Nat) (hwb : 32 ≤ wb) (all : Int) (l : List Nat)
    (hl : ∀ i ∈ l, i < S) :
    ∀ st, scanInv wb st.g → ∃ walkFuel r, scanRound wb all 10 walkFuel l st = some r := by
  induction l with
  | nil => intro st _; exact ⟨0, _, rfl⟩
  | cons i rest ih =>
    intro st hinv
    have hi : i < S := hl i (List.mem_cons_self _ _)
    have hrest : ∀ j ∈ rest, j < S := fun j hj => hl j (List.mem_cons_of_mem _ hj)
    by_cases hw : st.g.hashtable i &&& LEGAL ≠ 0 ∧
        st.g.hashtable i &&& (REACHED ||| FINAL ||| FOUND) = (REACHED ||| FINAL) ∧ all = 0
    · have hinv1 : scanInv wb (markFound st i).g :=
        markFound_rule (scanInv wb) i (fun g a hg ha => scanInv_flag wb g i a ha hg) st hinv
      have hreach : reached (markFound st i).g i := by
        unfold reached
        rw [(markFound_flags st i).2.1, and_sub_mask _ _ REACHED _ hw.2.1 (by decide)]
        decide
      obtain ⟨n, hn⟩ := hinv1.chain i hi hreach
      obtain ⟨path, hpath⟩ := printPath_chain wb _ _ n i
        (chainR_chainTo wb _ _ hinv1.start_ok.2 n i hn)
      refine ⟨n + 1, (true, markFound st i), ?_⟩
      rw [scanRound]
      unfold scanBody
      rw [if_pos hw.1, if_pos hw.2, hpath]
      rfl
    · obtain ⟨st1, h1⟩ := scanBody_nowalk wb hwb all st i hw
      have hinv1 := scanBody_inv wb hwb all 0 st i hi false st1 hinv (h1 0)
      obtain ⟨wf, r, hr⟩ := ih hrest st1 hinv1
      refine ⟨wf, r, ?_⟩
      rw [scanRound, h1 wf]
      exact hr

/-! ## The bound on the rounds of the scan -/

/-- The number of codes that can still be expanded depends on the flags LEGAL
and EXPANDED only. -/
theorem frontierIn_congr (codes : List Nat) (ht ht1 : Nat → Nat)
    (hL : ∀ i ∈ codes, ht1 i &&& LEGAL = ht i &&& LEGAL)
    (hE : ∀ i ∈ codes, ht1 i &&& EXPANDED = ht i &&& EXPANDED) :
    frontierIn codes ht1 = frontierIn codes ht := by
  unfold frontierIn
  congr 1
  apply List.filter_congr
  intro i hi
  rw [hL i hi, hE i hi]

/-- Marking one code that can still be expanded EXPANDED lowers the number of
such codes by one. -/
theorem frontierIn_mark (codes : List Nat) (hnd : codes.Nodup) (i : Nat) (hi : i ∈ codes)
    (ht ht1 : Nat → Nat)
    (hL : ∀ j ∈ codes, ht1 j &&& LEGAL = ht j &&& LEGAL)
    (hE : ∀ j ∈ codes, j ≠ i → ht1 j &&& EXPANDED = ht j &&& EXPANDED)
    (hl : ht i &&& LEGAL ≠ 0) (h0 : ht i &&& EXPANDED = 0) (h1 : ht1 i &&& EXPANDED ≠ 0) :
    frontierIn codes ht1 + 1 = frontierIn codes ht := by
  induction codes with
  | nil => cases hi
  | cons a rest ih =>
    obtain ⟨ha, hrest⟩ := List.nodup_cons.mp hnd
    unfold frontierIn at ih ⊢
    rw [List.filter_cons, List.filter_cons]
    rcases List.mem_cons.mp hi with rfl | hin
    · have e1 : (List.filter (fun i => decide (ht1 i &&& LEGAL ≠ 0 ∧ ht1 i &&& EXPANDED = 0))
          rest) =
          (List.filter (fun i => decide (ht i &&& LEGAL ≠ 0 ∧ ht i &&& EXPANDED = 0)) rest) := by
        apply List.filter_congr
        intro j hj
        rw [hL j (List.mem_cons_of_mem _ hj),
          hE j (List.mem_cons_of_mem _ hj) (by rintro rfl; exact ha hj)]
      rw [if_neg (by simp [h1]), if_pos (by simp [hl, h0]), e1, List.length_cons]
    · have hne : a ≠ i := by rintro rfl; exact ha hin
      have ea := hE a (List.mem_cons_self _ _) hne
      have la := hL a (List.mem_cons_self _ _)
      have := ih hrest hin (fun j hj => hL j (List.mem_cons_of_mem _ hj))
        (fun j hj hji => hE j (List.mem_cons_of_mem _ hj) hji)
      rw [ea, la]
      split_ifs
      · simp only [List.length_cons]; omega
      · exact this

/-- When some code is not marked LEGAL, fewer codes than all can still be
expanded. -/
theorem frontierIn_lt (codes : List Nat) (ht : Nat → Nat) (z : Nat) (hz : z ∈ codes)
    (hzl : ht z &&& LEGAL = 0) : frontierIn codes ht < codes.length := by
  unfold frontierIn
  rw [List.length_filter_lt_length_iff_exists]
  exact ⟨z, hz, by simp [hzl]⟩

theorem frontierIn_le (codes : List Nat) (ht : Nat → Nat) :
    frontierIn codes ht ≤ codes.length := by
  unfold frontierIn
  exact List.length_filter_le _ _

/-- The first `if` of the body of the scan loop changes no flag LEGAL. -/
theorem markFound_legal (st : scanState) (i : Nat) :
    ∀ c, (markFound st i).g.hashtable c &&& LEGAL = st.g.hashtable c &&& LEGAL := by
  intro c
  unfold markFound
  split_ifs
  · simp only
    by_cases hc : c = i
    · subst hc
      rw [Function.update_same, or_and_mask _ FOUND LEGAL (by decide)]
    · rw [Function.update_noteq hc]
  · rfl

/-- In scan mode `solve(1, from)` changes no flag LEGAL. -/
theorem solve_scan_legal (wb from_ : Nat) (p : puzzle) (g : globals)
    (hmode : g.mode = mode.scan) :
    ∀ c, (puzzle.solve wb 1 from_ p g).2.2.hashtable c &&& LEGAL = g.hashtable c &&& LEGAL := by
  rw [solve_one]
  exact (solveLoop_scan_any wb (puzzle.solve wb 0 0) 1 from_
    (fun g1 => ∀ c, g1.hashtable c &&& LEGAL = g.hashtable c &&& LEGAL)
    (fun g1 w h1 _ c => by
      rw [(markReached_tables wb g1 w from_ c).1]
      split_ifs
      · rw [or_and_mask _ REACHED LEGAL (by decide)]; exact h1 c
      · exact h1 c)
    (candidates p.board.length) p g hmode (fun _ => rfl)).2.2

/-- The body of the scan loop in scan mode at one of the codes counted: no
flag LEGAL changes, and the number of codes that can still be expanded drops
by what `expand` grows. -/
theorem scanBody_frontier (wb : Nat) (all : Int) (pieces walkFuel : Nat) (codes : List Nat)
    (hnd : codes.Nodup) (st : scanState) (i : Nat) (hi : i ∈ codes) (brk : Bool)
    (st1 : scanState) (hmode : st.g.mode = mode.scan)
    (h : scanBody wb all pieces walkFuel st i = some (brk, st1)) :
    (∀ c, st1.g.hashtable c &&& LEGAL = st.g.hashtable c &&& LEGAL) ∧
      frontierIn codes st1.g.hashtable + st1.expand =
        frontierIn codes st.g.hashtable + st.expand := by
  obtain ⟨m1, m2, m3⟩ := markFound_keeps st i
  have m4 := markFound_legal st i
  have hfound : frontierIn codes (markFound st i).g.hashtable =
      frontierIn codes st.g.hashtable :=
    frontierIn_congr codes _ _ (fun c _ => m4 c) (fun c _ => m3 c)
  rcases scanBody_cases wb all pieces walkFuel st i brk st1 h with
    ⟨_, rfl⟩ | ⟨_, rfl, _, _⟩ | ⟨_, rfl⟩ | ⟨_, hleg, hcond, p, _, rfl⟩
  · exact ⟨fun _ => rfl, rfl⟩
  · exact ⟨m4, by rw [hfound, m2]⟩
  · exact ⟨m4, by rw [hfound, m2]⟩
  · have hmode1 : (markFound st i).g.mode = mode.scan := by rw [m1]; exact hmode
    obtain ⟨_, s2⟩ := solve_scan_expanded wb i p (markFound st i).g hmode1
    have s3 := solve_scan_legal wb i p (markFound st i).g hmode1
    obtain ⟨_, hE⟩ := expand_cond _ hcond
    have hL : ∀ c, (expandCode wb (markFound st i) i p).g.hashtable c &&& LEGAL =
        (markFound st i).g.hashtable c &&& LEGAL := by
      intro c
      unfold expandCode
      simp only
      by_cases hci : c = i
      · subst hci
        rw [Function.update_same, or_and_mask _ EXPANDED LEGAL (by decide), s3 c]
      · rw [Function.update_noteq hci, s3 c]
    have hcount : frontierIn codes (expandCode wb (markFound st i) i p).g.hashtable + 1 =
        frontierIn codes (markFound st i).g.hashtable := by
      apply frontierIn_mark codes hnd i hi
      · intro j _; exact hL j
      · intro j _ hji
        unfold expandCode
        simp only
        rw [Function.update_noteq hji, s2 j]
      · rw [m4 i]; exact hleg
      · exact hE
      · unfold expandCode
        simp only [Function.update_same]
        exact or_and_self _ EXPANDED (by decide)
    refine ⟨fun c => by rw [hL c, m4 c], ?_⟩
    have : (expandCode wb (markFound st i) i p).expand = st.expand + 1 := by
      unfold expandCode; simp only; rw [m2]
    rw [this, ← hfound]
    omega

/-- One round of the scan in scan mode: no flag LEGAL changes, and the number
of codes that can still be expanded drops by the number of expansions. -/
theorem scanRound_frontier (wb : Nat) (all : Int) (pieces walkFuel : Nat) (codes : List Nat)
    (hnd : codes.Nodup) (g : globals) (solved : Nat) (hmode : g.mode = mode.scan)
    (r : Bool × scanState)
    (h : scanRound wb all pieces walkFuel codes ⟨g, solved, 0⟩ = some r) :
    (∀ c, r.2.g.hashtable c &&& LEGAL = g.hashtable c &&& LEGAL) ∧
      frontierIn codes r.2.g.hashtable + r.2.expand = frontierIn codes g.hashtable := by
  have := scanRound_rule wb all pieces walkFuel
    (fun st => st.g.mode = mode.scan ∧
      (∀ c, st.g.hashtable c &&& LEGAL = g.hashtable c &&& LEGAL) ∧
      frontierIn codes st.g.hashtable + st.expand = frontierIn codes g.hashtable)
    codes
    (fun st i brk st1 hi hP hb => by
      obtain ⟨a1, _, _, _⟩ := scanBody_acct wb all pieces walkFuel codes hnd st i hi brk st1
        hP.1 hb
      obtain ⟨b1, b2⟩ := scanBody_frontier wb all pieces walkFuel codes hnd st i hi brk st1
        hP.1 hb
      exact ⟨a1, fun c => by rw [b1 c, hP.2.1 c], by rw [b2]; exact hP.2.2⟩)
    ⟨g, solved, 0⟩ r ⟨hmode, fun _ => rfl, rfl⟩ h
  exact this.2

/-- The loop of the scan ends within as many rounds as there are codes that
can still be expanded, plus one, when every round returns. -/
theorem scanLoop_ends_frontier (wb : Nat) (all : Int) (pieces walkFuel : Nat)
    (codes : List Nat) (hnd : codes.Nodup)
    (hround : ∀ st, ∃ r, scanRound wb all pieces walkFuel codes st = some r) (fuel : Nat) :
    ∀ (g : globals) (solved total : Nat), g.mode = mode.scan →
      frontierIn codes g.hashtable < fuel →
      ∃ r, scanLoop wb all pieces walkFuel codes fuel g solved total = some r := by
  induction fuel with
  | zero => intro g solved total _ h; omega
  | succ fuel ih =>
    intro g solved total hmode hU
    obtain ⟨r0, hr0⟩ := hround ⟨g, solved, 0⟩
    obtain ⟨a1, _, _⟩ := scanRound_acct wb all pieces walkFuel codes hnd g solved hmode r0 hr0
    obtain ⟨_, b2⟩ := scanRound_frontier wb all pieces walkFuel codes hnd g solved hmode r0 hr0
    obtain ⟨brk, st⟩ := r0
    rw [scanLoop, hr0]
    simp only at a1 b2 ⊢
    split_ifs with h1 h2
    · exact ⟨_, rfl⟩
    · exact ⟨_, rfl⟩
    · exact ih st.g st.solved _ a1 (by omega)

/-- Under the invariant of the scan the loop of the scan ends within as many
rounds as there are codes that can still be expanded, plus one, given enough
fuel for the printing loop. -/
theorem scanLoop_inv_frontier (wb : Nat) (hwb : 32 ≤ wb) (all : Int) (codes : List Nat)
    (hnd : codes.Nodup) (hlt : ∀ i ∈ codes, i < S) (fuel : Nat) :
    ∀ (g : globals) (solved total : Nat), scanInv wb g →
      frontierIn codes g.hashtable < fuel →
      ∃ walkFuel r, scanLoop wb all 10 walkFuel codes fuel g solved total = some r := by
  induction fuel with
  | zero => intro g solved total _ h; omega
  | succ fuel ih =>
    intro g solved total hinv hU
    obtain ⟨wf1, r0, hr0⟩ := scanRound_inv_ends wb hwb all codes hlt ⟨g, solved, 0⟩ hinv
    obtain ⟨_, b2⟩ := scanRound_frontier wb all 10 wf1 codes hnd g solved hinv.mode_eq r0 hr0
    have hinv1 := scanRound_inv wb hwb all wf1 codes hlt ⟨g, solved, 0⟩ r0 hinv hr0
    obtain ⟨brk, st⟩ := r0
    simp only at b2 hinv1
    by_cases h1 : st.solved ≠ 0 ∧ all = 0
    · refine ⟨wf1, (st.g, st.solved, total), ?_⟩
      rw [scanLoop, hr0]
      simp only
      rw [if_pos h1]
    · by_cases h2 : st.expand = 0
      · refine ⟨wf1, (st.g, st.solved, total), ?_⟩
        rw [scanLoop, hr0]
        simp only
        rw [if_neg h1, if_pos h2]
      · obtain ⟨wf2, r, hr⟩ := ih st.g st.solved (total + st.expand) hinv1 (by omega)
        refine ⟨max wf1 wf2, r, ?_⟩
        rw [scanLoop, scanRound_mono wb all 10 wf1 (max wf1 wf2) (Nat.le_max_left _ _) codes _ _
          hr0]
        simp only
        rw [if_neg h1, if_neg h2]
        exact scanLoop_mono wb all 10 wf2 (max wf1 wf2) (Nat.le_max_right _ _) codes fuel _ _ _
          r hr

/-- The number of unexpanded codes is the same in two tables that have the
same codes unexpanded. -/
theorem unexpandedIn_iff (codes : List Nat) (ht ht1 : Nat → Nat)
    (h : ∀ i ∈ codes, (ht1 i &&& EXPANDED = 0 ↔ ht i &&& EXPANDED = 0)) :
    unexpandedIn codes ht1 = unexpandedIn codes ht := by
  unfold unexpandedIn
  congr 1
  apply List.filter_congr
  intro i hi
  simp only [h i hi]

/-- Decoding the code 0 with piece count 10 gives a puzzle without pieces
whose illegality counter is 1. -/
theorem decode_code_zero (wb sum : Nat) (sol : piece) :
    puzzle.decode wb 0 10 sol sum = some ⟨[], 1, 0⟩ := by
  rw [decode_eq]
  show Option.map _ (decodeLoop wb 10 0 sum 64 ⟨0, 0, 0, 0, wsub wb 10 1, 0, fun _ => 0, 0⟩) = _
  rw [decodeLoop_zero wb 0 sum _ 64 0 0 (by omega) (by omega)]
  rfl

/-- Under the invariant of the scan the code 0 is not marked LEGAL. -/
theorem scanInv_zero (wb : Nat) (g : globals) (h : scanInv wb g) :
    g.hashtable 0 &&& LEGAL = 0 := by
  by_contra hne
  obtain ⟨p, hp, hill⟩ := h.flags 0 (by decide) hne
  rw [decode_code_zero wb 12 solutionPiece] at hp
  cases hp
  exact absurd hill (by decide)

/-- Under the invariant of the scan fewer than `S` codes can still be
expanded. -/
theorem scanInv_frontier (wb : Nat) (g : globals) (h : scanInv wb g) :
    frontierIn allCodes g.hashtable < S := by
  have := frontierIn_lt allCodes g.hashtable 0 ((mem_allCodes 0).mpr (by decide))
    (scanInv_zero wb g h)
  rw [allCodes_length] at this
  exact this

/-- C18: termination of the scan.  Let `scan_hashtable(all)` be called on the
start configuration, in either mode, on any state of the flag table and any
state of the predecessor table in which the start code 22985197 has the
predecessor 0 (the tables are zeroed when the program starts).  Then the scan
returns after at most `S` rounds of its `while (1)` loop.  The part before
the loop returns and gives a first point of the scan, and from every point of
the scan: the loop, entered there, returns after at most `S` rounds; the next
round returns; every round that returns lowers the number of codes below `S`
that are not marked EXPANDED by exactly its number of expansions and clears
no flag EXPANDED, so no code is expanded twice; a round with at least one
expansion marks a code EXPANDED that was not marked before; and a round with
zero expansions ends the loop.  In all-solutions mode the loop returns from
every state of the tables in scan mode whatsoever. -/
theorem scan_terminates (wb : Nat) (hwb : 32 ≤ wb) (all : Int) (g0 : globals)
    (hbt : g0.backtrace 22985197 = 0) :
    (∃ walkFuel r, puzzle.scan_hashtable wb all walkFuel S puzzle.start g0 = some r) ∧
    (∃ g1, scanInit wb puzzle.start g0 = some g1 ∧
      scanPoint wb all 0 puzzle.start g0 ⟨g1, 0, 0⟩) ∧
    (∀ (walkFuel0 : Nat) (st : scanState), scanPoint wb all walkFuel0 puzzle.start g0 st →
      (∀ total, ∃ walkFuel r,
        scanLoop wb all 10 walkFuel allCodes S st.g st.solved total = some r) ∧
      (∃ walkFuel r, scanRound wb all 10 walkFuel allCodes ⟨st.g, st.solved, 0⟩ = some r) ∧
      ∀ (walkFuel : Nat) (r : Bool × scanState),
        scanRound wb all 10 walkFuel allCodes ⟨st.g, st.solved, 0⟩ = some r →
        unexpandedIn allCodes r.2.g.hashtable + r.2.expand =
          unexpandedIn allCodes st.g.hashtable ∧
        (∀ c, st.g.hashtable c &&& EXPANDED ≠ 0 → r.2.g.hashtable c &&& EXPANDED ≠ 0) ∧
        (r.2.expand ≠ 0 → ∃ c < S, st.g.hashtable c &&& EXPANDED = 0 ∧
          r.2.g.hashtable c &&& EXPANDED ≠ 0) ∧
        (r.2.expand = 0 → ∀ fuel total,
          scanLoop wb all 10 walkFuel allCodes (fuel + 1) st.g st.solved total =
            some (r.2.g, r.2.solved, total))) ∧
    (all ≠ 0 → ∀ (g : globals) (walkFuel solved total : Nat), g.mode = mode.scan →
      ∃ fuel r, scanLoop wb all 10 walkFuel allCodes fuel g solved total = some r) := by
  have hlt : ∀ i ∈ allCodes, i < S := fun i hi => (mem_allCodes i).mp hi
  obtain ⟨g1, hg1, hinv1⟩ := scanInit_inv wb hwb g0 hbt
  refine ⟨?_, ⟨g1, hg1, scanPoint.init g1 hg1⟩, ?_, ?_⟩
  · obtain ⟨wf, r, hr⟩ := scanLoop_inv_frontier wb hwb all allCodes allCodes_nodup hlt S g1 0 0
      hinv1 (scanInv_frontier wb g1 hinv1)
    refine ⟨wf, r, ?_⟩
    rw [scan_hashtable_eq wb all wf S puzzle.start g0 g1 hg1]
    exact hr
  · intro walkFuel0 st hst
    have hinv := scanPoint_inv wb hwb all walkFuel0 g0 hbt st hst
    refine ⟨fun total => ?_, ?_, ?_⟩
    · exact scanLoop_inv_frontier wb hwb all allCodes allCodes_nodup hlt S st.g st.solved total
        hinv (scanInv_frontier wb st.g hinv)
    · exact scanRound_inv_ends wb hwb all allCodes hlt ⟨st.g, st.solved, 0⟩ hinv
    · intro walkFuel r hr
      obtain ⟨_, a2, a3⟩ := scanRound_acct wb all 10 walkFuel allCodes allCodes_nodup st.g
        st.solved hinv.mode_eq r hr
      refine ⟨a2, a3, fun he => ?_, fun he fuel total => ?_⟩
      · by_contra hno
        have hsame : unexpandedIn allCodes r.2.g.hashtable =
            unexpandedIn allCodes st.g.hashtable := by
          apply unexpandedIn_iff
          intro i hi
          constructor
          · intro h1
            by_contra h0
            exact a3 i h0 h1
          · intro h0
            by_contra h1
            exact hno ⟨i, hlt i hi, h0, h1⟩
        omega
      · obtain ⟨brk, st1⟩ := r
        exact scanLoop_stop wb all 10 walkFuel allCodes fuel st.g st.solved total brk st1 hr he
  · intro hall g walkFuel solved total hmode
    exact ⟨frontierIn allCodes g.hashtable + 1,
      scanLoop_ends_frontier wb all 10 walkFuel allCodes allCodes_nodup
        (scanRound_total wb hwb all hall walkFuel allCodes) _ g solved total hmode
        (Nat.lt_succ_self _)⟩

theorem scan_terminates_witness :
    32 ≤ 32 ∧ globals.init.backtrace 22985197 = 0 ∧
      ((∃ walkFuel r, puzzle.scan_hashtable 32 0 walkFuel S puzzle.start globals.init = some r) ∧
      (∃ g1, scanInit 32 puzzle.start globals.init = some g1 ∧
        scanPoint 32 0 0 puzzle.start globals.init ⟨g1, 0, 0⟩) ∧
      (∀ (walkFuel0 : Nat) (st : scanState),
        scanPoint 32 0 walkFuel0 puzzle.start globals.init st →
        (∀ total, ∃ walkFuel r,
          scanLoop 32 0 10 walkFuel allCodes S st.g st.solved total = some r) ∧
        (∃ walkFuel r, scanRound 32 0 10 walkFuel allCodes ⟨st.g, st.solved, 0⟩ = some r) ∧
        ∀ (walkFuel : Nat) (r : Bool × scanState),
          scanRound 32 0 10 walkFuel allCodes ⟨st.g, st.solved, 0⟩ = some r →
          unexpandedIn allCodes r.2.g.hashtable + r.2.expand =
            unexpandedIn allCodes st.g.hashtable ∧
          (∀ c, st.g.hashtable c &&& EXPANDED ≠ 0 → r.2.g.hashtable c &&& EXPANDED ≠ 0) ∧
          (r.2.expand ≠ 0 → ∃ c < S, st.g.hashtable c &&& EXPANDED = 0 ∧
            r.2.g.hashtable c &&& EXPANDED ≠ 0) ∧
          (r.2.expand = 0 → ∀ fuel total,
            scanLoop 32 0 10 walkFuel allCodes (fuel + 1) st.g st.solved total =
              some (r.2.g, r.2.solved, total))) ∧
      ((0 : Int) ≠ 0 → ∀ (g : globals) (walkFuel solved total : Nat), g.mode = mode.scan →
        ∃ fuel r, scanLoop 32 0 10 walkFuel allCodes fuel g solved total = some r)) ∧
      (∃ walkFuel r, puzzle.scan_hashtable 32 1 walkFuel S puzzle.start globals.init = some r) ∧
      seenTable.mode = mode.scan ∧
      ∃ fuel r, scanLoop 32 1 10 0 allCodes fuel seenTable 0 0 = some r :=
  ⟨by decide, rfl, scan_terminates 32 (by decide) 0 globals.init rfl,
    (scan_terminates 32 (by decide) 1 globals.init rfl).1, rfl,
    (scan_terminates 32 (by decide) 1 globals.init rfl).2.2.2 (by decide) seenTable 0 0 0 rfl⟩

end Woodpuzzle
